import Mathlib

/-!
# Resource identifier parsing and formatting

A shallow embedding of the hand-written identifier code of the provider:

* `mhsmprivateendpointconnections.PrivateEndpointConnectionId` with its
  formatter `ID` and its two parsers
  (`ParsePrivateEndpointConnectionID`, `ParsePrivateEndpointConnectionIDInsensitively`);
* `parse.ManagedHSMRoleDefinitionId` (package `managedhsm/parse`) with its
  formatter `ID` and its parser `ManagedHSMRoleDefinitionID`;
* `validate.AppConfigurationFeatureID` (package `appconfiguration/validate`);
* `expandHDInsightInteractiveQueryComponentVersion` and
  `flattenHDInsightInteractiveQueryComponentVersion` (package `hdinsight`).

A Go `string` is a finite sequence of bytes.  It is embedded as a list of
characters, the character with code `b` standing for the byte `b`; every
literal of the source is ASCII, so a Lean string literal denotes the same
bytes.  Go maps are embedded as association lists with unique keys, and the
order in which a `range` loop visits a map is a parameter.

Both parsers call the resource ID library `go-azure-helpers`
(`resourceids.ParseAzureResourceID`, `PopSegment`, `ValidateNoEmptySegments`),
which reads the input with `url.ParseRequestURI`.  The library is embedded
below; of `net/url` only the validation of the authority of an absolute URI is
left as a parameter, `parseAuthority`.  The parser of the role definition ID
calls `url.ParseRequestURI` itself and keeps the host that `parseAuthority`
returns.
-/

namespace AzureRM

/-- A Go string: its bytes, in order. -/
abbrev GoString := List Char

/-! ## The parts of the Go standard library the identifier code calls -/

/-- The Go function `strings.TrimPrefix`. -/
def TrimPrefix (s pre : GoString) : GoString :=
  if pre.isPrefixOf s then s.drop pre.length else s

/-- The Go function `strings.TrimSuffix`. -/
def TrimSuffix (s suf : GoString) : GoString :=
  if suf.isSuffixOf s then s.take (s.length - suf.length) else s

/-- The Go call `strings.Split(s, "/")`: the pieces between the slashes, one more than
there are slashes. -/
def splitSlash : GoString → List GoString
  | [] => [[]]
  | c :: cs =>
    if c = '/' then [] :: splitSlash cs
    else
      match splitSlash cs with
      | [] => [[c]]
      | w :: ws => (c :: w) :: ws

/-- The Go function `fmt.Sprintf` for a format whose only verbs are `%s`, applied to
string operands: each `%s` is replaced by the next operand, every other byte
is copied.  (A `%s` without operand prints `%!s(MISSING)`.) -/
def Sprintf : GoString → List GoString → GoString
  | [], _ => []
  | [c], _ => [c]
  | c :: d :: rest, args =>
    if c = '%' ∧ d = 's' then
      match args with
      | a :: args₁ => a ++ Sprintf rest args₁
      | [] => "%!s(MISSING)".data ++ Sprintf rest []
    else c :: Sprintf (d :: rest) args

/-- ASCII case folding of one byte pair, as in `strings.EqualFold`: the bytes are equal,
or the smaller is an upper-case letter and the larger is its lower-case form. -/
def asciiFoldEq (sr tr : Char) : Bool :=
  if tr = sr then true
  else if tr.toNat < sr.toNat then
    decide (65 ≤ tr.toNat ∧ tr.toNat ≤ 90 ∧ sr.toNat = tr.toNat + 32)
  else decide (65 ≤ sr.toNat ∧ sr.toNat ≤ 90 ∧ tr.toNat = sr.toNat + 32)

/-- One round of the loop of `strings.EqualFold s t` against the ASCII byte `tr` of `t`:
the first rune of `s` is taken off, and what is left of `s` is returned when
the rune equals `tr` under simple case folding.  A byte of `s` below `0x80` is
compared by `asciiFoldEq`; the only other runes that simple folding identifies
with an ASCII rune are U+017F (bytes `C5 BF`, folds to `s` and `S`) and U+212A
(bytes `E2 84 AA`, folds to `k` and `K`); any other rune of `s`, well-formed or
not, equals no ASCII rune. -/
def foldStep (s : GoString) (tr : Char) : Option GoString :=
  match s with
  | [] => none
  | c :: s₁ =>
    if c.toNat < 128 then (if asciiFoldEq c tr then some s₁ else none)
    else if c.toNat = 0xC5 then
      match s₁ with
      | c₁ :: s₂ => if c₁.toNat = 0xBF ∧ (tr = 's' ∨ tr = 'S') then some s₂ else none
      | [] => none
    else if c.toNat = 0xE2 then
      match s₁ with
      | c₁ :: c₂ :: s₃ =>
        if c₁.toNat = 0x84 ∧ c₂.toNat = 0xAA ∧ (tr = 'k' ∨ tr = 'K') then some s₃ else none
      | _ => none
    else none

/-- The Go function `strings.EqualFold s t` for an ASCII `t` (the parsers only pass a
literal label as `t`): the runes of `s` are matched one by one against the
bytes of `t`, and both strings must end together. -/
def EqualFold : GoString → GoString → Bool
  | s, [] => s.isEmpty
  | s, tr :: t =>
    match foldStep s tr with
    | some s₁ => EqualFold s₁ t
    | none => false

/-! ### `net/url` -/

/-- The fields of `url.URL` that the identifier code reads. -/
structure URL where
  Scheme : GoString
  Opaque : GoString
  Host : GoString
  Path : GoString
  RawQuery : GoString
  deriving DecidableEq, Repr

/-- The check `stringContainsCTLByte` of `net/url`. -/
def stringContainsCTLByte (s : GoString) : Bool :=
  s.any fun b => decide (b.toNat < 32 ∨ b.toNat = 127)

/-- Is the byte an ASCII letter. -/
def isAsciiLetter (c : Char) : Bool :=
  decide ((97 ≤ c.toNat ∧ c.toNat ≤ 122) ∨ (65 ≤ c.toNat ∧ c.toNat ≤ 90))

/-- Is the byte an ASCII digit. -/
def isAsciiDigit (c : Char) : Bool :=
  decide (48 ≤ c.toNat ∧ c.toNat ≤ 57)

/-- The loop of `getScheme` in `net/url`, at index `i` with `cs` the bytes from `i` on:
`none` is the error "missing protocol scheme", otherwise the scheme and the rest. -/
def getSchemeLoop (rawURL : GoString) : Nat → GoString → Option (GoString × GoString)
  | _, [] => some ([], rawURL)
  | i, c :: cs =>
    if isAsciiLetter c then getSchemeLoop rawURL (i + 1) cs
    else if isAsciiDigit c || c = '+' || c = '-' || c = '.' then
      if i = 0 then some ([], rawURL) else getSchemeLoop rawURL (i + 1) cs
    else if c = ':' then
      if i = 0 then none else some (rawURL.take i, cs)
    else some ([], rawURL)

/-- The function `getScheme` of `net/url`. -/
def getScheme (rawURL : GoString) : Option (GoString × GoString) :=
  getSchemeLoop rawURL 0 rawURL

/-- Is the byte a hexadecimal digit (`ishex`). -/
def ishex (c : Char) : Bool :=
  decide ((48 ≤ c.toNat ∧ c.toNat ≤ 57) ∨ (97 ≤ c.toNat ∧ c.toNat ≤ 102)
    ∨ (65 ≤ c.toNat ∧ c.toNat ≤ 70))

/-- The value of a hexadecimal digit (`unhex`). -/
def unhex (c : Char) : Nat :=
  if 48 ≤ c.toNat ∧ c.toNat ≤ 57 then c.toNat - 48
  else if 97 ≤ c.toNat ∧ c.toNat ≤ 102 then c.toNat - 97 + 10
  else if 65 ≤ c.toNat ∧ c.toNat ≤ 70 then c.toNat - 65 + 10
  else 0

/-- The function `unescape(s, encodePath)` of `net/url`: every `%` must be followed by two
hexadecimal digits and the triple is replaced by the byte they spell; `none` is
an `EscapeError`. -/
def unescapePath : GoString → Option GoString
  | [] => some []
  | c :: rest =>
    if c = '%' then
      match rest with
      | a :: b :: rest₂ =>
        if ishex a && ishex b then
          (unescapePath rest₂).map fun t => Char.ofNat (unhex a * 16 + unhex b) :: t
        else none
      | _ => none
    else (unescapePath rest).map fun t => c :: t

/-- The part of a request target before the query: `parse` of `net/url` drops a
single final `?`, and otherwise cuts at the first `?`. -/
def cutQuery (rest : GoString) : GoString × GoString :=
  if ['?'].isSuffixOf rest ∧ rest.count '?' = 1 then (rest.dropLast, [])
  else (rest.takeWhile (· ≠ '?'), (rest.dropWhile (· ≠ '?')).drop 1)

/-- The Go function `url.ParseRequestURI` (`parse rawURL true` of `net/url`); `none`
is an error.  The validation of the authority of an absolute URI
(`parseAuthority`: user information, host, port) is the parameter
`parseAuthority`, which yields the host of a well-formed authority. -/
def ParseRequestURI (parseAuthority : GoString → Option GoString) (rawURL : GoString) :
    Option URL :=
  if stringContainsCTLByte rawURL then none
  else if rawURL = [] then none
  else if rawURL = ['*'] then some ⟨[], [], [], ['*'], []⟩
  else
    match getScheme rawURL with
    | none => none
    | some (scheme₀, rest₀) =>
      let scheme := scheme₀.map Char.toLower
      let rest := (cutQuery rest₀).1
      let rawQuery := (cutQuery rest₀).2
      if ¬ ['/'].isPrefixOf rest then
        if scheme ≠ [] then some ⟨scheme, rest, [], [], rawQuery⟩ else none
      else if scheme ≠ [] ∧ ['/', '/'].isPrefixOf rest then
        let authority := (rest.drop 2).takeWhile (· ≠ '/')
        let rest₁ := (rest.drop 2).dropWhile (· ≠ '/')
        match parseAuthority authority with
        | none => none
        | some host =>
          match unescapePath rest₁ with
          | none => none
          | some path => some ⟨scheme, [], host, path, rawQuery⟩
      else
        match unescapePath rest with
        | none => none
        | some path => some ⟨scheme, [], [], path, rawQuery⟩

/-! ## Go maps from strings to strings -/

/-- A Go `map[string]string`: an association list in which every key occurs once. -/
abbrev GoMap := List (GoString × GoString)

namespace GoMap

/-- The lookup `v, ok := m[k]`. -/
def get? (m : GoMap) (k : GoString) : Option GoString :=
  (m.find? fun e => e.1 = k).map Prod.snd

/-- The assignment `m[k] = v`. -/
def set : GoMap → GoString → GoString → GoMap
  | [], k, v => [(k, v)]
  | (k₀, v₀) :: m, k, v => if k₀ = k then (k, v) :: m else (k₀, v₀) :: set m k v

/-- The statement `delete(m, k)`. -/
def delete (m : GoMap) (k : GoString) : GoMap :=
  m.filter fun e => e.1 ≠ k

/-- The keys of the map. -/
def keys (m : GoMap) : List GoString :=
  m.map Prod.fst

end GoMap

/-! ## Errors -/

/-- The errors the identifier code returns.  An error built with `fmt.Errorf` from a
literal of the source is `msg` with that literal; the errors of the resource
ID library carry the values their messages are formatted from. -/
inductive ParseError where
  /-- An error of `url.ParseRequestURI`, wrapped. -/
  | invalidURI (input : GoString)
  /-- The number of path segments is not divisible by 2. -/
  | oddSegments (path : GoString)
  /-- Key/Value cannot be empty strings. -/
  | emptyKeyValue (key value : GoString)
  /-- No subscription ID found. -/
  | noSubscriptionID (path : GoString)
  /-- The segment popped is not a key of the path: "ID was missing the ... element". -/
  | missingElement (name : GoString)
  /-- The segment popped has an empty value. -/
  | emptyValue (name : GoString)
  /-- ID contained more segments than required. -/
  | moreSegments (sourceId : GoString)
  /-- An error whose message is a literal of the source. -/
  | msg (text : String)
  deriving DecidableEq, Repr

/-! ## The resource ID library (`go-azure-helpers`, `resourcemanager/resourceids`) -/

/-- Modelled from the spec: the struct `resourceids.ResourceID` of the vendored library
`go-azure-helpers`, which is not among the source files; the parsers of the
source read its fields `SubscriptionID`, `ResourceGroup` and `Path`. -/
structure ResourceID where
  SubscriptionID : GoString
  ResourceGroup : GoString
  Provider : GoString
  SecondaryProvider : GoString
  Path : GoMap
  deriving DecidableEq, Repr

/-- Modelled from the spec: the loop of `resourceids.ParseAzureResourceID` (not among the
source files) over the key/value pairs of the path, with the state
`(subscriptionID, provider, componentMap)`.  A pair with an empty key or value
is an error; the first `subscriptions` pair and the first `providers` pair are
kept aside; every other pair goes into the map, a later pair with the same key
replacing the earlier one. -/
def collectComponents :
    List GoString → GoString × GoString × GoMap → Except ParseError (GoString × GoString × GoMap)
  | key :: value :: rest, (subscriptionID, provider, componentMap) =>
    if key = [] ∨ value = [] then .error (.emptyKeyValue key value)
    else if key = "subscriptions".data ∧ subscriptionID = [] then
      collectComponents rest (value, provider, componentMap)
    else if key = "providers".data ∧ provider = [] then
      collectComponents rest (subscriptionID, value, componentMap)
    else collectComponents rest (subscriptionID, provider, componentMap.set key value)
  | _, st => .ok st

/-- Modelled from the spec: the step of `resourceids.ParseAzureResourceID` (not among the
source files) that moves the resource group out of the map: the value of the
key `resourceGroups`, else of the key `resourcegroups`, else the empty string;
the key found is deleted. -/
def takeResourceGroup (componentMap : GoMap) : GoString × GoMap :=
  match componentMap.get? "resourceGroups".data with
  | some resourceGroup => (resourceGroup, componentMap.delete "resourceGroups".data)
  | none =>
    match componentMap.get? "resourcegroups".data with
    | some resourceGroup => (resourceGroup, componentMap.delete "resourcegroups".data)
    | none => ([], componentMap)

/-- Modelled from the spec: the second half of `resourceids.ParseAzureResourceID` (not
among the source files): the number of segments of the trimmed path must be
even, the pairs are collected, the subscription ID is required, and the
resource group and the secondary provider are moved out of the map. -/
def resourceIDOfComponents (path : GoString) (components : List GoString) :
    Except ParseError ResourceID :=
  if components.length % 2 ≠ 0 then .error (.oddSegments path)
  else
    match collectComponents components ([], [], []) with
    | .error e => .error e
    | .ok (subscriptionID, provider, componentMap) =>
      if subscriptionID = [] then .error (.noSubscriptionID path)
      else
        let rg := takeResourceGroup componentMap
        let secondaryProvider := (rg.2.get? "providers".data).getD []
        if secondaryProvider ≠ [] then
          .ok ⟨subscriptionID, rg.1, provider, secondaryProvider, rg.2.delete "providers".data⟩
        else .ok ⟨subscriptionID, rg.1, provider, [], rg.2⟩

/-- Modelled from the spec: the path that `resourceids.ParseAzureResourceID` (not among
the source files) splits: the URL path without one leading and one trailing
slash. -/
def trimmedPath (idURL : URL) : GoString :=
  TrimSuffix (TrimPrefix idURL.Path "/".data) "/".data

/-- Modelled from the spec: `resourceids.ParseAzureResourceID`, the legacy parser of the
vendored library `go-azure-helpers` that both parsers of the source call, is
not among the source files.  As in section 4.2 of the spec it rejects the empty
input and splits the path on `/` after dropping one leading and one trailing
slash.  The path is the one `url.ParseRequestURI` finds in the input, and the
segments are read as key/value pairs, which is what the callers in the source
consume (`SubscriptionID`, `ResourceGroup`, `Path`, `PopSegment`): the first
`subscriptions` and `providers` pairs and the `resourceGroups` (or
`resourcegroups`) pair fill the fields of the same name, a second `providers`
pair is the secondary provider, and all other pairs are the map `Path`. -/
def ParseAzureResourceID (parseAuthority : GoString → Option GoString) (id : GoString) :
    Except ParseError ResourceID :=
  match ParseRequestURI parseAuthority id with
  | none => .error (.invalidURI id)
  | some idURL => resourceIDOfComponents (trimmedPath idURL) (splitSlash (trimmedPath idURL))

/-- Modelled from the spec: the method `PopSegment` of `resourceids.ResourceID` (same
library, not among the source files): the value of the key `name` of `Path`,
which is removed from the map; an error when the key is absent ("missing ...
element") or its value is empty. -/
def ResourceID.PopSegment (id : ResourceID) (name : GoString) :
    Except ParseError (GoString × ResourceID) :=
  match id.Path.get? name with
  | none => .error (.missingElement name)
  | some val =>
    if val = [] then .error (.emptyValue name)
    else .ok (val, { id with Path := id.Path.delete name })

/-- Modelled from the spec: the method `ValidateNoEmptySegments` of
`resourceids.ResourceID` (same library, not among the source files): an error
when a key is left in `Path`, that is, when the ID has more segments than the
parser consumed. -/
def ResourceID.ValidateNoEmptySegments (id : ResourceID) (sourceId : GoString) :
    Except ParseError Unit :=
  if id.Path.length = 0 then .ok () else .error (.moreSegments sourceId)

/-! ## `mhsmprivateendpointconnections`: the private endpoint connection of a managed HSM -/

/-- The struct `PrivateEndpointConnectionId`. -/
structure PrivateEndpointConnectionId where
  SubscriptionId : GoString
  ResourceGroup : GoString
  ManagedHSMName : GoString
  Name : GoString
  deriving DecidableEq, Repr

/-- The constructor `NewPrivateEndpointConnectionID`. -/
def NewPrivateEndpointConnectionID (subscriptionId resourceGroup managedHSMName name : GoString) :
    PrivateEndpointConnectionId :=
  { SubscriptionId := subscriptionId, ResourceGroup := resourceGroup,
    ManagedHSMName := managedHSMName, Name := name }

/-- The method `ID`: `fmt.Sprintf` of the format string
`/subscriptions/%s/resourceGroups/%s/providers/Microsoft.KeyVault/managedHSMs/%s/privateEndpointConnections/%s`
with the four fields. -/
def PrivateEndpointConnectionId.ID (id : PrivateEndpointConnectionId) : GoString :=
  let fmtString :=
    "/subscriptions/%s/resourceGroups/%s/providers/Microsoft.KeyVault/managedHSMs/%s/privateEndpointConnections/%s"
  Sprintf fmtString.data [id.SubscriptionId, id.ResourceGroup, id.ManagedHSMName, id.Name]

/-- The function `ParsePrivateEndpointConnectionID`. -/
def ParsePrivateEndpointConnectionID (parseAuthority : GoString → Option GoString)
    (input : GoString) : Except ParseError PrivateEndpointConnectionId :=
  match ParseAzureResourceID parseAuthority input with
  | .error err => .error err
  | .ok id =>
    if id.SubscriptionID = [] then .error (.msg "ID was missing the 'subscriptions' element")
    else if id.ResourceGroup = [] then .error (.msg "ID was missing the 'resourceGroups' element")
    else
      match id.PopSegment "managedHSMs".data with
      | .error err => .error err
      | .ok (managedHSMName, id₁) =>
        match id₁.PopSegment "privateEndpointConnections".data with
        | .error err => .error err
        | .ok (name, id₂) =>
          match id₂.ValidateNoEmptySegments input with
          | .error err => .error err
          | .ok _ =>
            .ok { SubscriptionId := id.SubscriptionID, ResourceGroup := id.ResourceGroup,
                  ManagedHSMName := managedHSMName, Name := name }

/-- The order in which one `for key := range m` statement visits the keys of a map: Go
leaves it unspecified, so it is any rearrangement of the keys. -/
structure RangeOrder where
  visit : List GoString → List GoString
  perm : ∀ ks, (visit ks).Perm ks

/-- The order of the association list itself. -/
def RangeOrder.asStored : RangeOrder := ⟨id, fun _ => List.Perm.refl _⟩

/-- The reversed order of the association list. -/
def RangeOrder.reversed : RangeOrder := ⟨List.reverse, fun ks => List.reverse_perm ks⟩

/-- The loop "find the correct casing" of the insensitive parser: the first key visited
that `strings.EqualFold` identifies with the label, or the label itself when
there is none. -/
def findCasing (order : RangeOrder) (path : GoMap) (label : GoString) : GoString :=
  ((order.visit path.keys).find? fun key => EqualFold key label).getD label

/-- The function `ParsePrivateEndpointConnectionIDInsensitively`; `order₁` and `order₂`
are the orders in which its two `range` loops visit `id.Path`. -/
def ParsePrivateEndpointConnectionIDInsensitively (parseAuthority : GoString → Option GoString)
    (order₁ order₂ : RangeOrder) (input : GoString) :
    Except ParseError PrivateEndpointConnectionId :=
  match ParseAzureResourceID parseAuthority input with
  | .error err => .error err
  | .ok id =>
    if id.SubscriptionID = [] then .error (.msg "ID was missing the 'subscriptions' element")
    else if id.ResourceGroup = [] then .error (.msg "ID was missing the 'resourceGroups' element")
    else
      let managedHSMsKey := findCasing order₁ id.Path "managedHSMs".data
      match id.PopSegment managedHSMsKey with
      | .error err => .error err
      | .ok (managedHSMName, id₁) =>
        let privateEndpointConnectionsKey :=
          findCasing order₂ id₁.Path "privateEndpointConnections".data
        match id₁.PopSegment privateEndpointConnectionsKey with
        | .error err => .error err
        | .ok (name, id₂) =>
          match id₂.ValidateNoEmptySegments input with
          | .error err => .error err
          | .ok _ =>
            .ok { SubscriptionId := id.SubscriptionID, ResourceGroup := id.ResourceGroup,
                  ManagedHSMName := managedHSMName, Name := name }

/-! ## `managedhsm/parse`: the role definition of a managed HSM -/

/-- The Go function `strings.Join`. -/
def Join : List GoString → GoString → GoString
  | [], _ => []
  | [a], _ => a
  | a :: b :: rest, sep => a ++ sep ++ Join (b :: rest) sep

/-- The Go call `strings.LastIndex(s, "/")`: the index of the last slash of `s`, and `-1`
when `s` holds no slash. -/
def lastIndexSlash : GoString → Int
  | [] => -1
  | c :: cs =>
    if 0 ≤ lastIndexSlash cs then lastIndexSlash cs + 1
    else if c = '/' then 0
    else -1

/-- The struct `ManagedHSMRoleDefinitionId`. -/
structure ManagedHSMRoleDefinitionId where
  VaultBaseUrl : GoString
  Scope : GoString
  Name : GoString
  deriving DecidableEq, Repr

/-- The errors of `ManagedHSMRoleDefinitionID`, with the value each message is formatted
from. -/
inductive RoleDefinitionError where
  /-- The error of `url.ParseRequestURI`: "cannot parse Azure KeyVault Child Id". -/
  | cannotParse (input : GoString)
  /-- The message "no name speparate exist in" the input. -/
  | noNameSeparator (input : GoString)
  /-- The message "no type speparate exist in" the input. -/
  | noTypeSeparator (input : GoString)
  /-- The message "invalid type ..., must be 'RoleDefinition'". -/
  | invalidType (typ : GoString)
  deriving DecidableEq, Repr

/-- The method `ID` of `ManagedHSMRoleDefinitionId`. -/
def ManagedHSMRoleDefinitionId.ID (n : ManagedHSMRoleDefinitionId) : GoString :=
  let segments := [TrimSuffix n.VaultBaseUrl "/".data, n.Scope, "RoleDefinition".data, n.Name]
  TrimSuffix (Join segments "/".data) "/".data

/-- The method `String` of `ManagedHSMRoleDefinitionId`. -/
def ManagedHSMRoleDefinitionId.String (n : ManagedHSMRoleDefinitionId) : GoString :=
  n.ID

/-- The function `ManagedHSMRoleDefinitionID`.  The slices `path[:i]` and `path[i+1:]` are
`take` and `drop`. -/
def ManagedHSMRoleDefinitionID (parseAuthority : GoString → Option GoString)
    (input : GoString) : Except RoleDefinitionError ManagedHSMRoleDefinitionId :=
  match ParseRequestURI parseAuthority input with
  | none => .error (.cannotParse input)
  | some idURL =>
    let path := TrimSuffix (TrimPrefix idURL.Path "/".data) "/".data
    let nameSep := lastIndexSlash path
    if nameSep ≤ 0 then .error (.noNameSeparator input)
    else
      let scope₀ := path.take nameSep.toNat
      let name := path.drop (nameSep.toNat + 1)
      let typeSep := lastIndexSlash scope₀
      if typeSep ≤ 0 then .error (.noTypeSeparator input)
      else
        let scope := scope₀.take typeSep.toNat
        let typ := scope₀.drop (typeSep.toNat + 1)
        if typ ≠ "RoleDefinition".data then .error (.invalidType typ)
        else
          .ok { VaultBaseUrl := Sprintf "%s://%s/".data [idURL.Scheme, idURL.Host],
                Scope := scope, Name := name }

/-! ## Values of type `interface{}` -/

/-- A Go value of type `interface{}`, by its dynamic type: the nil interface, a `bool`, an
`int`, a `string`, a `[]interface{}`, a `map[string]interface{}` (an association
list), or a value of any other dynamic type, which the code never looks
into. -/
inductive GoAny where
  | nil : GoAny
  | bool (b : Bool) : GoAny
  | int (n : Int) : GoAny
  | string (s : GoString) : GoAny
  | slice (xs : List GoAny) : GoAny
  | map (m : List (GoString × GoAny)) : GoAny
  | other (dynamicType : GoString) : GoAny

/-- The type assertion `v, ok := input.(string)`: `none` when `ok` is false. -/
def GoAny.assertString : GoAny → Option GoString
  | .string v => some v
  | _ => none

/-- The index expression `vs[key]` on a `map[string]interface{}`: the nil interface when
the key is absent. -/
def GoAny.index (vs : List (GoString × GoAny)) (key : GoString) : GoAny :=
  match vs.find? fun e => e.1 = key with
  | some e => e.2
  | none => .nil

/-! ## `appconfiguration/validate`: the validation of a feature ID -/

/-- A Go value of type `error` in the list that the validation returns: the error that
`fmt.Errorf` builds from a format and its operands, or an error that another
function has returned. -/
inductive GoError (ε : Type) where
  | errorf (format : GoString) (operands : List GoString) : GoError ε
  | returned (err : ε) : GoError ε

/-- The function `AppConfigurationFeatureID`, with its two results `(warnings, errors)`.
The function `parse.FeatureId` that it calls is the parameter `FeatureId`; the
identifier that `FeatureId` returns is dropped. -/
def AppConfigurationFeatureID {ε α : Type} (FeatureId : GoString → Except ε α)
    (input : GoAny) (key : GoString) : List GoString × List (GoError ε) :=
  match input.assertString with
  | none => ([], [] ++ [.errorf "expected %q to be a string".data [key]])
  | some v =>
    match FeatureId v with
    | .error err => ([], [] ++ [.returned err])
    | .ok _ => ([], [])

/-! ## `hdinsight`: the component version of an Interactive Query cluster -/

/-- A Go `map[string]*string`: an association list whose values are pointers, `none` being
the nil pointer.  A nil map has no key. -/
abbrev PtrMap := List (GoString × Option GoString)

/-- The lookup `v, ok := m[k]` on a `map[string]*string`. -/
def PtrMap.get? (m : PtrMap) (k : GoString) : Option (Option GoString) :=
  (m.find? fun e => e.1 = k).map Prod.snd

/-- The function `expandHDInsightInteractiveQueryComponentVersion`; `none` is a run-time
panic: the index `input[0]` out of range, or a failed type assertion. -/
def expandHDInsightInteractiveQueryComponentVersion (input : List GoAny) : Option GoMap :=
  match input with
  | [] => none
  | first :: _ =>
    match first with
    | .map vs =>
      match GoAny.index vs "interactive_hive".data with
      | .string interactiveHive => some [("InteractiveHive".data, interactiveHive)]
      | _ => none
    | _ => none

/-- The function `flattenHDInsightInteractiveQueryComponentVersion`. -/
def flattenHDInsightInteractiveQueryComponentVersion (input : PtrMap) : List GoAny :=
  let interactiveHiveVersion :=
    match input.get? "InteractiveHive".data with
    | some (some v) => v
    | _ => []
  [.map [("interactive_hive".data, .string interactiveHiveVersion)]]

/-! ## Vocabulary of the statements -/

/-- The segments joined by single slashes (no leading slash). -/
def joinSlash : List GoString → GoString
  | [] => []
  | [w] => w
  | w :: w₁ :: ws => w ++ '/' :: joinSlash (w₁ :: ws)

/-- A byte that `url.ParseRequestURI` carries unchanged into the path: not `?`, not `%`,
and no control byte. -/
def inertByte (c : Char) : Bool :=
  decide (c ≠ '?' ∧ c ≠ '%' ∧ ¬ (c.toNat < 32 ∨ c.toNat = 127))

/-- A byte that a request URI carries unchanged into a path segment: inert, and not
`/`. -/
def plainByte (c : Char) : Bool :=
  decide (c ≠ '/') && inertByte c

/-- A non-empty string of plain bytes. -/
def plainValue (s : GoString) : Bool :=
  decide (s ≠ []) && s.all plainByte

/-- Two strings of the same length that agree byte for byte up to the case of ASCII
letters. -/
def sameUpToCase : GoString → GoString → Bool
  | [], [] => true
  | c :: s, d :: t => asciiFoldEq c d && sameUpToCase s t
  | _, _ => false

/-- A different-case variant of a label: it differs from the label, and only in the case
of letters. -/
def caseVariant (v label : GoString) : Bool :=
  decide (v ≠ label) && sameUpToCase v label

/-- The keys of a list of segments read as key/value pairs: the segments at the even
positions that are followed by a value. -/
def pairKeys : List GoString → List GoString
  | key :: _ :: rest => key :: pairKeys rest
  | _ => []

/-- The identifier string with the six literal segments and the four values given
separately. -/
def idString (l₁ v₁ l₂ v₂ l₃ l₄ l₅ v₃ l₆ v₄ : GoString) : GoString :=
  '/' :: joinSlash [l₁, v₁, l₂, v₂, l₃, l₄, l₅, v₃, l₆, v₄]

/-- The words of the statement about `ManagedHSMRoleDefinitionId.ID`: at most one final
slash is removed. -/
def trimOneTrailingSlash (s : GoString) : GoString :=
  if s.getLast? = some '/' then s.dropLast else s

/-- The second-to-last of a list of segments. -/
def secondToLast (l : List GoString) : Option GoString :=
  l.dropLast.getLast?

/-- A byte that `getScheme` of `net/url` accepts in a scheme: a letter, a digit, `+`, `-`
or `.`. -/
def schemeByte (c : Char) : Bool :=
  isAsciiLetter c || (isAsciiDigit c || c = '+' || c = '-' || c = '.')

/-- The identifier with one of its four fields replaced by the empty string. -/
def withoutField (I : PrivateEndpointConnectionId) : Fin 4 → PrivateEndpointConnectionId
  | 0 => { I with SubscriptionId := [] }
  | 1 => { I with ResourceGroup := [] }
  | 2 => { I with ManagedHSMName := [] }
  | 3 => { I with Name := [] }

/-- The map of pointers to the values of a `map[string]string`. -/
def byReference (m : GoMap) : PtrMap :=
  m.map fun e => (e.1, some e.2)

/-! ## Splitting and joining -/

theorem splitSlash_ne_nil (s : GoString) : splitSlash s ≠ [] := by
  induction s with
  | nil => simp [splitSlash]
  | cons c cs ih =>
    unfold splitSlash
    split
    · simp
    · split
      · simp
      · simp

theorem splitSlash_of_not_mem (s : GoString) (h : '/' ∉ s) : splitSlash s = [s] := by
  induction s with
  | nil => rfl
  | cons c cs ih =>
    have hc : c ≠ '/' := fun e => h (by simp [e])
    have hcs : '/' ∉ cs := fun e => h (by simp [e])
    simp [splitSlash, hc, ih hcs]

theorem splitSlash_append_slash (a b : GoString) (h : '/' ∉ a) :
    splitSlash (a ++ '/' :: b) = a :: splitSlash b := by
  induction a with
  | nil => simp [splitSlash]
  | cons c cs ih =>
    have hc : c ≠ '/' := fun e => h (by simp [e])
    have hcs : '/' ∉ cs := fun e => h (by simp [e])
    simp [splitSlash, hc, ih hcs]

theorem not_mem_of_mem_splitSlash (s w : GoString) (h : w ∈ splitSlash s) : '/' ∉ w := by
  induction s generalizing w with
  | nil => simp [splitSlash] at h; simp [h]
  | cons c cs ih =>
    unfold splitSlash at h
    split at h
    · rcases List.mem_cons.1 h with h | h
      · simp [h]
      · exact ih w h
    · rename_i hc
      split at h
      · simp at h; simp [h]; exact fun e => hc e.symm
      · rename_i w₀ ws hw
        rcases List.mem_cons.1 h with h | h
        · have := ih w₀ (by simp [hw])
          subst h
          simp only [List.mem_cons, not_or]
          exact ⟨fun e => hc e.symm, this⟩
        · exact ih w (by simp [hw, h])

theorem splitSlash_joinSlash (segs : List GoString) (hne : segs ≠ [])
    (h : ∀ w ∈ segs, '/' ∉ w) : splitSlash (joinSlash segs) = segs := by
  induction segs with
  | nil => exact absurd rfl hne
  | cons w ws ih =>
    cases ws with
    | nil => simpa [joinSlash] using splitSlash_of_not_mem w (h w (by simp))
    | cons w₁ ws =>
      rw [joinSlash, splitSlash_append_slash _ _ (h w (by simp))]
      rw [ih (by simp) (fun x hx => h x (List.mem_cons_of_mem _ hx))]

/-! ## Request URIs without scheme, query or escapes -/

theorem stringContainsCTLByte_of_inert (s : GoString) (h : ∀ c ∈ s, inertByte c = true) :
    stringContainsCTLByte s = false := by
  simp only [stringContainsCTLByte, List.any_eq_false]
  intro c hc
  have := h c hc
  simp only [inertByte, decide_eq_true_eq] at this
  simpa using this.2.2

theorem getScheme_slash (s : GoString) : getScheme ('/' :: s) = some ([], '/' :: s) := by
  simp [getScheme, getSchemeLoop, isAsciiLetter, isAsciiDigit]

theorem cutQuery_of_not_mem (s : GoString) (h : '?' ∉ s) : cutQuery s = (s, []) := by
  have h1 : s.takeWhile (· ≠ '?') = s := by
    rw [List.takeWhile_eq_self_iff]
    intro c hc
    simpa using fun e : c = '?' => h (e ▸ hc)
  have h2 : s.dropWhile (· ≠ '?') = [] := by
    rw [List.dropWhile_eq_nil_iff]
    intro c hc
    simpa using fun e : c = '?' => h (e ▸ hc)
  have h3 : s.count '?' = 0 := List.count_eq_zero_of_not_mem h
  unfold cutQuery
  rw [if_neg (by simp [h3]), h1, h2]
  rfl

theorem unescapePath_of_not_mem (s : GoString) (h : '%' ∉ s) : unescapePath s = some s := by
  induction s with
  | nil => rfl
  | cons c cs ih =>
    have hc : c ≠ '%' := fun e => h (by simp [e])
    have hcs : '%' ∉ cs := fun e => h (by simp [e])
    unfold unescapePath
    rw [if_neg hc, ih hcs]
    rfl

theorem ParseRequestURI_inert (pa : GoString → Option GoString) (s : GoString)
    (h : ∀ c ∈ s, inertByte c = true) :
    ParseRequestURI pa ('/' :: s) = some ⟨[], [], [], '/' :: s, []⟩ := by
  have hall : ∀ c ∈ '/' :: s, inertByte c = true := by
    intro c hc
    rcases List.mem_cons.1 hc with rfl | hc
    · decide
    · exact h c hc
  have hq : '?' ∉ '/' :: s := fun hm => absurd (hall _ hm) (by decide)
  have hp : '%' ∉ '/' :: s := fun hm => absurd (hall _ hm) (by decide)
  simp [ParseRequestURI, stringContainsCTLByte_of_inert _ hall, getScheme_slash,
    cutQuery_of_not_mem _ hq, unescapePath_of_not_mem _ hp]

/-! ## Trimming -/

theorem TrimPrefix_slash_cons (x : GoString) : TrimPrefix ('/' :: x) ['/'] = x := by
  simp [TrimPrefix]

theorem TrimPrefix_slash_of_ne (x : GoString) (h : x.head? ≠ some '/') :
    TrimPrefix x ['/'] = x := by
  cases x with
  | nil => simp [TrimPrefix]
  | cons c cs =>
    have hc : ¬ '/' = c := fun e => h (by simp [← e])
    simp [TrimPrefix, hc]

theorem TrimSuffix_append_slash (t : GoString) : TrimSuffix (t ++ ['/']) ['/'] = t := by
  have : ['/'].isSuffixOf (t ++ ['/']) = true := by
    rw [List.isSuffixOf_iff_suffix]
    exact List.suffix_append _ _
  simp [TrimSuffix, this]

theorem TrimSuffix_of_getLast? (x : GoString) (h : x.getLast? ≠ some '/') :
    TrimSuffix x ['/'] = x := by
  have : ['/'].isSuffixOf x = false := by
    rw [Bool.eq_false_iff]
    intro hs
    rw [List.isSuffixOf_iff_suffix] at hs
    obtain ⟨t, rfl⟩ := hs
    exact h (by simp)
  simp [TrimSuffix, this]

theorem joinSlash_ne_nil (w : GoString) (ws : List GoString) (h : (w :: ws).getLast? ≠ some []) :
    joinSlash (w :: ws) ≠ [] := by
  cases ws with
  | nil => simpa [joinSlash] using h
  | cons w₁ ws => simp [joinSlash]

theorem joinSlash_getLast? (segs : List GoString) (hne : segs ≠ [])
    (h : ∀ w ∈ segs, '/' ∉ w) (hlast : segs.getLast? ≠ some []) :
    (joinSlash segs).getLast? ≠ some '/' := by
  induction segs with
  | nil => exact absurd rfl hne
  | cons w ws ih =>
    cases ws with
    | nil =>
      intro hl
      exact h w (by simp) (List.mem_of_getLast?_eq_some hl)
    | cons w₁ ws =>
      have hl' : (w₁ :: ws).getLast? ≠ some [] := by simpa [List.getLast?_cons_cons] using hlast
      have hy := joinSlash_ne_nil w₁ ws hl'
      have := ih (by simp) (fun x hx => h x (List.mem_cons_of_mem _ hx)) hl'
      rw [joinSlash, List.getLast?_append_of_ne_nil _ (by simp)]
      obtain ⟨y, ys, hys⟩ := List.exists_cons_of_ne_nil hy
      rw [hys] at this ⊢
      rwa [List.getLast?_cons_cons]

theorem mem_joinSlash (segs : List GoString) (c : Char) (hc : c ∈ joinSlash segs) :
    c = '/' ∨ ∃ w ∈ segs, c ∈ w := by
  induction segs with
  | nil => simp [joinSlash] at hc
  | cons w ws ih =>
    cases ws with
    | nil => exact Or.inr ⟨w, by simp, by simpa [joinSlash] using hc⟩
    | cons w₁ ws =>
      rw [joinSlash, List.mem_append, List.mem_cons] at hc
      rcases hc with hc | hc | hc
      · exact Or.inr ⟨w, by simp, hc⟩
      · exact Or.inl hc
      · rcases ih hc with h | ⟨x, hx, hcx⟩
        · exact Or.inl h
        · exact Or.inr ⟨x, List.mem_cons_of_mem _ hx, hcx⟩

/-- All bytes of all segments are plain. -/
theorem plain_segments_inert (segs : List GoString)
    (h : ∀ w ∈ segs, ∀ c ∈ w, plainByte c = true) :
    ∀ c ∈ joinSlash segs, inertByte c = true := by
  intro c hc
  rcases mem_joinSlash segs c hc with rfl | ⟨w, hw, hcw⟩
  · decide
  · have := h w hw c hcw
    simp only [plainByte, Bool.and_eq_true] at this
    exact this.2

theorem plain_segments_noSlash (segs : List GoString)
    (h : ∀ w ∈ segs, ∀ c ∈ w, plainByte c = true) : ∀ w ∈ segs, '/' ∉ w := by
  intro w hw hm
  have := h w hw _ hm
  simp [plainByte] at this

/-- The resource ID library on a slash-led string of plain segments: the segments are
the components, with or without a trailing slash. -/
theorem ParseAzureResourceID_join (pa : GoString → Option GoString) (segs : List GoString)
    (hne : segs ≠ []) (h : ∀ w ∈ segs, ∀ c ∈ w, plainByte c = true)
    (hlast : segs.getLast? ≠ some []) :
    ParseAzureResourceID pa ('/' :: joinSlash segs)
        = resourceIDOfComponents (joinSlash segs) segs
      ∧ ParseAzureResourceID pa ('/' :: joinSlash segs ++ ['/'])
        = resourceIDOfComponents (joinSlash segs) segs := by
  have hns := plain_segments_noSlash segs h
  have hin := plain_segments_inert segs h
  have hin' : ∀ c ∈ joinSlash segs ++ ['/'], inertByte c = true := by
    intro c hc
    rcases List.mem_append.1 hc with hc | hc
    · exact hin c hc
    · rw [List.mem_singleton] at hc; subst hc; decide
  have hgl := joinSlash_getLast? segs hne hns hlast
  constructor
  · rw [ParseAzureResourceID, ParseRequestURI_inert pa _ hin]
    simp only [trimmedPath, TrimPrefix_slash_cons, TrimSuffix_of_getLast? _ hgl,
      splitSlash_joinSlash segs hne hns]
  · rw [ParseAzureResourceID, List.cons_append, ParseRequestURI_inert pa _ hin']
    simp only [trimmedPath, TrimPrefix_slash_cons, TrimSuffix_append_slash,
      splitSlash_joinSlash segs hne hns]

theorem plainValue_ne_nil {s : GoString} (h : plainValue s = true) : s ≠ [] := by
  simp only [plainValue, Bool.and_eq_true, decide_eq_true_eq] at h
  exact h.1

theorem plainValue_bytes {s : GoString} (h : plainValue s = true) :
    ∀ c ∈ s, plainByte c = true := by
  simp only [plainValue, Bool.and_eq_true, List.all_eq_true] at h
  exact h.2

/-! ## Maps -/

theorem GoMap.mem_of_get? {m : GoMap} {k v : GoString} (h : m.get? k = some v) : (k, v) ∈ m := by
  simp only [GoMap.get?, Option.map_eq_some'] at h
  obtain ⟨e, he, hv⟩ := h
  have h1 := List.find?_some he
  have h2 := List.mem_of_find?_eq_some he
  simp only [decide_eq_true_eq] at h1
  rw [← h1, ← hv]
  exact h2

theorem GoMap.mem_set {m : GoMap} {k v : GoString} {e : GoString × GoString}
    (h : e ∈ m.set k v) : e ∈ m ∨ e = (k, v) := by
  induction m with
  | nil => simpa [GoMap.set] using h
  | cons e₀ m ih =>
    obtain ⟨k₀, v₀⟩ := e₀
    simp only [GoMap.set] at h
    split at h
    · rcases List.mem_cons.1 h with h | h
      · exact Or.inr h
      · exact Or.inl (List.mem_cons_of_mem _ h)
    · rcases List.mem_cons.1 h with h | h
      · exact Or.inl (h ▸ List.mem_cons_self _ _)
      · rcases ih h with h | h
        · exact Or.inl (List.mem_cons_of_mem _ h)
        · exact Or.inr h

theorem GoMap.mem_of_mem_delete {m : GoMap} {k : GoString} {e : GoString × GoString}
    (h : e ∈ m.delete k) : e ∈ m :=
  (List.mem_filter.1 h).1

/-! ## What the resource ID library returns -/

/-- Every pair that the loop leaves in its state comes from the initial state or from
a key/value pair of the segments, with both parts non-empty. -/
theorem collectComponents_spec (C : List GoString) :
    ∀ (st st' : GoString × GoString × GoMap), collectComponents C st = .ok st' →
      (st'.1 = st.1 ∨ (st'.1 ∈ C ∧ st'.1 ≠ [] ∧ "subscriptions".data ∈ pairKeys C))
      ∧ (st'.2.1 = st.2.1 ∨ (st'.2.1 ∈ C ∧ st'.2.1 ≠ []))
      ∧ ∀ e ∈ st'.2.2, e ∈ st.2.2 ∨ (e.1 ∈ pairKeys C ∧ e.2 ∈ C ∧ e.1 ≠ [] ∧ e.2 ≠ []) := by
  induction C using pairKeys.induct with
  | case1 key value rest ih =>
    rintro ⟨sub, prov, m⟩ ⟨sub', prov', m'⟩ h
    simp only [collectComponents] at h
    split at h
    · cases h
    · rename_i hkv
      simp only [not_or] at hkv
      split at h
      · rename_i hk
        obtain ⟨h1, h2, h3⟩ := ih _ _ h
        refine ⟨Or.inr ?_, ?_, ?_⟩
        · rcases h1 with h1 | ⟨h1, h1', h1''⟩
          · simp only at h1
            subst h1
            exact ⟨by simp, hkv.2, by simp [pairKeys, hk.1]⟩
          · exact ⟨by simp [h1], h1', by simp [pairKeys, h1'']⟩
        · rcases h2 with h2 | ⟨h2, h2'⟩
          · exact Or.inl h2
          · exact Or.inr ⟨by simp [h2], h2'⟩
        · intro e he
          rcases h3 e he with h3 | ⟨a, b, c, d⟩
          · exact Or.inl h3
          · exact Or.inr ⟨by simp [pairKeys, a], by simp [b], c, d⟩
      · split at h
        · obtain ⟨h1, h2, h3⟩ := ih _ _ h
          refine ⟨?_, Or.inr ?_, ?_⟩
          · rcases h1 with h1 | ⟨h1, h1', h1''⟩
            · exact Or.inl h1
            · exact Or.inr ⟨by simp [h1], h1', by simp [pairKeys, h1'']⟩
          · rcases h2 with h2 | ⟨h2, h2'⟩
            · simp only at h2
              subst h2
              exact ⟨by simp, hkv.2⟩
            · exact ⟨by simp [h2], h2'⟩
          · intro e he
            rcases h3 e he with h3 | ⟨a, b, c, d⟩
            · exact Or.inl h3
            · exact Or.inr ⟨by simp [pairKeys, a], by simp [b], c, d⟩
        · obtain ⟨h1, h2, h3⟩ := ih _ _ h
          refine ⟨?_, ?_, ?_⟩
          · rcases h1 with h1 | ⟨h1, h1', h1''⟩
            · exact Or.inl h1
            · exact Or.inr ⟨by simp [h1], h1', by simp [pairKeys, h1'']⟩
          · rcases h2 with h2 | ⟨h2, h2'⟩
            · exact Or.inl h2
            · exact Or.inr ⟨by simp [h2], h2'⟩
          · intro e he
            rcases h3 e he with h3 | ⟨a, b, c, d⟩
            · rcases GoMap.mem_set h3 with h3 | h3
              · exact Or.inl h3
              · subst h3
                exact Or.inr ⟨by simp [pairKeys], by simp, hkv.1, hkv.2⟩
            · exact Or.inr ⟨by simp [pairKeys, a], by simp [b], c, d⟩
  | case2 C hC =>
    rintro ⟨sub, prov, m⟩ ⟨sub', prov', m'⟩ h
    have : collectComponents C (sub, prov, m) = .ok (sub, prov, m) := by
      unfold collectComponents
      split
      · exact absurd rfl (hC _ _ _)
      · rfl
    rw [this] at h
    cases h
    exact ⟨Or.inl rfl, Or.inl rfl, fun e he => Or.inl he⟩

/-- What a successful `ParseAzureResourceID` says about the segments of the path. -/
theorem ParseAzureResourceID_ok (pa : GoString → Option GoString) (S : GoString) (id : ResourceID)
    (h : ParseAzureResourceID pa S = .ok id) :
    ∃ idURL, ParseRequestURI pa S = some idURL
      ∧ (splitSlash (trimmedPath idURL)).length % 2 = 0
      ∧ id.SubscriptionID ∈ splitSlash (trimmedPath idURL) ∧ id.SubscriptionID ≠ []
      ∧ "subscriptions".data ∈ pairKeys (splitSlash (trimmedPath idURL))
      ∧ (id.ResourceGroup ≠ [] → id.ResourceGroup ∈ splitSlash (trimmedPath idURL)
          ∧ ("resourceGroups".data ∈ pairKeys (splitSlash (trimmedPath idURL))
            ∨ "resourcegroups".data ∈ pairKeys (splitSlash (trimmedPath idURL))))
      ∧ ∀ e ∈ id.Path, e.1 ∈ pairKeys (splitSlash (trimmedPath idURL))
          ∧ e.2 ∈ splitSlash (trimmedPath idURL) ∧ e.1 ≠ [] ∧ e.2 ≠ [] := by
  unfold ParseAzureResourceID at h
  split at h
  · cases h
  · rename_i idURL hurl
    refine ⟨idURL, hurl, ?_⟩
    generalize splitSlash (trimmedPath idURL) = C at h ⊢
    generalize trimmedPath idURL = path at h
    unfold resourceIDOfComponents at h
    split at h
    · cases h
    · rename_i hlen
      split at h
      · cases h
      · rename_i sub prov m hcol
        obtain ⟨h1, -, h3⟩ := collectComponents_spec C _ _ hcol
        simp only [List.not_mem_nil, false_or] at h3
        split at h
        · cases h
        · rename_i hsub
          have hsubC : sub ∈ C ∧ sub ≠ [] ∧ "subscriptions".data ∈ pairKeys C := by
            rcases h1 with h1 | h1
            · exact absurd h1 hsub
            · exact h1
          have hrg : (takeResourceGroup m).1 ≠ [] → (takeResourceGroup m).1 ∈ C
              ∧ ("resourceGroups".data ∈ pairKeys C ∨ "resourcegroups".data ∈ pairKeys C) := by
            unfold takeResourceGroup
            split
            · rename_i v hv
              have := h3 _ (GoMap.mem_of_get? hv)
              exact fun _ => ⟨this.2.1, Or.inl this.1⟩
            · split
              · rename_i v hv
                have := h3 _ (GoMap.mem_of_get? hv)
                exact fun _ => ⟨this.2.1, Or.inr this.1⟩
              · exact fun hne => absurd rfl hne
          have hrg2 : ∀ e ∈ (takeResourceGroup m).2, e ∈ m := by
            unfold takeResourceGroup
            split
            · exact fun e he => GoMap.mem_of_mem_delete he
            · split
              · exact fun e he => GoMap.mem_of_mem_delete he
              · exact fun e he => he
          have hlen' : C.length % 2 = 0 := by simpa using hlen
          generalize takeResourceGroup m = rg at h hrg hrg2
          simp only at h
          split at h
          · cases h
            exact ⟨hlen', hsubC.1, hsubC.2.1, hsubC.2.2, hrg,
              fun e he => h3 e (hrg2 e (GoMap.mem_of_mem_delete he))⟩
          · cases h
            exact ⟨hlen', hsubC.1, hsubC.2.1, hsubC.2.2, hrg, fun e he => h3 e (hrg2 e he)⟩

theorem PopSegment_ok {id id' : ResourceID} {name v : GoString}
    (h : id.PopSegment name = .ok (v, id')) :
    (name, v) ∈ id.Path ∧ v ≠ [] ∧ id'.Path = id.Path.delete name := by
  unfold ResourceID.PopSegment at h
  split at h
  · cases h
  · rename_i val hval
    split at h
    · cases h
    · rename_i hne
      cases h
      exact ⟨GoMap.mem_of_get? hval, hne, rfl⟩

theorem findCasing_fold (order : RangeOrder) (path : GoMap) (label : GoString)
    (hl : EqualFold label label = true) : EqualFold (findCasing order path label) label = true := by
  unfold findCasing
  cases hf : (order.visit path.keys).find? fun key => EqualFold key label with
  | none => simpa using hl
  | some k => simpa using List.find?_some hf

/-- What a successful strict parse says about the segments of the path. -/
theorem ParsePrivateEndpointConnectionID_ok (pa : GoString → Option GoString) (S : GoString)
    (I : PrivateEndpointConnectionId) (h : ParsePrivateEndpointConnectionID pa S = .ok I) :
    ∃ idURL, ParseRequestURI pa S = some idURL
      ∧ (splitSlash (trimmedPath idURL)).length % 2 = 0
      ∧ (∀ v ∈ [I.SubscriptionId, I.ResourceGroup, I.ManagedHSMName, I.Name],
          v ∈ splitSlash (trimmedPath idURL) ∧ v ≠ [])
      ∧ "subscriptions".data ∈ pairKeys (splitSlash (trimmedPath idURL))
      ∧ ("resourceGroups".data ∈ pairKeys (splitSlash (trimmedPath idURL))
          ∨ "resourcegroups".data ∈ pairKeys (splitSlash (trimmedPath idURL)))
      ∧ "managedHSMs".data ∈ pairKeys (splitSlash (trimmedPath idURL))
      ∧ "privateEndpointConnections".data ∈ pairKeys (splitSlash (trimmedPath idURL)) := by
  unfold ParsePrivateEndpointConnectionID at h
  split at h
  · cases h
  · rename_i id hid
    obtain ⟨idURL, hurl, hlen, hsub, hsubne, hsubk, hrg, hpath⟩ :=
      ParseAzureResourceID_ok pa S id hid
    refine ⟨idURL, hurl, hlen, ?_⟩
    split at h
    · cases h
    · split at h
      · cases h
      · rename_i hrgne
        split at h
        · cases h
        · rename_i hsm id₁ hpop₁
          obtain ⟨hm₁, hne₁, hp₁⟩ := PopSegment_ok hpop₁
          split at h
          · cases h
          · rename_i name id₂ hpop₂
            obtain ⟨hm₂, hne₂, -⟩ := PopSegment_ok hpop₂
            rw [hp₁] at hm₂
            have hm₂' := GoMap.mem_of_mem_delete hm₂
            split at h
            · cases h
            · cases h
              refine ⟨?_, hsubk, (hrg hrgne).2, (hpath _ hm₁).1, (hpath _ hm₂').1⟩
              intro v hv
              simp only [List.mem_cons, List.mem_singleton, List.not_mem_nil, or_false] at hv
              rcases hv with rfl | rfl | rfl | rfl
              · exact ⟨hsub, hsubne⟩
              · exact ⟨(hrg hrgne).1, hrgne⟩
              · exact ⟨(hpath _ hm₁).2.1, hne₁⟩
              · exact ⟨(hpath _ hm₂').2.1, hne₂⟩

/-- What a successful insensitive parse says about the segments of the path, whatever
the orders of its two loops. -/
theorem ParsePrivateEndpointConnectionIDInsensitively_ok (pa : GoString → Option GoString)
    (o₁ o₂ : RangeOrder) (S : GoString) (I : PrivateEndpointConnectionId)
    (h : ParsePrivateEndpointConnectionIDInsensitively pa o₁ o₂ S = .ok I) :
    ∃ idURL, ParseRequestURI pa S = some idURL
      ∧ (splitSlash (trimmedPath idURL)).length % 2 = 0
      ∧ (∀ v ∈ [I.SubscriptionId, I.ResourceGroup, I.ManagedHSMName, I.Name],
          v ∈ splitSlash (trimmedPath idURL) ∧ v ≠ [])
      ∧ "subscriptions".data ∈ pairKeys (splitSlash (trimmedPath idURL))
      ∧ ("resourceGroups".data ∈ pairKeys (splitSlash (trimmedPath idURL))
          ∨ "resourcegroups".data ∈ pairKeys (splitSlash (trimmedPath idURL)))
      ∧ ∃ k₁ k₂, k₁ ∈ pairKeys (splitSlash (trimmedPath idURL))
          ∧ k₂ ∈ pairKeys (splitSlash (trimmedPath idURL))
          ∧ EqualFold k₁ "managedHSMs".data = true
          ∧ EqualFold k₂ "privateEndpointConnections".data = true := by
  unfold ParsePrivateEndpointConnectionIDInsensitively at h
  split at h
  · cases h
  · rename_i id hid
    obtain ⟨idURL, hurl, hlen, hsub, hsubne, hsubk, hrg, hpath⟩ :=
      ParseAzureResourceID_ok pa S id hid
    refine ⟨idURL, hurl, hlen, ?_⟩
    split at h
    · cases h
    · split at h
      · cases h
      · rename_i hrgne
        simp only at h
        split at h
        · cases h
        · rename_i hsm id₁ hpop₁
          obtain ⟨hm₁, hne₁, hp₁⟩ := PopSegment_ok hpop₁
          split at h
          · cases h
          · rename_i name id₂ hpop₂
            obtain ⟨hm₂, hne₂, -⟩ := PopSegment_ok hpop₂
            rw [hp₁] at hm₂
            have hm₂' := GoMap.mem_of_mem_delete hm₂
            split at h
            · cases h
            · cases h
              refine ⟨?_, hsubk, (hrg hrgne).2, _, _, (hpath _ hm₁).1, (hpath _ hm₂').1,
                findCasing_fold _ _ _ (by decide), findCasing_fold _ _ _ (by decide)⟩
              intro v hv
              simp only [List.mem_cons, List.mem_singleton, List.not_mem_nil, or_false] at hv
              rcases hv with rfl | rfl | rfl | rfl
              · exact ⟨hsub, hsubne⟩
              · exact ⟨(hrg hrgne).1, hrgne⟩
              · exact ⟨(hpath _ hm₁).2.1, hne₁⟩
              · exact ⟨(hpath _ hm₂').2.1, hne₂⟩

/-! ## The formatter -/

theorem ID_eq_append (s rg h n : GoString) :
    (NewPrivateEndpointConnectionID s rg h n).ID
      = "/subscriptions/".data ++ s ++ "/resourceGroups/".data ++ rg
        ++ "/providers/Microsoft.KeyVault/managedHSMs/".data ++ h
        ++ "/privateEndpointConnections/".data ++ n := by
  simp [PrivateEndpointConnectionId.ID, NewPrivateEndpointConnectionID, Sprintf]

theorem ID_eq_idString (i : PrivateEndpointConnectionId) :
    i.ID = idString "subscriptions".data i.SubscriptionId "resourceGroups".data i.ResourceGroup
      "providers".data "Microsoft.KeyVault".data "managedHSMs".data i.ManagedHSMName
      "privateEndpointConnections".data i.Name := by
  simp [PrivateEndpointConnectionId.ID, Sprintf, idString, joinSlash]

theorem pairKeys_length (C : List GoString) : (pairKeys C).length = C.length / 2 := by
  induction C using pairKeys.induct with
  | case1 key value rest ih =>
    simp only [pairKeys, List.length_cons, ih]
    omega
  | case2 C hC =>
    have : pairKeys C = [] := by
      unfold pairKeys
      split
      · exact absurd rfl (hC _ _ _)
      · rfl
    rw [this]
    match C, hC with
    | [], _ => rfl
    | [_], _ => simp
    | a :: b :: r, hC => exact absurd rfl (hC a b r)

theorem four_le_length_of_mem {l : List GoString} {a b c d : GoString}
    (ha : a ∈ l) (hb : b ∈ l) (hc : c ∈ l) (hd : d ∈ l) (hnd : [a, b, c, d].Nodup) :
    4 ≤ l.length := by
  have hsub : [a, b, c, d] ⊆ l := by
    intro x hx
    simp only [List.mem_cons, List.mem_singleton, List.not_mem_nil, or_false] at hx
    rcases hx with rfl | rfl | rfl | rfl <;> assumption
  simpa using (List.subperm_of_subset hnd hsub).length_le

/-! ## Case folding -/

theorem asciiFoldEq_cases {c d : Char} (h : asciiFoldEq c d = true) :
    c = d ∨ (65 ≤ c.toNat ∧ c.toNat ≤ 90 ∧ d.toNat = c.toNat + 32)
      ∨ (65 ≤ d.toNat ∧ d.toNat ≤ 90 ∧ c.toNat = d.toNat + 32) := by
  unfold asciiFoldEq at h
  split at h
  · rename_i e; exact Or.inl e.symm
  · split at h
    · exact Or.inr (Or.inr (by simpa using h))
    · exact Or.inr (Or.inl (by simpa using h))

theorem toNat_ne_of_eq {c : Char} {n : Nat} (d : Char) (hd : d.toNat = n) (h : c.toNat ≠ n) :
    c ≠ d := fun e => h (e ▸ hd)

theorem plainByte_of_letter {c : Char}
    (h : (97 ≤ c.toNat ∧ c.toNat ≤ 122) ∨ (65 ≤ c.toNat ∧ c.toNat ≤ 90)) :
    plainByte c = true := by
  have h1 : c ≠ '/' := toNat_ne_of_eq '/' (n := 47) rfl (by omega)
  have h2 : c ≠ '?' := toNat_ne_of_eq '?' (n := 63) rfl (by omega)
  have h3 : c ≠ '%' := toNat_ne_of_eq '%' (n := 37) rfl (by omega)
  simp only [plainByte, inertByte, Bool.and_eq_true, decide_eq_true_eq]
  exact ⟨h1, h2, h3, by omega⟩

theorem plainByte_of_high {c : Char} (h : 128 ≤ c.toNat) : plainByte c = true := by
  have h1 : c ≠ '/' := toNat_ne_of_eq '/' (n := 47) rfl (by omega)
  have h2 : c ≠ '?' := toNat_ne_of_eq '?' (n := 63) rfl (by omega)
  have h3 : c ≠ '%' := toNat_ne_of_eq '%' (n := 37) rfl (by omega)
  simp only [plainByte, inertByte, Bool.and_eq_true, decide_eq_true_eq]
  exact ⟨h1, h2, h3, by omega⟩

theorem plainByte_of_asciiFoldEq {c d : Char} (h : asciiFoldEq c d = true)
    (hd : plainByte d = true) : plainByte c = true := by
  rcases asciiFoldEq_cases h with rfl | h | h
  · exact hd
  · exact plainByte_of_letter (Or.inr ⟨h.1, h.2.1⟩)
  · exact plainByte_of_letter (Or.inl ⟨by omega, by omega⟩)

theorem lt_128_of_asciiFoldEq {c d : Char} (h : asciiFoldEq c d = true)
    (hd : d.toNat < 128) : c.toNat < 128 := by
  rcases asciiFoldEq_cases h with rfl | h | h
  · exact hd
  · omega
  · omega

theorem sameUpToCase_plain : ∀ (v l : GoString), sameUpToCase v l = true →
    (∀ d ∈ l, plainByte d = true) → ∀ c ∈ v, plainByte c = true
  | [], [], _, _ => by simp
  | c :: s, d :: t, h, hl => by
    simp only [sameUpToCase, Bool.and_eq_true] at h
    intro x hx
    rcases List.mem_cons.1 hx with rfl | hx
    · exact plainByte_of_asciiFoldEq h.1 (hl d (by simp))
    · exact sameUpToCase_plain s t h.2 (fun d hd => hl d (List.mem_cons_of_mem _ hd)) x hx
  | [], _ :: _, h, _ => by simp [sameUpToCase] at h
  | _ :: _, [], h, _ => by simp [sameUpToCase] at h

theorem sameUpToCase_length : ∀ (v l : GoString), sameUpToCase v l = true → v.length = l.length
  | [], [], _ => rfl
  | c :: s, d :: t, h => by
    simp only [sameUpToCase, Bool.and_eq_true] at h
    simp [sameUpToCase_length s t h.2]
  | [], _ :: _, h => by simp [sameUpToCase] at h
  | _ :: _, [], h => by simp [sameUpToCase] at h

theorem EqualFold_of_sameUpToCase : ∀ (v l : GoString), sameUpToCase v l = true →
    (∀ d ∈ l, d.toNat < 128) → EqualFold v l = true
  | [], [], _, _ => rfl
  | c :: s, d :: t, h, hl => by
    simp only [sameUpToCase, Bool.and_eq_true] at h
    have hc := lt_128_of_asciiFoldEq h.1 (hl d (by simp))
    have ih := EqualFold_of_sameUpToCase s t h.2 (fun d hd => hl d (List.mem_cons_of_mem _ hd))
    simp [EqualFold, foldStep, hc, h.1, ih]
  | [], _ :: _, h, _ => by simp [sameUpToCase] at h
  | _ :: _, [], h, _ => by simp [sameUpToCase] at h

/-- A rune taken off by `foldStep` consists of plain bytes. -/
theorem foldStep_some {s s' : GoString} {d : Char} (h : foldStep s d = some s')
    (hd : plainByte d = true) :
    ∃ r, s = r ++ s' ∧ r ≠ [] ∧ ∀ c ∈ r, plainByte c = true := by
  unfold foldStep at h
  split at h
  · cases h
  · rename_i c s₁
    split at h
    · split at h
      · rename_i hf
        cases h
        exact ⟨[c], rfl, by simp, by simpa using plainByte_of_asciiFoldEq hf hd⟩
      · cases h
    · split at h
      · rename_i hc
        split at h
        · rename_i c₁ s₂
          split at h
          · rename_i hc₁
            cases h
            refine ⟨[c, c₁], rfl, by simp, ?_⟩
            intro x hx
            simp only [List.mem_cons, List.mem_singleton, List.not_mem_nil, or_false] at hx
            rcases hx with rfl | rfl
            · exact plainByte_of_high (by omega)
            · exact plainByte_of_high (by omega)
          · cases h
        · cases h
      · split at h
        · rename_i hc
          split at h
          · rename_i c₁ c₂ s₃
            split at h
            · rename_i hc₁
              cases h
              refine ⟨[c, c₁, c₂], rfl, by simp, ?_⟩
              intro x hx
              simp only [List.mem_cons, List.mem_singleton, List.not_mem_nil, or_false] at hx
              rcases hx with rfl | rfl | rfl
              · exact plainByte_of_high (by omega)
              · exact plainByte_of_high (by omega)
              · exact plainByte_of_high (by omega)
            · cases h
          · cases h
        · cases h

/-- A string that folds to a label of plain bytes consists of plain bytes. -/
theorem EqualFold_plain : ∀ (l k : GoString), EqualFold k l = true →
    (∀ d ∈ l, plainByte d = true) → ∀ c ∈ k, plainByte c = true
  | [], k, h, _ => by
    simp only [EqualFold, List.isEmpty_iff] at h
    simp [h]
  | d :: t, k, h, hl => by
    simp only [EqualFold] at h
    split at h
    · rename_i s₁ hs
      obtain ⟨r, rfl, -, hr⟩ := foldStep_some hs (hl d (by simp))
      intro c hc
      rcases List.mem_append.1 hc with hc | hc
      · exact hr c hc
      · exact EqualFold_plain t s₁ h (fun d hd => hl d (List.mem_cons_of_mem _ hd)) c hc
    · cases h

/-- The step does not depend on the byte it is compared with, as far as what is left
is concerned. -/
theorem foldStep_rest {s s₁ s₂ : GoString} {d₁ d₂ : Char} (h₁ : foldStep s d₁ = some s₁)
    (h₂ : foldStep s d₂ = some s₂) : s₁ = s₂ := by
  unfold foldStep at h₁ h₂
  split at h₁
  · cases h₁
  · split at h₁
    · rename_i hc
      simp only [if_pos hc] at h₂
      split at h₁ <;> split at h₂ <;> simp_all
    · rename_i hc
      simp only [if_neg hc] at h₂
      split at h₁
      · rename_i hc'
        simp only [if_pos hc'] at h₂
        split at h₁
        · split at h₁ <;> split at h₂ <;> simp_all
        · cases h₁
      · rename_i hc'
        simp only [if_neg hc'] at h₂
        split at h₁
        · split at h₁
          · split at h₁ <;> split at h₂ <;> simp_all
          · cases h₁
        · cases h₁

/-- A string folds to labels of one length only. -/
theorem EqualFold_length : ∀ (l l' k : GoString), EqualFold k l = true → EqualFold k l' = true →
    l.length = l'.length
  | [], [], _, _, _ => rfl
  | [], d :: t, k, h, h' => by
    simp only [EqualFold, List.isEmpty_iff] at h
    subst h
    simp [EqualFold, foldStep] at h'
  | d :: t, [], k, h, h' => by
    simp only [EqualFold, List.isEmpty_iff] at h'
    subst h'
    simp [EqualFold, foldStep] at h
  | d :: t, d' :: t', k, h, h' => by
    simp only [EqualFold] at h h'
    split at h
    · rename_i s₁ hs
      split at h'
      · rename_i s₂ hs'
        have := foldStep_rest hs hs'
        subst this
        simp [EqualFold_length t t' s₁ h h']
      · cases h'
    · cases h

/-! ## The parsers on the canonical sequence of segments -/

/-- The resource ID library on the canonical sequence of segments: the two pairs whose
keys it does not know stay in `Path`. -/
theorem resourceIDOfComponents_canonical (p s rgKey rg prov k₁ h k₂ n : GoString)
    (hrgk : rgKey = "resourceGroups".data ∨ rgKey = "resourcegroups".data)
    (hs : s ≠ []) (hrg : rg ≠ []) (hprov : prov ≠ []) (hh : h ≠ []) (hn : n ≠ [])
    (hk₁ : k₁ ≠ []) (hk₂ : k₂ ≠ []) (h12 : k₁ ≠ k₂)
    (h1s : k₁ ≠ "subscriptions".data) (h1p : k₁ ≠ "providers".data)
    (h1r : k₁ ≠ "resourceGroups".data) (h1r' : k₁ ≠ "resourcegroups".data)
    (h2s : k₂ ≠ "subscriptions".data) (h2p : k₂ ≠ "providers".data)
    (h2r : k₂ ≠ "resourceGroups".data) (h2r' : k₂ ≠ "resourcegroups".data) :
    resourceIDOfComponents p
      ["subscriptions".data, s, rgKey, rg, "providers".data, prov, k₁, h, k₂, n]
      = .ok ⟨s, rg, prov, [], [(k₁, h), (k₂, n)]⟩ := by
  have h1s' := Ne.symm h1s
  have h1p' := Ne.symm h1p
  have h1r₁ := Ne.symm h1r
  have h1r₂ := Ne.symm h1r'
  have h2s' := Ne.symm h2s
  have h2p' := Ne.symm h2p
  have h2r₁ := Ne.symm h2r
  have h2r₂ := Ne.symm h2r'
  have h21 := Ne.symm h12
  simp at h1s h1p h1r h1r' h2s h2p h2r h2r' h1s' h1p' h1r₁ h1r₂ h2s' h2p' h2r₁ h2r₂
  rcases hrgk with rfl | rfl <;>
    simp [resourceIDOfComponents, collectComponents, takeResourceGroup, GoMap.set, GoMap.get?,
      GoMap.delete, *]

/-- The strict parser after the library has returned the canonical resource ID. -/
theorem strict_of_canonical (pa : GoString → Option GoString) (S s rg prov h n : GoString)
    (hs : s ≠ []) (hrg : rg ≠ []) (hh : h ≠ []) (hn : n ≠ [])
    (hp : ParseAzureResourceID pa S = .ok ⟨s, rg, prov, [],
      [("managedHSMs".data, h), ("privateEndpointConnections".data, n)]⟩) :
    ParsePrivateEndpointConnectionID pa S = .ok ⟨s, rg, h, n⟩ := by
  simp [ParsePrivateEndpointConnectionID, hp, ResourceID.PopSegment,
    ResourceID.ValidateNoEmptySegments, GoMap.get?, GoMap.delete, *]

theorem find?_of_unique {α : Type} (p : α → Bool) (l : List α) (a : α) (ha : a ∈ l)
    (hp : p a = true) (hu : ∀ b ∈ l, p b = true → b = a) : l.find? p = some a := by
  cases hf : l.find? p with
  | none =>
    rw [List.find?_eq_none] at hf
    exact absurd hp (hf a ha)
  | some b =>
    rw [hu b (List.mem_of_find?_eq_some hf) (List.find?_some hf)]

/-- The loop that looks for the casing of a label finds the one key that folds to it,
in whatever order the keys are visited. -/
theorem findCasing_of_unique (order : RangeOrder) (path : GoMap) (label k : GoString)
    (hk : k ∈ path.keys) (hf : EqualFold k label = true)
    (hu : ∀ b ∈ path.keys, EqualFold b label = true → b = k) :
    findCasing order path label = k := by
  unfold findCasing
  rw [find?_of_unique _ _ k ((order.perm _).mem_iff.2 hk) hf
    (fun b hb => hu b ((order.perm _).mem_iff.1 hb))]
  rfl

/-- The insensitive parser after the library has returned the canonical resource ID
with two keys that fold to the two labels. -/
theorem insensitive_of_canonical (pa : GoString → Option GoString) (o₁ o₂ : RangeOrder)
    (S s rg prov k₁ h k₂ n : GoString)
    (hs : s ≠ []) (hrg : rg ≠ []) (hh : h ≠ []) (hn : n ≠ [])
    (hk₁ : EqualFold k₁ "managedHSMs".data = true)
    (hk₂ : EqualFold k₂ "privateEndpointConnections".data = true)
    (hp : ParseAzureResourceID pa S = .ok ⟨s, rg, prov, [], [(k₁, h), (k₂, n)]⟩) :
    ParsePrivateEndpointConnectionIDInsensitively pa o₁ o₂ S = .ok ⟨s, rg, h, n⟩ := by
  have h21 : EqualFold k₂ "managedHSMs".data ≠ true := fun hc => by
    have := EqualFold_length _ _ _ hk₂ hc
    simp at this
  have h12 : k₁ ≠ k₂ := fun e => h21 (e ▸ hk₁)
  have hf₁ : findCasing o₁ [(k₁, h), (k₂, n)] "managedHSMs".data = k₁ := by
    apply findCasing_of_unique _ _ _ _ (by simp [GoMap.keys]) hk₁
    intro b hb hbf
    simp only [GoMap.keys, List.map_cons, List.map_nil, List.mem_cons, List.mem_singleton,
      List.not_mem_nil, or_false] at hb
    rcases hb with rfl | rfl
    · rfl
    · exact absurd hbf h21
  have hf₂ : findCasing o₂ [(k₂, n)] "privateEndpointConnections".data = k₂ := by
    apply findCasing_of_unique _ _ _ _ (by simp [GoMap.keys]) hk₂
    intro b hb _
    simpa [GoMap.keys] using hb
  have h21' : ¬ k₂ = k₁ := fun e => h12 e.symm
  simp only [ParsePrivateEndpointConnectionIDInsensitively, hp, hs, hrg, if_false, hf₁]
  simp only [ResourceID.PopSegment, GoMap.get?, List.find?, decide_True, Option.map_some',
    hh, if_false, GoMap.delete, List.filter, ne_eq, not_true_eq_false, decide_False,
    h21', not_false_eq_true, hf₂, hn, ResourceID.ValidateNoEmptySegments, List.length_nil,
    if_true]

theorem EqualFold_ne_nil {k l : GoString} (h : EqualFold k l = true) (hl : l ≠ []) : k ≠ [] := by
  rintro rfl
  cases l with
  | nil => exact hl rfl
  | cons d t => simp [EqualFold, foldStep] at h

/-- The library accepts a slash-led string of ten plain segments in the canonical
arrangement, with or without a trailing slash. -/
theorem library_accepts (pa : GoString → Option GoString)
    (s rgKey rg prov k₁ h k₂ n : GoString)
    (hrgk : rgKey = "resourceGroups".data ∨ rgKey = "resourcegroups".data)
    (hs : plainValue s = true) (hrg : plainValue rg = true) (hprov : plainValue prov = true)
    (hh : plainValue h = true) (hn : plainValue n = true)
    (hk₁ : plainValue k₁ = true) (hk₂ : plainValue k₂ = true) (h12 : k₁ ≠ k₂)
    (h1s : k₁ ≠ "subscriptions".data) (h1p : k₁ ≠ "providers".data)
    (h1r : k₁ ≠ "resourceGroups".data) (h1r' : k₁ ≠ "resourcegroups".data)
    (h2s : k₂ ≠ "subscriptions".data) (h2p : k₂ ≠ "providers".data)
    (h2r : k₂ ≠ "resourceGroups".data) (h2r' : k₂ ≠ "resourcegroups".data) :
    ParseAzureResourceID pa
        (idString "subscriptions".data s rgKey rg "providers".data prov k₁ h k₂ n)
        = .ok ⟨s, rg, prov, [], [(k₁, h), (k₂, n)]⟩
      ∧ ParseAzureResourceID pa
        (idString "subscriptions".data s rgKey rg "providers".data prov k₁ h k₂ n ++ ['/'])
        = .ok ⟨s, rg, prov, [], [(k₁, h), (k₂, n)]⟩ := by
  have hplain : ∀ w ∈ ["subscriptions".data, s, rgKey, rg, "providers".data, prov, k₁, h, k₂, n],
      ∀ c ∈ w, plainByte c = true := by
    intro w hw
    simp only [List.mem_cons, List.mem_singleton, List.not_mem_nil, or_false] at hw
    rcases hw with rfl | rfl | rfl | rfl | rfl | rfl | rfl | rfl | rfl | rfl
    · decide
    · exact plainValue_bytes hs
    · rcases hrgk with rfl | rfl <;> decide
    · exact plainValue_bytes hrg
    · decide
    · exact plainValue_bytes hprov
    · exact plainValue_bytes hk₁
    · exact plainValue_bytes hh
    · exact plainValue_bytes hk₂
    · exact plainValue_bytes hn
  have hlast : ["subscriptions".data, s, rgKey, rg, "providers".data, prov, k₁, h, k₂,
      n].getLast? ≠ some [] := by
    simpa using Ne.symm (plainValue_ne_nil hn)
  obtain ⟨h1, h2⟩ := ParseAzureResourceID_join pa _ (by simp) hplain hlast
  have hc := resourceIDOfComponents_canonical
    (joinSlash ["subscriptions".data, s, rgKey, rg, "providers".data, prov, k₁, h, k₂, n])
    s rgKey rg prov k₁ h k₂ n hrgk (plainValue_ne_nil hs) (plainValue_ne_nil hrg)
    (plainValue_ne_nil hprov) (plainValue_ne_nil hh) (plainValue_ne_nil hn)
    (plainValue_ne_nil hk₁) (plainValue_ne_nil hk₂) h12 h1s h1p h1r h1r' h2s h2p h2r h2r'
  rw [hc] at h1 h2
  exact ⟨h1, h2⟩

/-- The strict parser accepts the canonical string of plain values, whatever the provider
and with either spelling of the resource group label. -/
theorem strict_accepts (pa : GoString → Option GoString) (s rgKey rg prov h n : GoString)
    (hrgk : rgKey = "resourceGroups".data ∨ rgKey = "resourcegroups".data)
    (hs : plainValue s = true) (hrg : plainValue rg = true) (hprov : plainValue prov = true)
    (hh : plainValue h = true) (hn : plainValue n = true) :
    ParsePrivateEndpointConnectionID pa
        (idString "subscriptions".data s rgKey rg "providers".data prov "managedHSMs".data h
          "privateEndpointConnections".data n) = .ok ⟨s, rg, h, n⟩
      ∧ ParsePrivateEndpointConnectionID pa
        (idString "subscriptions".data s rgKey rg "providers".data prov "managedHSMs".data h
          "privateEndpointConnections".data n ++ ['/']) = .ok ⟨s, rg, h, n⟩ := by
  obtain ⟨h1, h2⟩ := library_accepts pa s rgKey rg prov "managedHSMs".data h
    "privateEndpointConnections".data n hrgk hs hrg hprov hh hn (by decide) (by decide)
    (by decide) (by decide) (by decide) (by decide) (by decide) (by decide) (by decide)
    (by decide) (by decide)
  exact ⟨strict_of_canonical pa _ s rg prov h n (plainValue_ne_nil hs) (plainValue_ne_nil hrg)
      (plainValue_ne_nil hh) (plainValue_ne_nil hn) h1,
    strict_of_canonical pa _ s rg prov h n (plainValue_ne_nil hs) (plainValue_ne_nil hrg)
      (plainValue_ne_nil hh) (plainValue_ne_nil hn) h2⟩

theorem plainValue_of_EqualFold {k l : GoString} (h : EqualFold k l = true) (hl : l ≠ [])
    (hp : ∀ d ∈ l, plainByte d = true) : plainValue k = true := by
  simp only [plainValue, Bool.and_eq_true, decide_eq_true_eq, List.all_eq_true]
  exact ⟨EqualFold_ne_nil h hl, EqualFold_plain l k h hp⟩

/-- The insensitive parser accepts the canonical string of plain values when the two last
labels are replaced by keys that fold to them, in whatever order its loops
visit the map. -/
theorem insensitive_accepts (pa : GoString → Option GoString) (o₁ o₂ : RangeOrder)
    (s rgKey rg prov k₁ h k₂ n : GoString)
    (hrgk : rgKey = "resourceGroups".data ∨ rgKey = "resourcegroups".data)
    (hs : plainValue s = true) (hrg : plainValue rg = true) (hprov : plainValue prov = true)
    (hh : plainValue h = true) (hn : plainValue n = true)
    (hk₁ : EqualFold k₁ "managedHSMs".data = true)
    (hk₂ : EqualFold k₂ "privateEndpointConnections".data = true) :
    ParsePrivateEndpointConnectionIDInsensitively pa o₁ o₂
        (idString "subscriptions".data s rgKey rg "providers".data prov k₁ h k₂ n)
        = .ok ⟨s, rg, h, n⟩
      ∧ ParsePrivateEndpointConnectionIDInsensitively pa o₁ o₂
        (idString "subscriptions".data s rgKey rg "providers".data prov k₁ h k₂ n ++ ['/'])
        = .ok ⟨s, rg, h, n⟩ := by
  have h12 : k₁ ≠ k₂ := fun e => by
    have := EqualFold_length _ _ _ hk₁ (e ▸ hk₂)
    simp at this
  have ne₁ : ∀ l : GoString, EqualFold l "managedHSMs".data = false → k₁ ≠ l :=
    fun l hl e => by rw [e, hl] at hk₁; cases hk₁
  have ne₂ : ∀ l : GoString, EqualFold l "privateEndpointConnections".data = false → k₂ ≠ l :=
    fun l hl e => by rw [e, hl] at hk₂; cases hk₂
  obtain ⟨h1, h2⟩ := library_accepts pa s rgKey rg prov k₁ h k₂ n hrgk hs hrg hprov hh hn
    (plainValue_of_EqualFold hk₁ (by decide) (by decide))
    (plainValue_of_EqualFold hk₂ (by decide) (by decide)) h12
    (ne₁ _ (by decide)) (ne₁ _ (by decide)) (ne₁ _ (by decide)) (ne₁ _ (by decide))
    (ne₂ _ (by decide)) (ne₂ _ (by decide)) (ne₂ _ (by decide)) (ne₂ _ (by decide))
  exact ⟨insensitive_of_canonical pa o₁ o₂ _ s rg prov k₁ h k₂ n (plainValue_ne_nil hs)
      (plainValue_ne_nil hrg) (plainValue_ne_nil hh) (plainValue_ne_nil hn) hk₁ hk₂ h1,
    insensitive_of_canonical pa o₁ o₂ _ s rg prov k₁ h k₂ n (plainValue_ne_nil hs)
      (plainValue_ne_nil hrg) (plainValue_ne_nil hh) (plainValue_ne_nil hn) hk₁ hk₂ h2⟩

/-- The library on a slash-led string of ten plain segments, with or without a trailing
slash: the segments are the components. -/
theorem library_on_ten (pa : GoString → Option GoString)
    (a₀ a₁ a₂ a₃ a₄ a₅ a₆ a₇ a₈ a₉ : GoString)
    (h₀ : plainValue a₀ = true) (h₁ : plainValue a₁ = true) (h₂ : plainValue a₂ = true)
    (h₃ : plainValue a₃ = true) (h₄ : plainValue a₄ = true) (h₅ : plainValue a₅ = true)
    (h₆ : plainValue a₆ = true) (h₇ : plainValue a₇ = true) (h₈ : plainValue a₈ = true)
    (h₉ : plainValue a₉ = true) :
    ParseAzureResourceID pa (idString a₀ a₁ a₂ a₃ a₄ a₅ a₆ a₇ a₈ a₉)
        = resourceIDOfComponents (joinSlash [a₀, a₁, a₂, a₃, a₄, a₅, a₆, a₇, a₈, a₉])
            [a₀, a₁, a₂, a₃, a₄, a₅, a₆, a₇, a₈, a₉]
      ∧ ParseAzureResourceID pa (idString a₀ a₁ a₂ a₃ a₄ a₅ a₆ a₇ a₈ a₉ ++ ['/'])
        = resourceIDOfComponents (joinSlash [a₀, a₁, a₂, a₃, a₄, a₅, a₆, a₇, a₈, a₉])
            [a₀, a₁, a₂, a₃, a₄, a₅, a₆, a₇, a₈, a₉] := by
  have hplain : ∀ w ∈ [a₀, a₁, a₂, a₃, a₄, a₅, a₆, a₇, a₈, a₉], ∀ c ∈ w, plainByte c = true := by
    intro w hw
    simp only [List.mem_cons, List.mem_singleton, List.not_mem_nil, or_false] at hw
    rcases hw with rfl | rfl | rfl | rfl | rfl | rfl | rfl | rfl | rfl | rfl <;>
      exact plainValue_bytes (by assumption)
  have hlast : [a₀, a₁, a₂, a₃, a₄, a₅, a₆, a₇, a₈, a₉].getLast? ≠ some [] := by
    simpa using Ne.symm (plainValue_ne_nil h₉)
  exact ParseAzureResourceID_join pa _ (by simp) hplain hlast

theorem ne_of_caseVariant {v l : GoString} (h : caseVariant v l = true) (l' : GoString)
    (hl' : caseVariant l' l = false) : v ≠ l' := by
  rintro rfl
  rw [h] at hl'
  cases hl'

/-! ## Prefixes of a joined string -/

/-- A slash inside a joined string of slash-free segments separates a proper, non-empty
initial part of the segments from the rest. -/
theorem joinSlash_eq_append_slash (segs : List GoString) (h : ∀ w ∈ segs, '/' ∉ w)
    (A B : GoString) (hAB : joinSlash segs = A ++ '/' :: B) :
    ∃ k, 0 < k ∧ k < segs.length ∧ A = joinSlash (segs.take k) := by
  induction segs generalizing A with
  | nil => simp [joinSlash] at hAB
  | cons w ws ih =>
    cases ws with
    | nil =>
      simp only [joinSlash] at hAB
      exact absurd (hAB ▸ (by simp : '/' ∈ A ++ '/' :: B)) (h w (by simp))
    | cons w₁ ws =>
      rw [joinSlash] at hAB
      have hw : '/' ∉ w := h w (by simp)
      rcases List.append_eq_append_iff.1 hAB with ⟨a', ha, hb⟩ | ⟨c', hc, hd⟩
      · -- `A = w ++ a'`
        cases a' with
        | nil =>
          refine ⟨1, by omega, by simp, ?_⟩
          simpa [joinSlash] using ha
        | cons c a'' =>
          simp only [List.cons_append, List.cons.injEq] at hb
          obtain ⟨rfl, hb⟩ := hb
          obtain ⟨k, hk0, hk, hA⟩ := ih (fun x hx => h x (List.mem_cons_of_mem _ hx)) a'' hb
          refine ⟨k + 1, by omega, by simpa using hk, ?_⟩
          rw [ha, hA]
          obtain ⟨k', rfl⟩ : ∃ k', k = k' + 1 := ⟨k - 1, by omega⟩
          simp [joinSlash, List.take]
      · -- `w = A ++ c'`
        cases c' with
        | nil =>
          refine ⟨1, by omega, by simp, ?_⟩
          simpa [joinSlash] using hc.symm
        | cons c c'' =>
          simp only [List.cons_append, List.cons.injEq] at hd
          exact absurd (hc ▸ hd.1 ▸ (by simp : c ∈ A ++ c :: c'')) hw

/-- The request URI and the components of a slash-led string of plain segments. -/
theorem components_of_join (pa : GoString → Option GoString) (segs : List GoString)
    (hne : segs ≠ []) (h : ∀ w ∈ segs, ∀ c ∈ w, plainByte c = true)
    (hlast : segs.getLast? ≠ some []) :
    (∃ idURL, ParseRequestURI pa ('/' :: joinSlash segs) = some idURL
        ∧ splitSlash (trimmedPath idURL) = segs)
      ∧ ∃ idURL, ParseRequestURI pa ('/' :: joinSlash segs ++ ['/']) = some idURL
        ∧ splitSlash (trimmedPath idURL) = segs := by
  have hns := plain_segments_noSlash segs h
  have hin := plain_segments_inert segs h
  have hin' : ∀ c ∈ joinSlash segs ++ ['/'], inertByte c = true := by
    intro c hc
    rcases List.mem_append.1 hc with hc | hc
    · exact hin c hc
    · rw [List.mem_singleton] at hc; subst hc; decide
  have hgl := joinSlash_getLast? segs hne hns hlast
  constructor
  · refine ⟨_, ParseRequestURI_inert pa _ hin, ?_⟩
    simp only [trimmedPath, TrimPrefix_slash_cons, TrimSuffix_of_getLast? _ hgl,
      splitSlash_joinSlash segs hne hns]
  · refine ⟨_, by rw [List.cons_append]; exact ParseRequestURI_inert pa _ hin', ?_⟩
    simp only [trimmedPath, TrimPrefix_slash_cons, TrimSuffix_append_slash,
      splitSlash_joinSlash segs hne hns]

/-- Either parser succeeds only when the path has an even number of segments and one of
its keys folds to the last label. -/
theorem accepted_has_last_label (pa : GoString → Option GoString) (o₁ o₂ : RangeOrder)
    (S : GoString) (I : PrivateEndpointConnectionId)
    (h : ParsePrivateEndpointConnectionID pa S = .ok I
      ∨ ParsePrivateEndpointConnectionIDInsensitively pa o₁ o₂ S = .ok I) :
    ∃ idURL, ParseRequestURI pa S = some idURL
      ∧ (splitSlash (trimmedPath idURL)).length % 2 = 0
      ∧ ∃ k ∈ pairKeys (splitSlash (trimmedPath idURL)),
          EqualFold k "privateEndpointConnections".data = true := by
  rcases h with h | h
  · obtain ⟨idURL, hurl, hlen, -, -, -, -, hp⟩ := ParsePrivateEndpointConnectionID_ok pa S I h
    exact ⟨idURL, hurl, hlen, _, hp, by decide⟩
  · obtain ⟨idURL, hurl, hlen, -, -, -, k₁, k₂, -, hk₂, -, hf₂⟩ :=
      ParsePrivateEndpointConnectionIDInsensitively_ok pa o₁ o₂ S I h
    exact ⟨idURL, hurl, hlen, k₂, hk₂, hf₂⟩

theorem exists_error_of_not_ok {α : Type} (r : Except ParseError α) (h : ∀ a, r ≠ .ok a) :
    ∃ e, r = .error e := by
  cases r with
  | error e => exact ⟨e, rfl⟩
  | ok a => exact absurd rfl (h a)

/-! ## Appending a segment to a request URI -/

theorem getSchemeLoop_append (raw x : GoString) :
    ∀ (cs : GoString) (i : Nat) (a r : GoString), i + cs.length = raw.length →
      getSchemeLoop raw i cs = some (a, r) →
      getSchemeLoop (raw ++ '/' :: x) i (cs ++ '/' :: x) = some (a, r ++ '/' :: x) := by
  intro cs
  induction cs with
  | nil =>
    intro i a r _ h
    simp only [getSchemeLoop, Option.some.injEq, Prod.mk.injEq] at h
    obtain ⟨rfl, rfl⟩ := h
    simp [getSchemeLoop, isAsciiLetter, isAsciiDigit]
  | cons c cs ih =>
    intro i a r hi h
    simp only [List.length_cons] at hi
    simp only [getSchemeLoop, List.cons_append] at h ⊢
    split at h
    · rename_i hl
      rw [if_pos hl]
      exact ih (i + 1) a r (by omega) h
    · rename_i hl
      rw [if_neg hl]
      split at h
      · rename_i hd
        rw [if_pos hd]
        split at h
        · rename_i h0
          rw [if_pos h0]
          simp only [Option.some.injEq, Prod.mk.injEq] at h
          obtain ⟨rfl, rfl⟩ := h
          rfl
        · rename_i h0
          rw [if_neg h0]
          exact ih (i + 1) a r (by omega) h
      · rename_i hd
        rw [if_neg hd]
        split at h
        · rename_i hc
          rw [if_pos hc]
          split at h
          · cases h
          · rename_i h0
            rw [if_neg h0]
            simp only [Option.some.injEq, Prod.mk.injEq] at h
            obtain ⟨rfl, rfl⟩ := h
            rw [List.take_append_of_le_length (by omega)]
            rfl
        · rename_i hc
          rw [if_neg hc]
          simp only [Option.some.injEq, Prod.mk.injEq] at h
          obtain ⟨rfl, rfl⟩ := h
          rfl

theorem getScheme_append (raw x a r : GoString) (h : getScheme raw = some (a, r)) :
    getScheme (raw ++ '/' :: x) = some (a, r ++ '/' :: x) :=
  getSchemeLoop_append raw x raw 0 a r (by simp) h

theorem getSchemeLoop_suffix (raw : GoString) :
    ∀ (cs : GoString) (i : Nat) (a r : GoString), cs <:+ raw →
      getSchemeLoop raw i cs = some (a, r) → r <:+ raw := by
  intro cs
  induction cs with
  | nil =>
    intro i a r _ h
    simp only [getSchemeLoop, Option.some.injEq, Prod.mk.injEq] at h
    exact h.2 ▸ List.suffix_refl _
  | cons c cs ih =>
    intro i a r hs h
    have hs' : cs <:+ raw := (List.suffix_cons c cs).trans hs
    simp only [getSchemeLoop] at h
    split at h
    · exact ih _ a r hs' h
    · split at h
      · split at h
        · simp only [Option.some.injEq, Prod.mk.injEq] at h
          exact h.2 ▸ List.suffix_refl _
        · exact ih _ a r hs' h
      · split at h
        · split at h
          · cases h
          · simp only [Option.some.injEq, Prod.mk.injEq] at h
            exact h.2 ▸ hs'
        · simp only [Option.some.injEq, Prod.mk.injEq] at h
          exact h.2 ▸ List.suffix_refl _

theorem unescapePath_append (e : GoString) (he : '%' ∉ e) :
    ∀ (n : Nat) (r p : GoString), r.length ≤ n → unescapePath r = some p →
      unescapePath (r ++ e) = some (p ++ e) := by
  intro n
  induction n with
  | zero =>
    intro r p hr h
    have : r = [] := List.length_eq_zero.1 (Nat.le_zero.1 hr)
    subst this
    simp only [unescapePath, Option.some.injEq] at h
    subst h
    simpa using unescapePath_of_not_mem e he
  | succ n ih =>
    intro r p hr h
    cases r with
    | nil =>
      simp only [unescapePath, Option.some.injEq] at h
      subst h
      simpa using unescapePath_of_not_mem e he
    | cons c rest =>
      unfold unescapePath at h
      rw [List.cons_append]
      unfold unescapePath
      split at h
      · rename_i hc
        rw [if_pos hc]
        split at h
        · rename_i a b rest₂
          split at h
          · rename_i hab
            simp only [List.cons_append, if_pos hab]
            simp only [Option.map_eq_some'] at h
            obtain ⟨t, ht, rfl⟩ := h
            rw [ih rest₂ t (by simp only [List.length_cons] at hr; omega) ht]
            rfl
          · cases h
        · cases h
      · rename_i hc
        rw [if_neg hc]
        simp only [Option.map_eq_some'] at h
        obtain ⟨t, ht, rfl⟩ := h
        rw [ih rest t (by simp only [List.length_cons] at hr; omega) ht]
        rfl

theorem takeWhile_dropWhile_append (p : Char → Bool) (r e : GoString)
    (h : r.dropWhile p ≠ []) :
    (r ++ e).takeWhile p = r.takeWhile p ∧ (r ++ e).dropWhile p = r.dropWhile p ++ e := by
  induction r with
  | nil => simp at h
  | cons c cs ih =>
    by_cases hc : p c = true
    · simp only [List.dropWhile_cons, hc, if_true] at h
      simp only [List.cons_append, List.takeWhile_cons, List.dropWhile_cons, hc, if_true]
      exact ⟨by rw [(ih h).1], (ih h).2⟩
    · simp [List.takeWhile_cons, List.dropWhile_cons, hc]

theorem stringContainsCTLByte_append (a b : GoString) :
    stringContainsCTLByte (a ++ b) = (stringContainsCTLByte a || stringContainsCTLByte b) := by
  simp [stringContainsCTLByte]

theorem isPrefixOf_slash (r : GoString) : ['/'].isPrefixOf r = true ↔ ∃ r₁, r = '/' :: r₁ := by
  cases r with
  | nil => simp [List.isPrefixOf]
  | cons c cs =>
    simp only [List.isPrefixOf, Bool.and_eq_true, beq_iff_eq, and_true, List.cons.injEq,
      exists_eq_right']
    exact eq_comm

/-- Appending a plain segment to a request URI without query appends it to the path,
when the path is neither empty nor the single slash. -/
theorem ParseRequestURI_append (pa : GoString → Option GoString) (S x : GoString) (idURL : URL)
    (hS : ParseRequestURI pa S = some idURL) (hstar : S ≠ ['*']) (hq : '?' ∉ S)
    (hP : idURL.Path ≠ [] ∧ idURL.Path ≠ ['/']) (hx : ∀ c ∈ x, inertByte c = true) :
    ∃ idURL', ParseRequestURI pa (S ++ '/' :: x) = some idURL'
      ∧ idURL'.Path = idURL.Path ++ '/' :: x := by
  have hxe : ∀ c ∈ '/' :: x, inertByte c = true := by
    intro c hc
    rcases List.mem_cons.1 hc with rfl | hc
    · decide
    · exact hx c hc
  have hqe : '?' ∉ '/' :: x := fun hm => absurd (hxe _ hm) (by decide)
  have hpe : '%' ∉ '/' :: x := fun hm => absurd (hxe _ hm) (by decide)
  unfold ParseRequestURI at hS ⊢
  split at hS
  · cases hS
  rename_i hctl
  split at hS
  · cases hS
  rename_i hne
  have hctl' : ¬ stringContainsCTLByte (S ++ '/' :: x) = true := by
    rw [stringContainsCTLByte_append, stringContainsCTLByte_of_inert _ hxe]
    simpa using hctl
  have hne' : ¬ S ++ '/' :: x = [] := by simp
  have hstar' : ¬ S ++ '/' :: x = ['*'] := by
    intro e
    have := congrArg List.length e
    cases S with
    | nil => exact hne rfl
    | cons c cs => simp at this
  rw [if_neg hctl', if_neg hne', if_neg hstar']
  split at hS
  · cases hS
  rename_i sch₀ rest₀ hsch
  rw [getScheme_append S x sch₀ rest₀ hsch]
  have hsuf : rest₀ <:+ S := getSchemeLoop_suffix S S 0 sch₀ rest₀ (List.suffix_refl _) hsch
  have hq₀ : '?' ∉ rest₀ := fun hm => hq (hsuf.subset hm)
  have hq₀' : '?' ∉ rest₀ ++ '/' :: x := by
    intro hm
    rcases List.mem_append.1 hm with hm | hm
    · exact hq₀ hm
    · exact hqe hm
  simp only [cutQuery_of_not_mem _ hq₀, cutQuery_of_not_mem _ hq₀'] at hS ⊢
  by_cases hpre : ['/'].isPrefixOf rest₀ = true
  · obtain ⟨r₁, rfl⟩ := (isPrefixOf_slash rest₀).1 hpre
    have hpre' : ['/'].isPrefixOf ('/' :: r₁ ++ '/' :: x) = true := by simp [List.isPrefixOf]
    rw [if_neg (not_not.2 hpre)] at hS
    rw [if_neg (not_not.2 hpre')]
    by_cases hauth : List.map Char.toLower sch₀ ≠ [] ∧ ['/', '/'].isPrefixOf ('/' :: r₁) = true
    · obtain ⟨hsc, hr₁⟩ := hauth
      obtain ⟨r₂, rfl⟩ : ∃ r₂, r₁ = '/' :: r₂ := by
        cases r₁ with
        | nil => simp [List.isPrefixOf] at hr₁
        | cons c r₂ =>
          simp only [List.isPrefixOf, Bool.and_eq_true, beq_iff_eq, true_and, and_true] at hr₁
          exact ⟨r₂, by rw [← hr₁]⟩
      have hauth' : List.map Char.toLower sch₀ ≠ []
          ∧ ['/', '/'].isPrefixOf ('/' :: '/' :: r₂ ++ '/' :: x) = true :=
        ⟨hsc, by simp [List.isPrefixOf]⟩
      rw [if_pos ⟨hsc, hr₁⟩] at hS
      rw [if_pos hauth']
      simp only [List.cons_append, List.drop_succ_cons, List.drop_zero] at hS ⊢
      split at hS
      · cases hS
      rename_i host hhost
      split at hS
      · cases hS
      rename_i path hpath
      cases hS
      have hdrop : r₂.dropWhile (fun c => decide (c ≠ '/')) ≠ [] := by
        intro e
        rw [e] at hpath
        simp only [unescapePath, Option.some.injEq] at hpath
        exact hP.1 hpath.symm
      obtain ⟨ht, hd⟩ := takeWhile_dropWhile_append (fun c => decide (c ≠ '/')) r₂ ('/' :: x) hdrop
      rw [ht, hd, hhost]
      simp only
      rw [unescapePath_append _ hpe _ _ _ (Nat.le_refl _) hpath]
      exact ⟨_, rfl, rfl⟩
    · rw [if_neg hauth] at hS
      split at hS
      · cases hS
      rename_i path hpath
      cases hS
      have hr₁ : r₁ ≠ [] := by
        rintro rfl
        have : unescapePath ['/'] = some ['/'] := rfl
        rw [this] at hpath
        cases hpath
        exact hP.2 rfl
      obtain ⟨c, r₂, rfl⟩ := List.exists_cons_of_ne_nil hr₁
      have hauth' : ¬ (List.map Char.toLower sch₀ ≠ []
          ∧ ['/', '/'].isPrefixOf ('/' :: c :: r₂ ++ '/' :: x) = true) := by
        intro h
        apply hauth
        refine ⟨h.1, ?_⟩
        have := h.2
        simp only [List.cons_append, List.isPrefixOf, Bool.and_eq_true, beq_iff_eq, true_and,
          and_true] at this ⊢
        exact this
      rw [if_neg hauth']
      rw [unescapePath_append _ hpe _ _ _ (Nat.le_refl _) hpath]
      exact ⟨_, rfl, rfl⟩
  · rw [if_pos hpre] at hS
    split at hS
    · cases hS
      exact absurd rfl hP.1
    · cases hS

theorem splitSlash_append (a b : GoString) :
    splitSlash (a ++ '/' :: b) = splitSlash a ++ splitSlash b := by
  induction a with
  | nil => simp [splitSlash]
  | cons c cs ih =>
    by_cases hc : c = '/'
    · simp [splitSlash, hc, ih]
    · obtain ⟨w, ws, hw⟩ := List.exists_cons_of_ne_nil (splitSlash_ne_nil cs)
      rw [List.cons_append, splitSlash, if_neg hc, ih, splitSlash, if_neg hc, hw]
      rfl

theorem TrimPrefix_append (P e : GoString) (hP : P ≠ []) :
    TrimPrefix (P ++ e) ['/'] = TrimPrefix P ['/'] ++ e := by
  obtain ⟨c, cs, rfl⟩ := List.exists_cons_of_ne_nil hP
  by_cases hc : c = '/'
  · subst hc
    simp [TrimPrefix]
  · have hc' : ¬ '/' = c := fun e => hc e.symm
    simp [TrimPrefix, hc']

/-- After one more segment the loop over the pairs fails on the empty key, if it gets
that far. -/
theorem collectComponents_empty_key (x : GoString) (C : List GoString) :
    C.length % 2 = 0 → ∀ st, ∃ e, collectComponents (C ++ [[], x]) st = .error e := by
  induction C using pairKeys.induct with
  | case1 key value rest ih =>
    intro hlen st
    obtain ⟨sub, prov, m⟩ := st
    have hlen' : rest.length % 2 = 0 := by
      simp only [List.length_cons] at hlen
      omega
    simp only [List.cons_append, collectComponents]
    split
    · exact ⟨_, rfl⟩
    · split
      · exact ih hlen' _
      · split
        · exact ih hlen' _
        · exact ih hlen' _
  | case2 C hC =>
    intro hlen st
    obtain ⟨sub, prov, m⟩ := st
    match C, hC, hlen with
    | [], _, _ => exact ⟨.emptyKeyValue [] x, by simp [collectComponents]⟩
    | [_], _, hlen => simp at hlen
    | a :: b :: r, hC, _ => exact absurd rfl (hC a b r)

/-- One more segment after an accepted path makes the library fail. -/
theorem resourceIDOfComponents_one_more (p : GoString) (C : List GoString) (x : GoString)
    (hlen : C.length % 2 = 0) :
    (∃ e, resourceIDOfComponents p (C ++ [x]) = .error e)
      ∧ ∃ e, resourceIDOfComponents p (C ++ [[], x]) = .error e := by
  constructor
  · refine ⟨.oddSegments p, ?_⟩
    unfold resourceIDOfComponents
    rw [if_pos (by simp only [List.length_append, List.length_singleton]; omega)]
  · unfold resourceIDOfComponents
    split
    · exact ⟨_, rfl⟩
    · obtain ⟨e, he⟩ := collectComponents_empty_key x C hlen ([], [], [])
      rw [he]
      exact ⟨_, rfl⟩

/-! ## Prefixes of a path -/

theorem cutQuery_fst_initial (r : GoString) : (cutQuery r).1 <+: r := by
  unfold cutQuery
  split
  · exact List.dropLast_prefix r
  · exact List.takeWhile_prefix _

/-- Without escapes, the path of a slash-led request URI is an initial part of it. -/
theorem path_is_initial_part (pa : GoString → Option GoString) (T₁ : GoString)
    (idURL : URL) (h : ParseRequestURI pa ('/' :: T₁) = some idURL) (hp : '%' ∉ T₁) :
    idURL.Path <+: '/' :: T₁ := by
  have hpre := cutQuery_fst_initial ('/' :: T₁)
  have hnp : '%' ∉ (cutQuery ('/' :: T₁)).1 := by
    intro hm
    rcases List.mem_cons.1 (hpre.subset hm) with e | hm
    · exact absurd e (by decide)
    · exact hp hm
  unfold ParseRequestURI at h
  split at h
  · cases h
  split at h
  · cases h
  split at h
  · rename_i e
    cases e
  rw [getScheme_slash] at h
  simp only [List.map_nil, ne_eq, not_true_eq_false, if_false, false_and] at h
  split at h
  · cases h
  · rw [unescapePath_of_not_mem _ hnp] at h
    cases h
    exact hpre

/-- The pieces of an initial part of a string are the pieces of the string, up to the last
one, which is an initial part of the piece at its place. -/
theorem splitSlash_of_initial_part (W Y : GoString) :
    ∃ init p d rest, splitSlash W = init ++ [p] ∧ splitSlash (W ++ Y) = init ++ d :: rest
      ∧ p <+: d := by
  induction W with
  | nil =>
    obtain ⟨d, rest, hd⟩ := List.exists_cons_of_ne_nil (splitSlash_ne_nil Y)
    exact ⟨[], [], d, rest, rfl, by simpa using hd, List.nil_prefix⟩
  | cons c W ih =>
    obtain ⟨init, p, d, rest, h₁, h₂, hp⟩ := ih
    by_cases hc : c = '/'
    · refine ⟨[] :: init, p, d, rest, ?_, ?_, hp⟩
      · simp [splitSlash, hc, h₁]
      · simp [splitSlash, hc, h₂]
    · cases init with
      | nil =>
        refine ⟨[], c :: p, c :: d, rest, ?_, ?_, ?_⟩
        · rw [splitSlash, if_neg hc, h₁]; rfl
        · rw [List.cons_append, splitSlash, if_neg hc, h₂]; rfl
        · exact (List.prefix_cons_inj c).2 hp
      | cons i₀ init =>
        refine ⟨(c :: i₀) :: init, p, d, rest, ?_, ?_, hp⟩
        · rw [splitSlash, if_neg hc, h₁]; rfl
        · rw [List.cons_append, splitSlash, if_neg hc, h₂]; rfl

/-- The keys of a list of segments that is cut inside its last segment are keys of the
whole list. -/
theorem pairKeys_of_cut (p d : GoString) (rest : List GoString) :
    ∀ (init : List GoString) (key : GoString), key ∈ pairKeys (init ++ [p]) →
      key ∈ pairKeys (init ++ d :: rest)
  | [], key, h => by simp [pairKeys] at h
  | [a], key, h => by
    simp only [List.singleton_append, pairKeys, List.mem_singleton] at h
    simp [pairKeys, h]
  | a :: b :: init, key, h => by
    simp only [List.cons_append, pairKeys, List.mem_cons] at h ⊢
    rcases h with h | h
    · exact Or.inl h
    · exact Or.inr (pairKeys_of_cut p d rest init key h)

theorem prefix_of_append_singleton {Z Y : GoString} {c : Char} (h : Z <+: Y ++ [c])
    (hne : Z ≠ Y ++ [c]) : Z <+: Y := by
  have hlen : Z.length ≤ Y.length := by
    by_contra hgt
    have h1 := h.length_le
    simp only [List.length_append, List.length_singleton] at h1
    exact hne (h.eq_of_length (by simp only [List.length_append, List.length_singleton]; omega))
  exact List.prefix_of_prefix_length_le h (List.prefix_append Y [c]) hlen

/-- The trimmed form of an initial part of `/` Y `/` is an initial part of Y. -/
theorem trimmed_initial_part (P Y : GoString) (h : P <+: '/' :: (Y ++ ['/'])) :
    TrimSuffix (TrimPrefix P ['/']) ['/'] <+: Y := by
  cases P with
  | nil => simp [TrimPrefix, TrimSuffix, List.isSuffixOf]
  | cons c P₁ =>
    have hc : c = '/' := ((List.cons_prefix_cons).1 h).1
    have hP₁ : P₁ <+: Y ++ ['/'] := ((List.cons_prefix_cons).1 h).2
    subst hc
    rw [TrimPrefix_slash_cons]
    by_cases hl : P₁.getLast? = some '/'
    · obtain ⟨Z, rfl⟩ : ∃ Z, P₁ = Z ++ ['/'] := by
        rcases List.eq_nil_or_concat P₁ with rfl | ⟨Z, d, rfl⟩
        · simp at hl
        · rw [List.concat_eq_append, List.getLast?_append_of_ne_nil _ (by simp)] at hl
          simp only [List.getLast?_singleton, Option.some.injEq] at hl
          exact ⟨Z, by rw [List.concat_eq_append, hl]⟩
      rw [TrimSuffix_append_slash]
      have hlen := hP₁.length_le
      simp only [List.length_append, List.length_singleton] at hlen
      exact List.prefix_of_prefix_length_le ((List.prefix_append Z ['/']).trans hP₁)
        (List.prefix_append Y ['/']) (by omega)
    · rw [TrimSuffix_of_getLast? _ hl]
      exact prefix_of_append_singleton hP₁ (fun e => hl (by rw [e]; simp))

theorem joinSlash_append_singleton (segs : List GoString) (hne : segs ≠ []) (w : GoString) :
    joinSlash (segs ++ [w]) = joinSlash segs ++ '/' :: w := by
  induction segs with
  | nil => exact absurd rfl hne
  | cons a segs ih =>
    cases segs with
    | nil => simp [joinSlash]
    | cons b segs =>
      rw [List.cons_append, List.cons_append, joinSlash, ← List.cons_append, ih (by simp),
        joinSlash, List.append_assoc]
      rfl

/-! ## Every component of an accepted path is non-empty -/

theorem collectComponents_nonempty (C : List GoString) :
    ∀ (st st' : GoString × GoString × GoMap), C.length % 2 = 0 →
      collectComponents C st = .ok st' → ∀ c ∈ C, c ≠ [] := by
  induction C using pairKeys.induct with
  | case1 key value rest ih =>
    rintro ⟨sub, prov, m⟩ st' hlen h
    have hlen' : rest.length % 2 = 0 := by
      simp only [List.length_cons] at hlen
      omega
    simp only [collectComponents] at h
    split at h
    · cases h
    · rename_i hkv
      simp only [not_or] at hkv
      have hrest : ∀ c ∈ rest, c ≠ [] := by
        split at h
        · exact ih _ _ hlen' h
        · split at h
          · exact ih _ _ hlen' h
          · exact ih _ _ hlen' h
      intro c hc
      rcases List.mem_cons.1 hc with rfl | hc
      · exact hkv.1
      · rcases List.mem_cons.1 hc with rfl | hc
        · exact hkv.2
        · exact hrest c hc
  | case2 C hC =>
    intro st st' hlen _
    match C, hC, hlen with
    | [], _, _ => simp
    | [_], _, hlen => simp at hlen
    | a :: b :: r, hC, _ => exact absurd rfl (hC a b r)

theorem ParseRequestURI_no_control (pa : GoString → Option GoString) (S : GoString) (idURL : URL)
    (h : ParseRequestURI pa S = some idURL) : stringContainsCTLByte S = false := by
  unfold ParseRequestURI at h
  split at h
  · cases h
  · rename_i hctl
    simpa using hctl

/-- The strict parser succeeds only on a path all of whose components are non-empty. -/
theorem accepted_components_nonempty (pa : GoString → Option GoString) (S : GoString)
    (I : PrivateEndpointConnectionId) (h : ParsePrivateEndpointConnectionID pa S = .ok I) :
    ∃ idURL, ParseRequestURI pa S = some idURL
      ∧ (splitSlash (trimmedPath idURL)).length % 2 = 0
      ∧ ∀ c ∈ splitSlash (trimmedPath idURL), c ≠ [] := by
  unfold ParsePrivateEndpointConnectionID at h
  split at h
  · cases h
  · rename_i id hid
    clear h
    unfold ParseAzureResourceID at hid
    split at hid
    · cases hid
    · rename_i idURL hurl
      refine ⟨idURL, hurl, ?_⟩
      generalize splitSlash (trimmedPath idURL) = C at hid ⊢
      unfold resourceIDOfComponents at hid
      split at hid
      · cases hid
      · rename_i hlen
        have hlen' : C.length % 2 = 0 := by simpa using hlen
        split at hid
        · cases hid
        · rename_i sub prov m hcol
          exact ⟨hlen', collectComponents_nonempty C _ _ hlen' hcol⟩

/-! ## Different-case variants of a label and truncated inputs -/

theorem plainValue_of_caseVariant {v l : GoString} (h : caseVariant v l = true) (hl : l ≠ [])
    (hp : ∀ d ∈ l, plainByte d = true) : plainValue v = true := by
  simp only [caseVariant, Bool.and_eq_true] at h
  simp only [plainValue, Bool.and_eq_true, decide_eq_true_eq, List.all_eq_true]
  refine ⟨?_, sameUpToCase_plain v l h.2 hp⟩
  rintro rfl
  have := sameUpToCase_length _ _ h.2
  exact hl (List.length_eq_zero.1 this.symm)

theorem EqualFold_of_caseVariant {v l : GoString} (h : caseVariant v l = true)
    (hl : ∀ d ∈ l, d.toNat < 128) : EqualFold v l = true := by
  simp only [caseVariant, Bool.and_eq_true] at h
  exact EqualFold_of_sameUpToCase v l h.2 hl

/-! ## Properties of the private endpoint connection ID -/

set_option maxRecDepth 100000

/-- C1. The formatter: for all strings `s`, `rg`, `h`, `n`,
`NewPrivateEndpointConnectionID(s, rg, h, n).ID()` is exactly
`/subscriptions/` s `/resourceGroups/` rg `/providers/Microsoft.KeyVault/managedHSMs/` h
`/privateEndpointConnections/` n, that is, a single leading slash followed by the
six literal labels in canonical casing and the four values in order, joined by
slashes. -/
theorem ID_is_the_canonical_string (s rg h n : GoString) :
    (NewPrivateEndpointConnectionID s rg h n).ID
        = "/subscriptions/".data ++ s ++ "/resourceGroups/".data ++ rg
          ++ "/providers/Microsoft.KeyVault/managedHSMs/".data ++ h
          ++ "/privateEndpointConnections/".data ++ n
      ∧ (NewPrivateEndpointConnectionID s rg h n).ID
        = '/' :: joinSlash ["subscriptions".data, s, "resourceGroups".data, rg, "providers".data,
            "Microsoft.KeyVault".data, "managedHSMs".data, h,
            "privateEndpointConnections".data, n] :=
  ⟨ID_eq_append s rg h n, ID_eq_idString _⟩

/-- C2 as stated fails: an identifier whose four fields are non-empty, one of them holding
a slash, has an ID of eleven segments, which the strict parser rejects. -/
theorem roundtrip_fails_for_a_value_with_a_slash :
    ("s".data ≠ [] ∧ "g".data ≠ [] ∧ "h".data ≠ [] ∧ "a/b".data ≠ [])
      ∧ ∀ pa, ParsePrivateEndpointConnectionID pa
          (PrivateEndpointConnectionId.ID ⟨"s".data, "g".data, "h".data, "a/b".data⟩)
        = .error (.oddSegments
            "subscriptions/s/resourceGroups/g/providers/Microsoft.KeyVault/managedHSMs/h/privateEndpointConnections/a/b".data) :=
  ⟨by decide, fun _ => rfl⟩

/-- C2, amended. Round trip: for every `PrivateEndpointConnectionId` whose four fields are
non-empty and hold no slash, no `?`, no `%` and no control byte,
`ParsePrivateEndpointConnectionID(I.ID())` succeeds and returns `I`. -/
theorem roundtrip_of_plain_fields (pa : GoString → Option GoString)
    (I : PrivateEndpointConnectionId)
    (hs : plainValue I.SubscriptionId = true) (hrg : plainValue I.ResourceGroup = true)
    (hh : plainValue I.ManagedHSMName = true) (hn : plainValue I.Name = true) :
    ParsePrivateEndpointConnectionID pa I.ID = .ok I := by
  rw [ID_eq_idString]
  exact (strict_accepts pa _ _ _ _ _ _ (Or.inl rfl) hs hrg (by decide) hh hn).1

/-- C2, amended, at the identifier of the formatter test of the source. -/
theorem roundtrip_of_plain_fields_witness :
    ParsePrivateEndpointConnectionID (fun a => some a)
        (PrivateEndpointConnectionId.ID ⟨"12345678-1234-9876-4563-123456789012".data,
          "resGroup1".data, "hsm1".data, "default".data⟩)
      = .ok ⟨"12345678-1234-9876-4563-123456789012".data, "resGroup1".data, "hsm1".data,
          "default".data⟩ :=
  roundtrip_of_plain_fields (fun a => some a) _ (by decide) (by decide) (by decide) (by decide)

/-- C3 as stated fails: the strict parser accepts an input with the label `resourcegroups`
and another provider, and an input whose pairs come in another order; the ID of
the result is the canonical string, which differs from the input by more than a
trailing slash. -/
theorem strict_accepts_non_canonical_inputs :
    (∀ pa, ParsePrivateEndpointConnectionID pa
        "/subscriptions/a/resourcegroups/b/providers/Microsoft.Compute/managedHSMs/c/privateEndpointConnections/d".data
          = .ok ⟨"a".data, "b".data, "c".data, "d".data⟩)
      ∧ (∀ pa, ParsePrivateEndpointConnectionID pa
        "/privateEndpointConnections/d/managedHSMs/c/resourceGroups/b/subscriptions/a".data
          = .ok ⟨"a".data, "b".data, "c".data, "d".data⟩)
      ∧ PrivateEndpointConnectionId.ID ⟨"a".data, "b".data, "c".data, "d".data⟩
          = "/subscriptions/a/resourceGroups/b/providers/Microsoft.KeyVault/managedHSMs/c/privateEndpointConnections/d".data
      ∧ (∀ S ∈ ["/subscriptions/a/resourcegroups/b/providers/Microsoft.Compute/managedHSMs/c/privateEndpointConnections/d".data,
            "/privateEndpointConnections/d/managedHSMs/c/resourceGroups/b/subscriptions/a".data],
          S ≠ PrivateEndpointConnectionId.ID ⟨"a".data, "b".data, "c".data, "d".data⟩
            ∧ S ≠ PrivateEndpointConnectionId.ID ⟨"a".data, "b".data, "c".data, "d".data⟩ ++ ['/']) :=
  ⟨fun _ => rfl, fun _ => rfl, rfl, by decide⟩

/-- C3, amended. Parse-then-format is a fixed point on canonical strings: for every input
`S` that is the canonical string of four values without slash, `?` and `%`, with
or without one trailing slash, on which `ParsePrivateEndpointConnectionID`
succeeds with identifier `I`, `I.ID()` equals `S` up to that trailing slash. -/
theorem parse_then_format_fixed_point (pa : GoString → Option GoString)
    (x y z w S : GoString) (I : PrivateEndpointConnectionId)
    (hx : '/' ∉ x ∧ '?' ∉ x ∧ '%' ∉ x) (hy : '/' ∉ y ∧ '?' ∉ y ∧ '%' ∉ y)
    (hz : '/' ∉ z ∧ '?' ∉ z ∧ '%' ∉ z) (hw : '/' ∉ w ∧ '?' ∉ w ∧ '%' ∉ w)
    (hS : S = (NewPrivateEndpointConnectionID x y z w).ID
      ∨ S = (NewPrivateEndpointConnectionID x y z w).ID ++ ['/'])
    (h : ParsePrivateEndpointConnectionID pa S = .ok I) :
    I.ID = (NewPrivateEndpointConnectionID x y z w).ID := by
  obtain ⟨idURL, hurl, heven, hne⟩ := accepted_components_nonempty pa S I h
  have hctl := ParseRequestURI_no_control pa S idURL hurl
  -- the bytes of the values are plain: they are bytes of an input without control bytes
  have hbytes : ∀ v : GoString, ('/' ∉ v ∧ '?' ∉ v ∧ '%' ∉ v) → (∀ c ∈ v, c ∈ S) →
      ∀ c ∈ v, plainByte c = true := by
    intro v hv hsub c hc
    have hcS := hsub c hc
    simp only [stringContainsCTLByte, List.any_eq_false, decide_eq_true_eq] at hctl
    simp only [plainByte, inertByte, Bool.and_eq_true, decide_eq_true_eq]
    exact ⟨fun e => hv.1 (e ▸ hc), fun e => hv.2.1 (e ▸ hc), fun e => hv.2.2 (e ▸ hc),
      hctl c hcS⟩
  have hmem : ∀ c, (c ∈ x ∨ c ∈ y ∨ c ∈ z ∨ c ∈ w) → c ∈ S := by
    intro c hc
    have : c ∈ (NewPrivateEndpointConnectionID x y z w).ID := by
      rw [ID_eq_append]
      simp only [List.mem_append]
      tauto
    rcases hS with rfl | rfl
    · exact this
    · exact List.mem_append_left _ this
  have hxb := hbytes x hx fun c hc => hmem c (Or.inl hc)
  have hyb := hbytes y hy fun c hc => hmem c (Or.inr (Or.inl hc))
  have hzb := hbytes z hz fun c hc => hmem c (Or.inr (Or.inr (Or.inl hc)))
  have hwb := hbytes w hw fun c hc => hmem c (Or.inr (Or.inr (Or.inr hc)))
  rw [ID_eq_idString, idString] at hS
  change S = '/' :: joinSlash ["subscriptions".data, x, "resourceGroups".data, y,
      "providers".data, "Microsoft.KeyVault".data, "managedHSMs".data, z,
      "privateEndpointConnections".data, w]
    ∨ S = '/' :: joinSlash ["subscriptions".data, x, "resourceGroups".data, y,
      "providers".data, "Microsoft.KeyVault".data, "managedHSMs".data, z,
      "privateEndpointConnections".data, w] ++ ['/'] at hS
  have hplain9 : ∀ v ∈ ["subscriptions".data, x, "resourceGroups".data, y, "providers".data,
      "Microsoft.KeyVault".data, "managedHSMs".data, z, "privateEndpointConnections".data],
      ∀ c ∈ v, plainByte c = true := by
    intro v hv
    simp only [List.mem_cons, List.mem_singleton, List.not_mem_nil, or_false] at hv
    rcases hv with rfl | rfl | rfl | rfl | rfl | rfl | rfl | rfl | rfl <;>
      first | assumption | decide
  -- the four values are non-empty, since the input is accepted
  have hnonempty : x ≠ [] ∧ y ≠ [] ∧ z ≠ [] ∧ w ≠ [] := by
    by_cases hw0 : w = []
    · exfalso
      subst hw0
      have hj : joinSlash ["subscriptions".data, x, "resourceGroups".data, y,
          "providers".data, "Microsoft.KeyVault".data, "managedHSMs".data, z,
          "privateEndpointConnections".data, []]
          = joinSlash ["subscriptions".data, x, "resourceGroups".data, y,
            "providers".data, "Microsoft.KeyVault".data, "managedHSMs".data, z,
            "privateEndpointConnections".data] ++ ['/'] :=
        joinSlash_append_singleton ["subscriptions".data, x, "resourceGroups".data, y,
          "providers".data, "Microsoft.KeyVault".data, "managedHSMs".data, z,
          "privateEndpointConnections".data] (by simp) []
      rw [hj] at hS
      obtain ⟨-, ⟨u₂, hu₂, hc₂⟩⟩ := components_of_join pa _ (by simp) hplain9 (by simp)
      rcases hS with rfl | rfl
      · rw [← List.cons_append, hu₂] at hurl
        cases hurl
        rw [hc₂] at heven
        exact absurd heven (by simp)
      · have hin : ∀ c ∈ joinSlash ["subscriptions".data, x, "resourceGroups".data, y,
            "providers".data, "Microsoft.KeyVault".data, "managedHSMs".data, z,
            "privateEndpointConnections".data] ++ ['/'] ++ ['/'], inertByte c = true := by
          intro c hc
          simp only [List.mem_append, List.mem_singleton] at hc
          rcases hc with (hc | rfl) | rfl
          · exact plain_segments_inert _ hplain9 c hc
          · decide
          · decide
        rw [List.cons_append, ParseRequestURI_inert pa _ hin] at hurl
        cases hurl
        apply hne []
        · simp only [trimmedPath, TrimPrefix_slash_cons, TrimSuffix_append_slash,
            splitSlash_append]
          simp [splitSlash]
        · rfl
    · have hplain10 : ∀ v ∈ ["subscriptions".data, x, "resourceGroups".data, y,
          "providers".data, "Microsoft.KeyVault".data, "managedHSMs".data, z,
          "privateEndpointConnections".data, w], ∀ c ∈ v, plainByte c = true := by
        intro v hv
        simp only [List.mem_cons, List.mem_singleton, List.not_mem_nil, or_false] at hv
        rcases hv with rfl | rfl | rfl | rfl | rfl | rfl | rfl | rfl | rfl | rfl <;>
          first | assumption | decide
      obtain ⟨⟨u₁, hu₁, hc₁⟩, ⟨u₂, hu₂, hc₂⟩⟩ := components_of_join pa _ (by simp) hplain10
        (by simpa using Ne.symm hw0)
      have hC : splitSlash (trimmedPath idURL) = ["subscriptions".data, x,
          "resourceGroups".data, y, "providers".data, "Microsoft.KeyVault".data,
          "managedHSMs".data, z, "privateEndpointConnections".data, w] := by
        rcases hS with rfl | rfl
        · rw [hu₁] at hurl; cases hurl; exact hc₁
        · rw [hu₂] at hurl; cases hurl; exact hc₂
      rw [hC] at hne
      exact ⟨hne x (by simp), hne y (by simp), hne z (by simp), hw0⟩
  have pv : ∀ v : GoString, v ≠ [] → (∀ c ∈ v, plainByte c = true) → plainValue v = true := by
    intro v h0 hb
    simp only [plainValue, Bool.and_eq_true, decide_eq_true_eq, List.all_eq_true]
    exact ⟨h0, hb⟩
  have hacc := strict_accepts pa x "resourceGroups".data y "Microsoft.KeyVault".data z w
    (Or.inl rfl) (pv x hnonempty.1 hxb) (pv y hnonempty.2.1 hyb) (by decide)
    (pv z hnonempty.2.2.1 hzb) (pv w hnonempty.2.2.2 hwb)
  have hI : I = NewPrivateEndpointConnectionID x y z w := by
    rcases hS with rfl | rfl
    · rw [← idString, hacc.1] at h
      cases h
      rfl
    · rw [← idString, hacc.2] at h
      cases h
      rfl
  rw [hI]

/-- C3, amended, at the canonical string with a trailing slash. -/
theorem parse_then_format_fixed_point_witness :
    PrivateEndpointConnectionId.ID ⟨"a".data, "b".data, "c".data, "d".data⟩
      = (NewPrivateEndpointConnectionID "a".data "b".data "c".data "d".data).ID :=
  parse_then_format_fixed_point (fun a => some a) "a".data "b".data "c".data "d".data
    "/subscriptions/a/resourceGroups/b/providers/Microsoft.KeyVault/managedHSMs/c/privateEndpointConnections/d/".data
    ⟨"a".data, "b".data, "c".data, "d".data⟩ (by decide) (by decide) (by decide) (by decide)
    (Or.inr rfl) rfl

/-- C4 as stated fails: the canonical string is accepted, and it is still accepted, with
the same result, when `resourceGroups` is replaced by `resourcegroups` or
`Microsoft.KeyVault` by `microsoft.keyvault`. -/
theorem strict_accepts_lower_case_resourcegroups :
    (∀ pa, ParsePrivateEndpointConnectionID pa
        (PrivateEndpointConnectionId.ID ⟨"a".data, "b".data, "c".data, "d".data⟩)
          = .ok ⟨"a".data, "b".data, "c".data, "d".data⟩)
      ∧ caseVariant "resourcegroups".data "resourceGroups".data = true
      ∧ (∀ pa, ParsePrivateEndpointConnectionID pa
          (idString "subscriptions".data "a".data "resourcegroups".data "b".data "providers".data
            "Microsoft.KeyVault".data "managedHSMs".data "c".data
            "privateEndpointConnections".data "d".data)
          = .ok ⟨"a".data, "b".data, "c".data, "d".data⟩)
      ∧ caseVariant "microsoft.keyvault".data "Microsoft.KeyVault".data = true
      ∧ (∀ pa, ParsePrivateEndpointConnectionID pa
          (idString "subscriptions".data "a".data "resourceGroups".data "b".data "providers".data
            "microsoft.keyvault".data "managedHSMs".data "c".data
            "privateEndpointConnections".data "d".data)
          = .ok ⟨"a".data, "b".data, "c".data, "d".data⟩) :=
  ⟨fun _ => rfl, by decide, fun _ => rfl, by decide, fun _ => rfl⟩

/-- C4, amended. For every identifier `I` with plain fields (non-empty, no slash, `?`, `%` or
control byte), so that the strict parser accepts `I.ID()`: replacing
`subscriptions`, `providers`, `managedHSMs` or `privateEndpointConnections` by a
variant that differs from it only in letter case, or `resourceGroups` by such a
variant other than `resourcegroups`, makes `ParsePrivateEndpointConnectionID`
return an error. -/
theorem strict_rejects_case_variants (pa : GoString → Option GoString)
    (I : PrivateEndpointConnectionId) (v : GoString)
    (hs : plainValue I.SubscriptionId = true) (hrg : plainValue I.ResourceGroup = true)
    (hh : plainValue I.ManagedHSMName = true) (hn : plainValue I.Name = true) :
    (caseVariant v "subscriptions".data = true →
        ∃ e, ParsePrivateEndpointConnectionID pa
          (idString v I.SubscriptionId "resourceGroups".data I.ResourceGroup
            "providers".data "Microsoft.KeyVault".data "managedHSMs".data I.ManagedHSMName
            "privateEndpointConnections".data I.Name) = .error e)
      ∧ (caseVariant v "resourceGroups".data = true → v ≠ "resourcegroups".data →
        ∃ e, ParsePrivateEndpointConnectionID pa
          (idString "subscriptions".data I.SubscriptionId v I.ResourceGroup
            "providers".data "Microsoft.KeyVault".data "managedHSMs".data I.ManagedHSMName
            "privateEndpointConnections".data I.Name) = .error e)
      ∧ (caseVariant v "providers".data = true →
        ∃ e, ParsePrivateEndpointConnectionID pa
          (idString "subscriptions".data I.SubscriptionId "resourceGroups".data I.ResourceGroup
            v "Microsoft.KeyVault".data "managedHSMs".data I.ManagedHSMName
            "privateEndpointConnections".data I.Name) = .error e)
      ∧ (caseVariant v "managedHSMs".data = true →
        ∃ e, ParsePrivateEndpointConnectionID pa
          (idString "subscriptions".data I.SubscriptionId "resourceGroups".data I.ResourceGroup
            "providers".data "Microsoft.KeyVault".data v I.ManagedHSMName
            "privateEndpointConnections".data I.Name) = .error e)
      ∧ (caseVariant v "privateEndpointConnections".data = true →
        ∃ e, ParsePrivateEndpointConnectionID pa
          (idString "subscriptions".data I.SubscriptionId "resourceGroups".data I.ResourceGroup
            "providers".data "Microsoft.KeyVault".data "managedHSMs".data I.ManagedHSMName
            v I.Name) = .error e) := by
  have hs' := plainValue_ne_nil hs
  have hrg' := plainValue_ne_nil hrg
  have hh' := plainValue_ne_nil hh
  have hn' := plainValue_ne_nil hn
  refine ⟨fun hv => ?_, fun hv hv' => ?_, fun hv => ?_, fun hv => ?_, fun hv => ?_⟩
  · have hp := plainValue_of_caseVariant hv (by decide) (by decide)
    have hv0 := plainValue_ne_nil hp
    have e₁ := ne_of_caseVariant hv "subscriptions".data (by decide)
    have e₂ := ne_of_caseVariant hv "providers".data (by decide)
    have e₃ := ne_of_caseVariant hv "resourceGroups".data (by decide)
    have e₄ := ne_of_caseVariant hv "resourcegroups".data (by decide)
    have e₅ := ne_of_caseVariant hv "managedHSMs".data (by decide)
    have e₆ := ne_of_caseVariant hv "privateEndpointConnections".data (by decide)
    have e₁' := e₁.symm; have e₂' := e₂.symm; have e₃' := e₃.symm; have e₄' := e₄.symm
    have e₅' := e₅.symm; have e₆' := e₆.symm
    simp at e₁ e₂ e₃ e₄ e₅ e₆ e₁' e₂' e₃' e₄' e₅' e₆'
    have := (library_on_ten pa v I.SubscriptionId "resourceGroups".data I.ResourceGroup "providers".data
      "Microsoft.KeyVault".data "managedHSMs".data I.ManagedHSMName "privateEndpointConnections".data I.Name
      hp hs (by decide) hrg (by decide) (by decide) (by decide) hh (by decide) hn).1
    simp [ParsePrivateEndpointConnectionID, this, resourceIDOfComponents, collectComponents,
      takeResourceGroup, GoMap.set, GoMap.get?, GoMap.delete, ResourceID.PopSegment,
      ResourceID.ValidateNoEmptySegments, *]
  · have hp := plainValue_of_caseVariant hv (by decide) (by decide)
    have hv0 := plainValue_ne_nil hp
    have e₁ := ne_of_caseVariant hv "subscriptions".data (by decide)
    have e₂ := ne_of_caseVariant hv "providers".data (by decide)
    have e₃ := ne_of_caseVariant hv "resourceGroups".data (by decide)
    have e₄ := hv'
    have e₅ := ne_of_caseVariant hv "managedHSMs".data (by decide)
    have e₆ := ne_of_caseVariant hv "privateEndpointConnections".data (by decide)
    have e₁' := e₁.symm; have e₂' := e₂.symm; have e₃' := e₃.symm; have e₄' := e₄.symm
    have e₅' := e₅.symm; have e₆' := e₆.symm
    simp at e₁ e₂ e₃ e₄ e₅ e₆ e₁' e₂' e₃' e₄' e₅' e₆'
    have := (library_on_ten pa "subscriptions".data I.SubscriptionId v I.ResourceGroup "providers".data
      "Microsoft.KeyVault".data "managedHSMs".data I.ManagedHSMName "privateEndpointConnections".data I.Name
      (by decide) hs hp hrg (by decide) (by decide) (by decide) hh (by decide) hn).1
    simp [ParsePrivateEndpointConnectionID, this, resourceIDOfComponents, collectComponents,
      takeResourceGroup, GoMap.set, GoMap.get?, GoMap.delete, ResourceID.PopSegment,
      ResourceID.ValidateNoEmptySegments, *]
  · have hp := plainValue_of_caseVariant hv (by decide) (by decide)
    have hv0 := plainValue_ne_nil hp
    have e₁ := ne_of_caseVariant hv "subscriptions".data (by decide)
    have e₂ := ne_of_caseVariant hv "providers".data (by decide)
    have e₃ := ne_of_caseVariant hv "resourceGroups".data (by decide)
    have e₄ := ne_of_caseVariant hv "resourcegroups".data (by decide)
    have e₅ := ne_of_caseVariant hv "managedHSMs".data (by decide)
    have e₆ := ne_of_caseVariant hv "privateEndpointConnections".data (by decide)
    have e₁' := e₁.symm; have e₂' := e₂.symm; have e₃' := e₃.symm; have e₄' := e₄.symm
    have e₅' := e₅.symm; have e₆' := e₆.symm
    simp at e₁ e₂ e₃ e₄ e₅ e₆ e₁' e₂' e₃' e₄' e₅' e₆'
    have := (library_on_ten pa "subscriptions".data I.SubscriptionId "resourceGroups".data I.ResourceGroup v
      "Microsoft.KeyVault".data "managedHSMs".data I.ManagedHSMName "privateEndpointConnections".data I.Name
      (by decide) hs (by decide) hrg hp (by decide) (by decide) hh (by decide) hn).1
    simp [ParsePrivateEndpointConnectionID, this, resourceIDOfComponents, collectComponents,
      takeResourceGroup, GoMap.set, GoMap.get?, GoMap.delete, ResourceID.PopSegment,
      ResourceID.ValidateNoEmptySegments, *]
  · have hp := plainValue_of_caseVariant hv (by decide) (by decide)
    have hv0 := plainValue_ne_nil hp
    have e₁ := ne_of_caseVariant hv "subscriptions".data (by decide)
    have e₂ := ne_of_caseVariant hv "providers".data (by decide)
    have e₃ := ne_of_caseVariant hv "resourceGroups".data (by decide)
    have e₄ := ne_of_caseVariant hv "resourcegroups".data (by decide)
    have e₅ := ne_of_caseVariant hv "managedHSMs".data (by decide)
    have e₆ := ne_of_caseVariant hv "privateEndpointConnections".data (by decide)
    have e₁' := e₁.symm; have e₂' := e₂.symm; have e₃' := e₃.symm; have e₄' := e₄.symm
    have e₅' := e₅.symm; have e₆' := e₆.symm
    simp at e₁ e₂ e₃ e₄ e₅ e₆ e₁' e₂' e₃' e₄' e₅' e₆'
    have := (library_on_ten pa "subscriptions".data I.SubscriptionId "resourceGroups".data I.ResourceGroup "providers".data
      "Microsoft.KeyVault".data v I.ManagedHSMName "privateEndpointConnections".data I.Name
      (by decide) hs (by decide) hrg (by decide) (by decide) hp hh (by decide) hn).1
    simp [ParsePrivateEndpointConnectionID, this, resourceIDOfComponents, collectComponents,
      takeResourceGroup, GoMap.set, GoMap.get?, GoMap.delete, ResourceID.PopSegment,
      ResourceID.ValidateNoEmptySegments, *]
  · have hp := plainValue_of_caseVariant hv (by decide) (by decide)
    have hv0 := plainValue_ne_nil hp
    have e₁ := ne_of_caseVariant hv "subscriptions".data (by decide)
    have e₂ := ne_of_caseVariant hv "providers".data (by decide)
    have e₃ := ne_of_caseVariant hv "resourceGroups".data (by decide)
    have e₄ := ne_of_caseVariant hv "resourcegroups".data (by decide)
    have e₅ := ne_of_caseVariant hv "managedHSMs".data (by decide)
    have e₆ := ne_of_caseVariant hv "privateEndpointConnections".data (by decide)
    have e₁' := e₁.symm; have e₂' := e₂.symm; have e₃' := e₃.symm; have e₄' := e₄.symm
    have e₅' := e₅.symm; have e₆' := e₆.symm
    simp at e₁ e₂ e₃ e₄ e₅ e₆ e₁' e₂' e₃' e₄' e₅' e₆'
    have := (library_on_ten pa "subscriptions".data I.SubscriptionId "resourceGroups".data I.ResourceGroup "providers".data
      "Microsoft.KeyVault".data "managedHSMs".data I.ManagedHSMName v I.Name
      (by decide) hs (by decide) hrg (by decide) (by decide) (by decide) hh hp hn).1
    simp [ParsePrivateEndpointConnectionID, this, resourceIDOfComponents, collectComponents,
      takeResourceGroup, GoMap.set, GoMap.get?, GoMap.delete, ResourceID.PopSegment,
      ResourceID.ValidateNoEmptySegments, *]

/-- C4, amended, at the upper-case variant of `managedHSMs`. -/
theorem strict_rejects_case_variants_witness :
    ∃ e, ParsePrivateEndpointConnectionID (fun a => some a)
      (idString "subscriptions".data "a".data "resourceGroups".data "b".data
        "providers".data "Microsoft.KeyVault".data "MANAGEDHSMS".data "c".data
        "privateEndpointConnections".data "d".data) = .error e :=
  (strict_rejects_case_variants (fun a => some a) ⟨"a".data, "b".data, "c".data, "d".data⟩
    "MANAGEDHSMS".data (by decide) (by decide) (by decide) (by decide)).2.2.2.1 (by decide)

/-- C5 as stated fails: the canonical string is accepted by the strict parser, and with the
label `subscriptions` in upper case the insensitive parser rejects it. -/
theorem insensitive_rejects_upper_case_subscriptions :
    (∀ pa, ParsePrivateEndpointConnectionID pa
        (PrivateEndpointConnectionId.ID ⟨"a".data, "b".data, "c".data, "d".data⟩)
          = .ok ⟨"a".data, "b".data, "c".data, "d".data⟩)
      ∧ caseVariant "SUBSCRIPTIONS".data "subscriptions".data = true
      ∧ ∀ pa o₁ o₂, ParsePrivateEndpointConnectionIDInsensitively pa o₁ o₂
          (idString "SUBSCRIPTIONS".data "a".data "resourceGroups".data "b".data "providers".data
            "Microsoft.KeyVault".data "managedHSMs".data "c".data
            "privateEndpointConnections".data "d".data)
        = .error (.noSubscriptionID
            "SUBSCRIPTIONS/a/resourceGroups/b/providers/Microsoft.KeyVault/managedHSMs/c/privateEndpointConnections/d".data) :=
  ⟨fun _ => rfl, by decide, fun _ _ _ => rfl⟩

/-- C5, amended. For every identifier `I` with plain fields (non-empty, no slash, `?`, `%` or
control byte), so that the strict parser accepts `I.ID()` with result `I`:
replacing `Microsoft.KeyVault`, `managedHSMs` or
`privateEndpointConnections` by any different-case variant, or `resourceGroups`
by `resourcegroups`, yields a string on which
`ParsePrivateEndpointConnectionIDInsensitively` succeeds and returns `I`. -/
theorem insensitive_accepts_case_variants (pa : GoString → Option GoString)
    (o₁ o₂ : RangeOrder) (I : PrivateEndpointConnectionId) (v : GoString)
    (hs : plainValue I.SubscriptionId = true) (hrg : plainValue I.ResourceGroup = true)
    (hh : plainValue I.ManagedHSMName = true) (hn : plainValue I.Name = true) :
    (caseVariant v "Microsoft.KeyVault".data = true →
        ParsePrivateEndpointConnectionIDInsensitively pa o₁ o₂
          (idString "subscriptions".data I.SubscriptionId "resourceGroups".data I.ResourceGroup
            "providers".data v "managedHSMs".data I.ManagedHSMName
            "privateEndpointConnections".data I.Name) = .ok I)
      ∧ (caseVariant v "managedHSMs".data = true →
        ParsePrivateEndpointConnectionIDInsensitively pa o₁ o₂
          (idString "subscriptions".data I.SubscriptionId "resourceGroups".data I.ResourceGroup
            "providers".data "Microsoft.KeyVault".data v I.ManagedHSMName
            "privateEndpointConnections".data I.Name) = .ok I)
      ∧ (caseVariant v "privateEndpointConnections".data = true →
        ParsePrivateEndpointConnectionIDInsensitively pa o₁ o₂
          (idString "subscriptions".data I.SubscriptionId "resourceGroups".data I.ResourceGroup
            "providers".data "Microsoft.KeyVault".data "managedHSMs".data I.ManagedHSMName
            v I.Name) = .ok I)
      ∧ ParsePrivateEndpointConnectionIDInsensitively pa o₁ o₂
          (idString "subscriptions".data I.SubscriptionId "resourcegroups".data I.ResourceGroup
            "providers".data "Microsoft.KeyVault".data "managedHSMs".data I.ManagedHSMName
            "privateEndpointConnections".data I.Name) = .ok I := by
  refine ⟨fun hv => ?_, fun hv => ?_, fun hv => ?_, ?_⟩
  · exact (insensitive_accepts pa o₁ o₂ _ _ _ _ _ _ _ _ (Or.inl rfl) hs hrg
      (plainValue_of_caseVariant hv (by decide) (by decide)) hh hn (by decide) (by decide)).1
  · exact (insensitive_accepts pa o₁ o₂ _ _ _ _ _ _ _ _ (Or.inl rfl) hs hrg (by decide) hh hn
      (EqualFold_of_caseVariant hv (by decide)) (by decide)).1
  · exact (insensitive_accepts pa o₁ o₂ _ _ _ _ _ _ _ _ (Or.inl rfl) hs hrg (by decide) hh hn
      (by decide) (EqualFold_of_caseVariant hv (by decide))).1
  · exact (insensitive_accepts pa o₁ o₂ _ _ _ _ _ _ _ _ (Or.inr rfl) hs hrg (by decide) hh hn
      (by decide) (by decide)).1

/-- C5, amended, at the upper-case variant of `managedHSMs`. -/
theorem insensitive_accepts_case_variants_witness :
    ParsePrivateEndpointConnectionIDInsensitively (fun a => some a) .reversed .asStored
        "/subscriptions/a/resourceGroups/b/providers/Microsoft.KeyVault/MANAGEDHSMS/c/privateEndpointConnections/d".data
      = .ok ⟨"a".data, "b".data, "c".data, "d".data⟩ :=
  (insensitive_accepts_case_variants (fun a => some a) .reversed .asStored
    ⟨"a".data, "b".data, "c".data, "d".data⟩ "MANAGEDHSMS".data
    (by decide) (by decide) (by decide) (by decide)).2.1 (by decide)

/-- C6 as stated fails: with the non-empty, slash-free name `a?b` the insensitive parser
succeeds, but the name it returns is `a`: the library reads the input as a
request URI and drops the query. -/
theorem insensitive_drops_the_query :
    (("s".data ≠ [] ∧ '/' ∉ "s".data) ∧ ("g".data ≠ [] ∧ '/' ∉ "g".data)
        ∧ ("h".data ≠ [] ∧ '/' ∉ "h".data) ∧ ("a?b".data ≠ [] ∧ '/' ∉ "a?b".data))
      ∧ EqualFold "managedHSMs".data "managedHSMs".data = true
      ∧ EqualFold "privateEndpointConnections".data "privateEndpointConnections".data = true
      ∧ ∀ pa o₁ o₂, ParsePrivateEndpointConnectionIDInsensitively pa o₁ o₂
          ("/subscriptions/".data ++ "s".data ++ "/resourceGroups/".data ++ "g".data
            ++ "/providers/Microsoft.KeyVault/".data ++ "managedHSMs".data ++ "/".data ++ "h".data
            ++ "/".data ++ "privateEndpointConnections".data ++ "/".data ++ "a?b".data)
        = .ok ⟨"s".data, "g".data, "h".data, "a".data⟩ :=
  ⟨by decide, by decide, by decide, fun pa o₁ o₂ =>
    insensitive_of_canonical pa o₁ o₂ _ _ _ "Microsoft.KeyVault".data _ _ _ _ (by decide)
      (by decide) (by decide) (by decide) (by decide) (by decide) rfl⟩

/-- C6, amended. For every identifier `I` with plain fields (non-empty, no slash, `?`, `%` or
control byte) and all strings `k1`, `k2` that `strings.EqualFold` identifies
with `managedHSMs` and `privateEndpointConnections`,
`ParsePrivateEndpointConnectionIDInsensitively` applied to
`/subscriptions/` I.SubscriptionId `/resourceGroups/` I.ResourceGroup
`/providers/Microsoft.KeyVault/` k1 `/` I.ManagedHSMName `/` k2 `/` I.Name succeeds
and returns `I`, every field verbatim, in whatever order its loops visit the
map. -/
theorem insensitive_keeps_values_verbatim (pa : GoString → Option GoString)
    (o₁ o₂ : RangeOrder) (I : PrivateEndpointConnectionId) (k1 k2 : GoString)
    (hs : plainValue I.SubscriptionId = true) (hrg : plainValue I.ResourceGroup = true)
    (hh : plainValue I.ManagedHSMName = true) (hn : plainValue I.Name = true)
    (hk1 : EqualFold k1 "managedHSMs".data = true)
    (hk2 : EqualFold k2 "privateEndpointConnections".data = true) :
    ParsePrivateEndpointConnectionIDInsensitively pa o₁ o₂
        ("/subscriptions/".data ++ I.SubscriptionId ++ "/resourceGroups/".data ++ I.ResourceGroup
          ++ "/providers/Microsoft.KeyVault/".data ++ k1 ++ "/".data ++ I.ManagedHSMName
          ++ "/".data ++ k2 ++ "/".data ++ I.Name)
      = .ok I := by
  have := (insensitive_accepts pa o₁ o₂ I.SubscriptionId _ I.ResourceGroup
    "Microsoft.KeyVault".data k1 I.ManagedHSMName k2 I.Name (Or.inl rfl) hs hrg (by decide) hh hn
    hk1 hk2).1
  simpa [idString, joinSlash] using this

/-- C6, amended, at the mixed-case input of the test of the source. -/
theorem insensitive_keeps_values_verbatim_witness :
    ParsePrivateEndpointConnectionIDInsensitively (fun a => some a) .asStored .reversed
        ("/subscriptions/".data ++ "SubId".data ++ "/resourceGroups/".data ++ "ResGroup".data
          ++ "/providers/Microsoft.KeyVault/".data ++ "MaNaGeDhSmS".data ++ "/".data
          ++ "HsmName".data ++ "/".data ++ "PrIvAtEeNdPoInTcOnNeCtIoNs".data ++ "/".data
          ++ "PecName".data)
      = .ok ⟨"SubId".data, "ResGroup".data, "HsmName".data, "PecName".data⟩ :=
  insensitive_keeps_values_verbatim (fun a => some a) .asStored .reversed
    ⟨"SubId".data, "ResGroup".data, "HsmName".data, "PecName".data⟩ "MaNaGeDhSmS".data
    "PrIvAtEeNdPoInTcOnNeCtIoNs".data (by decide) (by decide) (by decide) (by decide)
    (by decide) (by decide)

/-- C7 as stated fails: a non-empty, slash-free subscription ID may hold escaped slashes.
The prefix of the ID that ends after it is then read by the library as a path of
eight segments, and both parsers accept it. -/
theorem truncation_accepted_with_escaped_slashes :
    (("x%2FresourceGroups%2Fy%2FmanagedHSMs%2Fz%2FprivateEndpointConnections%2Fw".data ≠ []
        ∧ '/' ∉ "x%2FresourceGroups%2Fy%2FmanagedHSMs%2Fz%2FprivateEndpointConnections%2Fw".data)
      ∧ ("g".data ≠ [] ∧ '/' ∉ "g".data) ∧ ("h".data ≠ [] ∧ '/' ∉ "h".data)
      ∧ ("n".data ≠ [] ∧ '/' ∉ "n".data))
    ∧ PrivateEndpointConnectionId.ID
        ⟨"x%2FresourceGroups%2Fy%2FmanagedHSMs%2Fz%2FprivateEndpointConnections%2Fw".data,
          "g".data, "h".data, "n".data⟩
      = "/subscriptions/x%2FresourceGroups%2Fy%2FmanagedHSMs%2Fz%2FprivateEndpointConnections%2Fw".data
        ++ "/resourceGroups/g/providers/Microsoft.KeyVault/managedHSMs/h/privateEndpointConnections/n".data
    ∧ (∀ pa, ParsePrivateEndpointConnectionID pa
        "/subscriptions/x%2FresourceGroups%2Fy%2FmanagedHSMs%2Fz%2FprivateEndpointConnections%2Fw".data
          = .ok ⟨"x".data, "y".data, "z".data, "w".data⟩)
    ∧ ParsePrivateEndpointConnectionIDInsensitively (fun a => some a) .asStored .asStored
        "/subscriptions/x%2FresourceGroups%2Fy%2FmanagedHSMs%2Fz%2FprivateEndpointConnections%2Fw".data
          = .ok ⟨"x".data, "y".data, "z".data, "w".data⟩ :=
  ⟨by decide, rfl, fun _ => rfl, rfl⟩

/-- C7, amended. Truncation is rejected: for every identifier `I` whose field values are
non-empty and hold no slash and no `%`, both parsers return an error on every
proper prefix `T` of `I.ID()` that ends at a slash boundary, with or without
that slash: on the empty string, on `/`, and on every input from which one or
more trailing segments are missing. -/
theorem truncation_is_rejected (pa : GoString → Option GoString) (o₁ o₂ : RangeOrder)
    (I : PrivateEndpointConnectionId) (T R : GoString)
    (hs : I.SubscriptionId ≠ [] ∧ '/' ∉ I.SubscriptionId ∧ '%' ∉ I.SubscriptionId)
    (hrg : I.ResourceGroup ≠ [] ∧ '/' ∉ I.ResourceGroup ∧ '%' ∉ I.ResourceGroup)
    (hh : I.ManagedHSMName ≠ [] ∧ '/' ∉ I.ManagedHSMName ∧ '%' ∉ I.ManagedHSMName)
    (hn : I.Name ≠ [] ∧ '/' ∉ I.Name ∧ '%' ∉ I.Name)
    (hTR : I.ID = T ++ R) (hR : R ≠ [])
    (hb : R.head? = some '/' ∨ T.getLast? = some '/') :
    (∃ e, ParsePrivateEndpointConnectionID pa T = .error e)
      ∧ ∃ e, ParsePrivateEndpointConnectionIDInsensitively pa o₁ o₂ T = .error e := by
  suffices hno : ∀ J, ¬ (ParsePrivateEndpointConnectionID pa T = .ok J
      ∨ ParsePrivateEndpointConnectionIDInsensitively pa o₁ o₂ T = .ok J) from
    ⟨exists_error_of_not_ok _ fun J hJ => hno J (Or.inl hJ),
      exists_error_of_not_ok _ fun J hJ => hno J (Or.inr hJ)⟩
  intro J hJ
  obtain ⟨idURL, hurl, hlen, key, hkey, hfold⟩ := accepted_has_last_label pa o₁ o₂ T J hJ
  -- the ID is the first nine segments, a slash, and the name
  generalize hsegs : ["subscriptions".data, I.SubscriptionId, "resourceGroups".data,
    I.ResourceGroup, "providers".data, "Microsoft.KeyVault".data, "managedHSMs".data,
    I.ManagedHSMName, "privateEndpointConnections".data] = segs at *
  have hID : I.ID = '/' :: (joinSlash segs ++ ['/']) ++ I.Name := by
    rw [ID_eq_idString, idString, ← hsegs]
    simp [joinSlash]
  have hns : ∀ v ∈ segs, '/' ∉ v := by
    intro v hv
    rw [← hsegs] at hv
    simp only [List.mem_cons, List.mem_singleton, List.not_mem_nil, or_false] at hv
    rcases hv with rfl | rfl | rfl | rfl | rfl | rfl | rfl | rfl | rfl <;>
      first | exact hs.2.1 | exact hrg.2.1 | exact hh.2.1 | decide
  have hnp : ∀ v ∈ segs, '%' ∉ v := by
    intro v hv
    rw [← hsegs] at hv
    simp only [List.mem_cons, List.mem_singleton, List.not_mem_nil, or_false] at hv
    rcases hv with rfl | rfl | rfl | rfl | rfl | rfl | rfl | rfl | rfl <;>
      first | exact hs.2.2 | exact hrg.2.2 | exact hh.2.2 | decide
  -- the truncated input stops before the name
  have hT : T <+: '/' :: (joinSlash segs ++ ['/']) := by
    rw [hID] at hTR
    rcases List.append_eq_append_iff.1 hTR with ⟨a', ha, hb'⟩ | ⟨c', hc, -⟩
    · -- `T` reaches into the name: then it equals the nine segments
      cases a' with
      | nil => rw [ha, List.append_nil]
      | cons a a' =>
        exfalso
        rcases hb with hb | hb
        · obtain ⟨r, R', rfl⟩ := List.exists_cons_of_ne_nil hR
          simp only [List.head?_cons, Option.some.injEq] at hb
          exact hn.2.1 (hb' ▸ hb ▸ (by simp : r ∈ (a :: a') ++ r :: R'))
        · rw [ha, List.getLast?_append_of_ne_nil _ (by simp)] at hb
          exact hn.2.1 (hb' ▸ List.mem_append_left _ (List.mem_of_getLast?_eq_some hb))
    · exact ⟨c', hc.symm⟩
  cases T with
  | nil => simp [ParseRequestURI, stringContainsCTLByte] at hurl
  | cons c T₁ =>
    have hc : c = '/' := ((List.cons_prefix_cons).1 hT).1
    subst hc
    have hT₁ : T₁ <+: joinSlash segs ++ ['/'] := ((List.cons_prefix_cons).1 hT).2
    have hp₁ : '%' ∉ T₁ := by
      intro hm
      rcases List.mem_append.1 (hT₁.subset hm) with hm | hm
      · rcases mem_joinSlash segs _ hm with e | ⟨w, hw, hcw⟩
        · exact absurd e (by decide)
        · exact hnp w hw hcw
      · simp at hm
    have hP := (path_is_initial_part pa T₁ idURL hurl hp₁).trans hT
    have hZ : trimmedPath idURL <+: joinSlash segs := trimmed_initial_part _ _ hP
    obtain ⟨Y, hY⟩ := hZ
    obtain ⟨init, p, d, rest, h₁, h₂, -⟩ := splitSlash_of_initial_part (trimmedPath idURL) Y
    rw [hY, splitSlash_joinSlash segs (by rw [← hsegs]; simp) hns] at h₂
    rw [h₁] at hkey
    have hk := pairKeys_of_cut p d rest init key hkey
    rw [← h₂, ← hsegs] at hk
    simp only [pairKeys, List.mem_cons, List.mem_singleton, List.not_mem_nil, or_false] at hk
    rcases hk with rfl | rfl | rfl | rfl <;> revert hfold <;> decide

/-- C7, amended, at the canonical string without its last two segments. -/
theorem truncation_is_rejected_witness :
    (∃ e, ParsePrivateEndpointConnectionID (fun a => some a)
        "/subscriptions/a/resourceGroups/b/providers/Microsoft.KeyVault/managedHSMs/c".data
          = .error e)
      ∧ ∃ e, ParsePrivateEndpointConnectionIDInsensitively (fun a => some a) .asStored .reversed
        "/subscriptions/a/resourceGroups/b/providers/Microsoft.KeyVault/managedHSMs/c".data
          = .error e :=
  truncation_is_rejected (fun a => some a) .asStored .reversed
    ⟨"a".data, "b".data, "c".data, "d".data⟩
    "/subscriptions/a/resourceGroups/b/providers/Microsoft.KeyVault/managedHSMs/c".data
    "/privateEndpointConnections/d".data (by decide) (by decide) (by decide) (by decide) rfl
    (by decide) (Or.inl rfl)

/-- C8 as stated fails: after the accepted canonical string, the non-empty, slash-free
segment `?` is read as an empty query; the path ends in a slash, which is
trimmed, and the strict parser accepts the longer string. -/
theorem trailing_question_mark_is_accepted :
    (∀ pa, ParsePrivateEndpointConnectionID pa
        "/subscriptions/a/resourceGroups/b/providers/Microsoft.KeyVault/managedHSMs/c/privateEndpointConnections/d".data
          = .ok ⟨"a".data, "b".data, "c".data, "d".data⟩)
      ∧ ("?".data ≠ [] ∧ '/' ∉ "?".data)
      ∧ ∀ pa, ParsePrivateEndpointConnectionID pa
        ("/subscriptions/a/resourceGroups/b/providers/Microsoft.KeyVault/managedHSMs/c/privateEndpointConnections/d".data
          ++ "/".data ++ "?".data)
          = .ok ⟨"a".data, "b".data, "c".data, "d".data⟩ :=
  ⟨fun _ => rfl, by decide, fun _ => rfl⟩

/-- C8, amended. Trailing segments are rejected: for every string `S` without `?` that
`ParsePrivateEndpointConnectionID` accepts and every non-empty string `x` without
slash, `?` and `%`, `ParsePrivateEndpointConnectionID(S ++ "/" ++ x)` returns an
error. -/
theorem trailing_segment_is_rejected (pa : GoString → Option GoString) (S x : GoString)
    (I : PrivateEndpointConnectionId) (h : ParsePrivateEndpointConnectionID pa S = .ok I)
    (hq : '?' ∉ S) (hx0 : x ≠ []) (hx : '/' ∉ x ∧ '?' ∉ x ∧ '%' ∉ x) :
    ∃ e, ParsePrivateEndpointConnectionID pa (S ++ "/".data ++ x) = .error e := by
  have hlib : ∃ e, ParseAzureResourceID pa (S ++ '/' :: x) = .error e := by
    by_cases hctl : stringContainsCTLByte x = true
    · refine ⟨.invalidURI (S ++ '/' :: x), ?_⟩
      have : stringContainsCTLByte (S ++ '/' :: x) = true := by
        rw [stringContainsCTLByte_append]
        simp [stringContainsCTLByte] at hctl ⊢
        exact Or.inr hctl
      simp [ParseAzureResourceID, ParseRequestURI, this]
    · have hin : ∀ c ∈ x, inertByte c = true := by
        intro c hc
        simp only [stringContainsCTLByte, List.any_eq_true, not_exists, not_and,
          decide_eq_true_eq] at hctl
        simp only [inertByte, decide_eq_true_eq]
        exact ⟨fun e => hx.2.1 (e ▸ hc), fun e => hx.2.2 (e ▸ hc), hctl c hc⟩
      obtain ⟨idURL, hurl, hlen, -⟩ := ParsePrivateEndpointConnectionID_ok pa S I h
      have hstar : S ≠ ['*'] := by
        rintro rfl
        have : ParseRequestURI pa ['*'] = some ⟨[], [], [], ['*'], []⟩ := rfl
        rw [this] at hurl
        cases hurl
        revert hlen
        decide
      have hP : idURL.Path ≠ [] ∧ idURL.Path ≠ ['/'] := by
        constructor <;> intro e <;> rw [trimmedPath, e] at hlen <;> revert hlen <;> decide
      obtain ⟨idURL', hurl', hpath'⟩ := ParseRequestURI_append pa S x idURL hurl hstar hq hP hin
      have hgl : (TrimPrefix idURL.Path ['/'] ++ '/' :: x).getLast? ≠ some '/' := by
        rw [List.getLast?_append_of_ne_nil _ (by simp)]
        obtain ⟨y, ys, rfl⟩ := List.exists_cons_of_ne_nil hx0
        rw [List.getLast?_cons_cons]
        intro e
        exact hx.1 (List.mem_of_getLast?_eq_some e)
      have htrim : trimmedPath idURL' = TrimPrefix idURL.Path ['/'] ++ '/' :: x := by
        rw [trimmedPath, hpath']
        show TrimSuffix (TrimPrefix (idURL.Path ++ '/' :: x) ['/']) ['/'] = _
        rw [TrimPrefix_append _ _ hP.1, TrimSuffix_of_getLast? _ hgl]
      have hsplit : splitSlash (trimmedPath idURL')
          = splitSlash (TrimPrefix idURL.Path ['/']) ++ [x] := by
        rw [htrim, splitSlash_append, splitSlash_of_not_mem x hx.1]
      have hcomp : ∃ C : List GoString, C.length % 2 = 0
          ∧ (splitSlash (trimmedPath idURL') = C ++ [x]
            ∨ splitSlash (trimmedPath idURL') = C ++ [[], x]) := by
        refine ⟨splitSlash (trimmedPath idURL), hlen, ?_⟩
        rw [hsplit]
        show _ = splitSlash (TrimSuffix (TrimPrefix idURL.Path ['/']) ['/']) ++ [x] ∨
          _ = splitSlash (TrimSuffix (TrimPrefix idURL.Path ['/']) ['/']) ++ [[], x]
        generalize TrimPrefix idURL.Path ['/'] = Q
        by_cases hQ : Q.getLast? = some '/'
        · obtain ⟨Q₀, rfl⟩ : ∃ Q₀, Q = Q₀ ++ ['/'] := by
            rcases List.eq_nil_or_concat Q with rfl | ⟨Q₀, d, rfl⟩
            · simp at hQ
            · rw [List.concat_eq_append, List.getLast?_append_of_ne_nil _ (by simp)] at hQ
              simp only [List.getLast?_singleton, Option.some.injEq] at hQ
              exact ⟨Q₀, by rw [List.concat_eq_append, hQ]⟩
          right
          rw [TrimSuffix_append_slash, splitSlash_append]
          simp [splitSlash]
        · left
          rw [TrimSuffix_of_getLast? _ hQ]
      obtain ⟨C, hC, hCx⟩ := hcomp
      unfold ParseAzureResourceID
      rw [hurl']
      simp only
      rcases hCx with hCx | hCx <;> rw [hCx]
      · exact (resourceIDOfComponents_one_more _ C x hC).1
      · exact (resourceIDOfComponents_one_more _ C x hC).2
  obtain ⟨e, he⟩ := hlib
  refine ⟨e, ?_⟩
  have : S ++ "/".data ++ x = S ++ '/' :: x := by simp
  rw [this]
  unfold ParsePrivateEndpointConnectionID
  rw [he]

/-- C8, amended, at the canonical string followed by one more segment. -/
theorem trailing_segment_is_rejected_witness :
    ∃ e, ParsePrivateEndpointConnectionID (fun a => some a)
      ("/subscriptions/a/resourceGroups/b/providers/Microsoft.KeyVault/managedHSMs/c/privateEndpointConnections/d".data
        ++ "/".data ++ "extra".data) = .error e :=
  trailing_segment_is_rejected (fun a => some a)
    "/subscriptions/a/resourceGroups/b/providers/Microsoft.KeyVault/managedHSMs/c/privateEndpointConnections/d".data
    "extra".data ⟨"a".data, "b".data, "c".data, "d".data⟩ rfl (by decide) (by decide) (by decide)

/-- C9 as stated fails: an input without the `providers` pair has eight segments, an
input with two `providers` pairs has twelve, and the strict parser accepts
both.  The segments that count are those of the URL path that the library
decodes from the input: an input of two segments with escaped slashes and an
input of eleven segments with a query are accepted as well. -/
theorem segment_count_is_not_exactly_ten :
    (∀ pa, ParsePrivateEndpointConnectionID pa
        "/subscriptions/a/resourceGroups/b/managedHSMs/c/privateEndpointConnections/d".data
          = .ok ⟨"a".data, "b".data, "c".data, "d".data⟩)
      ∧ (∀ pa, ∃ idURL, ParseRequestURI pa
          "/subscriptions/a/resourceGroups/b/managedHSMs/c/privateEndpointConnections/d".data
            = some idURL ∧ (splitSlash (trimmedPath idURL)).length = 8)
      ∧ (∀ pa, ParsePrivateEndpointConnectionID pa
        "/subscriptions/a/resourceGroups/b/providers/P/providers/Q/managedHSMs/c/privateEndpointConnections/d".data
          = .ok ⟨"a".data, "b".data, "c".data, "d".data⟩)
      ∧ (∀ pa, ∃ idURL, ParseRequestURI pa
          "/subscriptions/a/resourceGroups/b/providers/P/providers/Q/managedHSMs/c/privateEndpointConnections/d".data
            = some idURL ∧ (splitSlash (trimmedPath idURL)).length = 12)
      ∧ (∀ pa, ParsePrivateEndpointConnectionID pa
        "/subscriptions/x%2FresourceGroups%2Fy%2FmanagedHSMs%2Fz%2FprivateEndpointConnections%2Fw".data
          = .ok ⟨"x".data, "y".data, "z".data, "w".data⟩)
      ∧ (splitSlash (TrimSuffix (TrimPrefix
          "/subscriptions/x%2FresourceGroups%2Fy%2FmanagedHSMs%2Fz%2FprivateEndpointConnections%2Fw".data
          "/".data) "/".data)).length = 2
      ∧ (∀ pa, ParsePrivateEndpointConnectionID pa
        "/subscriptions/a/resourceGroups/b/providers/Microsoft.KeyVault/managedHSMs/c/privateEndpointConnections/d?/x".data
          = .ok ⟨"a".data, "b".data, "c".data, "d".data⟩)
      ∧ (splitSlash (TrimSuffix (TrimPrefix
          "/subscriptions/a/resourceGroups/b/providers/Microsoft.KeyVault/managedHSMs/c/privateEndpointConnections/d?/x".data
          "/".data) "/".data)).length = 11 :=
  ⟨fun _ => rfl, fun _ => ⟨_, rfl, rfl⟩, fun _ => rfl, fun _ => ⟨_, rfl, rfl⟩, fun _ => rfl, rfl,
    fun _ => rfl, rfl⟩

/-- C9, amended. For every input on which `ParsePrivateEndpointConnectionID` succeeds,
the URL path that the library reads from the input with `url.ParseRequestURI`
(the query cut off, the escapes decoded), one leading and one trailing slash
removed, consists of an even number of non-empty segments, at least eight, and
`subscriptions`, `resourceGroups` (or `resourcegroups`), `managedHSMs` and
`privateEndpointConnections` are keys of its key/value pairs; for an input that
starts with a slash and holds no `?` and no `%`, this path is the input itself.
Every input whose URL path has fewer than eight segments or an odd number of
them is rejected, and so is every input that starts with a slash, holds no `?`
and no `%`, and has itself fewer than eight segments or an odd number of
them. -/
theorem accepted_path_has_at_least_eight_segments (pa : GoString → Option GoString)
    (S : GoString) :
    (∀ I, ParsePrivateEndpointConnectionID pa S = .ok I →
      ∃ idURL, ParseRequestURI pa S = some idURL
        ∧ (splitSlash (trimmedPath idURL)).length % 2 = 0
        ∧ 8 ≤ (splitSlash (trimmedPath idURL)).length
        ∧ (∀ c ∈ splitSlash (trimmedPath idURL), c ≠ [])
        ∧ "subscriptions".data ∈ pairKeys (splitSlash (trimmedPath idURL))
        ∧ ("resourceGroups".data ∈ pairKeys (splitSlash (trimmedPath idURL))
            ∨ "resourcegroups".data ∈ pairKeys (splitSlash (trimmedPath idURL)))
        ∧ "managedHSMs".data ∈ pairKeys (splitSlash (trimmedPath idURL))
        ∧ "privateEndpointConnections".data ∈ pairKeys (splitSlash (trimmedPath idURL))
        ∧ (S.head? = some '/' → '?' ∉ S → '%' ∉ S → idURL.Path = S))
    ∧ ((∀ idURL, ParseRequestURI pa S = some idURL →
          (splitSlash (trimmedPath idURL)).length < 8
            ∨ (splitSlash (trimmedPath idURL)).length % 2 = 1) →
        ∃ e, ParsePrivateEndpointConnectionID pa S = .error e)
    ∧ (S.head? = some '/' → '?' ∉ S → '%' ∉ S →
        ((splitSlash (TrimSuffix (TrimPrefix S "/".data) "/".data)).length < 8
          ∨ (splitSlash (TrimSuffix (TrimPrefix S "/".data) "/".data)).length % 2 = 1) →
        ∃ e, ParsePrivateEndpointConnectionID pa S = .error e) := by
  have key : ∀ I, ParsePrivateEndpointConnectionID pa S = .ok I →
      ∃ idURL, ParseRequestURI pa S = some idURL
        ∧ (splitSlash (trimmedPath idURL)).length % 2 = 0
        ∧ 8 ≤ (splitSlash (trimmedPath idURL)).length
        ∧ (∀ c ∈ splitSlash (trimmedPath idURL), c ≠ [])
        ∧ "subscriptions".data ∈ pairKeys (splitSlash (trimmedPath idURL))
        ∧ ("resourceGroups".data ∈ pairKeys (splitSlash (trimmedPath idURL))
            ∨ "resourcegroups".data ∈ pairKeys (splitSlash (trimmedPath idURL)))
        ∧ "managedHSMs".data ∈ pairKeys (splitSlash (trimmedPath idURL))
        ∧ "privateEndpointConnections".data ∈ pairKeys (splitSlash (trimmedPath idURL))
        ∧ (S.head? = some '/' → '?' ∉ S → '%' ∉ S → idURL.Path = S) := by
    intro I h
    obtain ⟨idURL, hurl, hlen, -, hs, hrg, hm, hp⟩ := ParsePrivateEndpointConnectionID_ok pa S I h
    obtain ⟨idURL', hurl', -, hne⟩ := accepted_components_nonempty pa S I h
    rw [hurl] at hurl'
    cases hurl'
    have h4 : 4 ≤ (pairKeys (splitSlash (trimmedPath idURL))).length := by
      rcases hrg with hrg | hrg
      · exact four_le_length_of_mem hs hrg hm hp (by decide)
      · exact four_le_length_of_mem hs hrg hm hp (by decide)
    rw [pairKeys_length] at h4
    refine ⟨idURL, hurl, hlen, by omega, hne, hs, hrg, hm, hp, ?_⟩
    intro hhead hq hpc
    obtain ⟨T, rfl⟩ : ∃ T, S = '/' :: T := by
      cases S with
      | nil => simp at hhead
      | cons c T =>
        simp only [List.head?_cons, Option.some.injEq] at hhead
        exact ⟨T, by rw [hhead]⟩
    have hctl := ParseRequestURI_no_control pa _ idURL hurl
    have hin : ∀ c ∈ T, inertByte c = true := by
      intro c hc
      simp only [stringContainsCTLByte, List.any_eq_false, decide_eq_true_eq] at hctl
      simp only [inertByte, decide_eq_true_eq]
      exact ⟨fun e => hq (e ▸ List.mem_cons_of_mem _ hc),
        fun e => hpc (e ▸ List.mem_cons_of_mem _ hc), hctl c (List.mem_cons_of_mem _ hc)⟩
    rw [ParseRequestURI_inert pa T hin] at hurl
    cases hurl
    rfl
  refine ⟨key, fun hsmall => exists_error_of_not_ok _ fun I hI => ?_,
    fun hhead hq hpc hsmall => exists_error_of_not_ok _ fun I hI => ?_⟩
  · obtain ⟨idURL, hurl, hlen, h8, -⟩ := key I hI
    rcases hsmall idURL hurl with h | h <;> omega
  · obtain ⟨idURL, -, hlen, h8, -, -, -, -, -, hpath⟩ := key I hI
    rw [trimmedPath, hpath hhead hq hpc] at hlen h8
    rcases hsmall with h | h <;> omega

/-- C9, amended, at an input of ten segments. -/
theorem accepted_path_has_at_least_eight_segments_witness :
    ∃ idURL, ParseRequestURI (fun a => some a)
        "/subscriptions/a/resourceGroups/b/providers/Microsoft.KeyVault/managedHSMs/c/privateEndpointConnections/d".data
          = some idURL
      ∧ (splitSlash (trimmedPath idURL)).length % 2 = 0
      ∧ 8 ≤ (splitSlash (trimmedPath idURL)).length
      ∧ (∀ c ∈ splitSlash (trimmedPath idURL), c ≠ [])
      ∧ "subscriptions".data ∈ pairKeys (splitSlash (trimmedPath idURL))
      ∧ ("resourceGroups".data ∈ pairKeys (splitSlash (trimmedPath idURL))
          ∨ "resourcegroups".data ∈ pairKeys (splitSlash (trimmedPath idURL)))
      ∧ "managedHSMs".data ∈ pairKeys (splitSlash (trimmedPath idURL))
      ∧ "privateEndpointConnections".data ∈ pairKeys (splitSlash (trimmedPath idURL))
      ∧ ("/subscriptions/a/resourceGroups/b/providers/Microsoft.KeyVault/managedHSMs/c/privateEndpointConnections/d".data.head?
            = some '/' →
          '?' ∉ "/subscriptions/a/resourceGroups/b/providers/Microsoft.KeyVault/managedHSMs/c/privateEndpointConnections/d".data →
          '%' ∉ "/subscriptions/a/resourceGroups/b/providers/Microsoft.KeyVault/managedHSMs/c/privateEndpointConnections/d".data →
          idURL.Path
            = "/subscriptions/a/resourceGroups/b/providers/Microsoft.KeyVault/managedHSMs/c/privateEndpointConnections/d".data) :=
  (accepted_path_has_at_least_eight_segments (fun a => some a)
    "/subscriptions/a/resourceGroups/b/providers/Microsoft.KeyVault/managedHSMs/c/privateEndpointConnections/d".data).1
    ⟨"a".data, "b".data, "c".data, "d".data⟩ rfl

/-- C10. No capture binds to the empty string: for every input on which
`ParsePrivateEndpointConnectionID` or `ParsePrivateEndpointConnectionIDInsensitively`
succeeds (whatever the order of the loops of the latter), the four fields of
the identifier returned are non-empty and contain no slash. -/
theorem parsed_fields_are_nonempty_and_slash_free (pa : GoString → Option GoString)
    (o₁ o₂ : RangeOrder) (S : GoString) (I : PrivateEndpointConnectionId)
    (h : ParsePrivateEndpointConnectionID pa S = .ok I
      ∨ ParsePrivateEndpointConnectionIDInsensitively pa o₁ o₂ S = .ok I) :
    (I.SubscriptionId ≠ [] ∧ '/' ∉ I.SubscriptionId)
      ∧ (I.ResourceGroup ≠ [] ∧ '/' ∉ I.ResourceGroup)
      ∧ (I.ManagedHSMName ≠ [] ∧ '/' ∉ I.ManagedHSMName)
      ∧ (I.Name ≠ [] ∧ '/' ∉ I.Name) := by
  have key : ∃ idURL : URL, ∀ v ∈ [I.SubscriptionId, I.ResourceGroup, I.ManagedHSMName, I.Name],
      v ∈ splitSlash (trimmedPath idURL) ∧ v ≠ [] := by
    rcases h with h | h
    · obtain ⟨idURL, -, -, hv, -⟩ := ParsePrivateEndpointConnectionID_ok pa S I h
      exact ⟨idURL, hv⟩
    · obtain ⟨idURL, -, -, hv, -⟩ := ParsePrivateEndpointConnectionIDInsensitively_ok pa o₁ o₂ S I h
      exact ⟨idURL, hv⟩
  obtain ⟨idURL, hv⟩ := key
  have hf : ∀ v ∈ [I.SubscriptionId, I.ResourceGroup, I.ManagedHSMName, I.Name],
      v ≠ [] ∧ '/' ∉ v :=
    fun v hm => ⟨(hv v hm).2, not_mem_of_mem_splitSlash _ v (hv v hm).1⟩
  exact ⟨hf _ (by simp), hf _ (by simp), hf _ (by simp), hf _ (by simp)⟩

/-- C10 at an input with upper-case labels, parsed insensitively. -/
theorem parsed_fields_are_nonempty_and_slash_free_witness :
    ("Sub".data ≠ [] ∧ '/' ∉ "Sub".data) ∧ ("rg".data ≠ [] ∧ '/' ∉ "rg".data)
      ∧ ("hsm".data ≠ [] ∧ '/' ∉ "hsm".data) ∧ ("pe".data ≠ [] ∧ '/' ∉ "pe".data) :=
  parsed_fields_are_nonempty_and_slash_free (fun a => some a) .asStored .reversed
    "/subscriptions/Sub/resourcegroups/rg/providers/Microsoft.KeyVault/MANAGEDHSMS/hsm/PrivateEndpointConnections/pe/".data
    ⟨"Sub".data, "rg".data, "hsm".data, "pe".data⟩ (Or.inr rfl)

/-! ## The role definition ID: the formatter -/

theorem TrimSuffix_eq_trimOneTrailingSlash (s : GoString) :
    TrimSuffix s ['/'] = trimOneTrailingSlash s := by
  unfold trimOneTrailingSlash
  by_cases h : s.getLast? = some '/'
  · rw [if_pos h]
    rcases List.eq_nil_or_concat s with rfl | ⟨t, d, rfl⟩
    · simp at h
    · rw [List.concat_eq_append, List.getLast?_append_of_ne_nil _ (by simp)] at h
      simp only [List.getLast?_singleton, Option.some.injEq] at h
      subst h
      rw [List.concat_eq_append, TrimSuffix_append_slash, List.dropLast_concat]
  · rw [if_neg h, TrimSuffix_of_getLast? _ h]

theorem roleDefinition_ID_eq (n : ManagedHSMRoleDefinitionId) :
    n.ID = trimOneTrailingSlash (trimOneTrailingSlash n.VaultBaseUrl ++ "/".data ++ n.Scope
      ++ "/RoleDefinition/".data ++ n.Name) := by
  unfold ManagedHSMRoleDefinitionId.ID
  simp only [Join]
  rw [TrimSuffix_eq_trimOneTrailingSlash, TrimSuffix_eq_trimOneTrailingSlash]
  congr 1
  simp

theorem trimOneTrailingSlash_append_cons (a : GoString) (c : Char) (t : GoString) :
    ∃ t', trimOneTrailingSlash (a ++ c :: t) = a ++ t' := by
  unfold trimOneTrailingSlash
  split
  · exact ⟨(c :: t).dropLast, by rw [List.dropLast_append_of_ne_nil _ (by simp)]⟩
  · exact ⟨c :: t, rfl⟩

/-! ## The two parsers after the library has returned -/

theorem GoMap.mem_keys_of_get? {m : GoMap} {k v : GoString} (h : m.get? k = some v) :
    k ∈ m.keys :=
  List.mem_map.2 ⟨(k, v), GoMap.mem_of_get? h, rfl⟩

theorem GoMap.mem_keys_delete {m : GoMap} {k b : GoString} (hb : b ∈ m.keys) (hne : b ≠ k) :
    b ∈ (m.delete k).keys := by
  obtain ⟨e, he, rfl⟩ := List.mem_map.1 hb
  exact List.mem_map.2 ⟨e, List.mem_filter.2 ⟨he, by simpa using hne⟩, rfl⟩

theorem GoMap.keys_subset_of_delete_nil {m : GoMap} {k₁ k₂ : GoString}
    (h : ((m.delete k₁).delete k₂).length = 0) : ∀ b ∈ m.keys, b = k₁ ∨ b = k₂ := by
  intro b hb
  by_contra hne
  simp only [not_or] at hne
  have := GoMap.mem_keys_delete (GoMap.mem_keys_delete hb hne.1) hne.2
  rw [List.length_eq_zero.1 h] at this
  simp [GoMap.keys] at this

/-- When two keys that fold to the two labels are all the keys of `Path`, the insensitive
parser pops exactly these, in whatever order its loops visit the map. -/
theorem insensitive_of_pops (pa : GoString → Option GoString) (o₁ o₂ : RangeOrder)
    (S : GoString) (id : ResourceID) (k₁ k₂ h n : GoString)
    (hid : ParseAzureResourceID pa S = .ok id)
    (hsub : id.SubscriptionID ≠ []) (hrg : id.ResourceGroup ≠ [])
    (hf₁ : EqualFold k₁ "managedHSMs".data = true)
    (hf₂ : EqualFold k₂ "privateEndpointConnections".data = true)
    (hg₁ : id.Path.get? k₁ = some h) (hh : h ≠ [])
    (hg₂ : (id.Path.delete k₁).get? k₂ = some n) (hn : n ≠ [])
    (hfin : ((id.Path.delete k₁).delete k₂).length = 0) :
    ParsePrivateEndpointConnectionIDInsensitively pa o₁ o₂ S
      = .ok ⟨id.SubscriptionID, id.ResourceGroup, h, n⟩ := by
  have h21 : EqualFold k₂ "managedHSMs".data ≠ true := fun hc => by
    have := EqualFold_length _ _ _ hf₂ hc
    simp at this
  have hc₁ : findCasing o₁ id.Path "managedHSMs".data = k₁ := by
    apply findCasing_of_unique _ _ _ _ (GoMap.mem_keys_of_get? hg₁) hf₁
    intro b hb hbf
    rcases GoMap.keys_subset_of_delete_nil hfin b hb with rfl | rfl
    · rfl
    · exact absurd hbf h21
  have hc₂ : findCasing o₂ (id.Path.delete k₁) "privateEndpointConnections".data = k₂ := by
    apply findCasing_of_unique _ _ _ _ (GoMap.mem_keys_of_get? hg₂) hf₂
    intro b hb _
    by_contra hne
    have := GoMap.mem_keys_delete hb hne
    rw [List.length_eq_zero.1 hfin] at this
    simp [GoMap.keys] at this
  simp only [ParsePrivateEndpointConnectionIDInsensitively, hid, hsub, hrg, if_false, hc₁,
    ResourceID.PopSegment, hg₁, hh, hc₂, hg₂, hn, ResourceID.ValidateNoEmptySegments, hfin,
    if_true]

theorem PopSegment_ok_get? {id id' : ResourceID} {name v : GoString}
    (h : id.PopSegment name = .ok (v, id')) :
    id.Path.get? name = some v ∧ v ≠ [] ∧ id'.Path = id.Path.delete name := by
  unfold ResourceID.PopSegment at h
  split at h
  · cases h
  · rename_i val hval
    split at h
    · cases h
    · rename_i hne
      cases h
      exact ⟨hval, hne, rfl⟩

/-- What a successful insensitive parse has popped. -/
theorem insensitive_ok_pops (pa : GoString → Option GoString) (o₁ o₂ : RangeOrder)
    (S : GoString) (I : PrivateEndpointConnectionId)
    (h : ParsePrivateEndpointConnectionIDInsensitively pa o₁ o₂ S = .ok I) :
    ∃ id k₁ k₂, ParseAzureResourceID pa S = .ok id
      ∧ id.SubscriptionID ≠ [] ∧ id.ResourceGroup ≠ []
      ∧ EqualFold k₁ "managedHSMs".data = true
      ∧ EqualFold k₂ "privateEndpointConnections".data = true
      ∧ id.Path.get? k₁ = some I.ManagedHSMName ∧ I.ManagedHSMName ≠ []
      ∧ (id.Path.delete k₁).get? k₂ = some I.Name ∧ I.Name ≠ []
      ∧ ((id.Path.delete k₁).delete k₂).length = 0
      ∧ I.SubscriptionId = id.SubscriptionID ∧ I.ResourceGroup = id.ResourceGroup := by
  unfold ParsePrivateEndpointConnectionIDInsensitively at h
  split at h
  · cases h
  · rename_i id hid
    split at h
    · cases h
    · rename_i hsub
      split at h
      · cases h
      · rename_i hrg
        simp only at h
        split at h
        · cases h
        · rename_i hsm id₁ hpop₁
          obtain ⟨hg₁, hne₁, hp₁⟩ := PopSegment_ok_get? hpop₁
          split at h
          · cases h
          · rename_i name id₂ hpop₂
            obtain ⟨hg₂, hne₂, hp₂⟩ := PopSegment_ok_get? hpop₂
            rw [hp₁] at hg₂ hp₂
            split at h
            · cases h
            · rename_i hval
              cases h
              refine ⟨id, findCasing o₁ id.Path "managedHSMs".data,
                findCasing o₂ (id.Path.delete (findCasing o₁ id.Path "managedHSMs".data))
                  "privateEndpointConnections".data,
                hid, hsub, hrg, findCasing_fold _ _ _ (by decide),
                findCasing_fold _ _ _ (by decide), hg₁, hne₁, hg₂, hne₂, ?_, rfl, rfl⟩
              unfold ResourceID.ValidateNoEmptySegments at hval
              split at hval
              · rename_i hl
                rw [hp₂] at hl
                exact hl
              · cases hval

/-- What a successful strict parse has popped. -/
theorem strict_ok_pops (pa : GoString → Option GoString) (S : GoString)
    (I : PrivateEndpointConnectionId) (h : ParsePrivateEndpointConnectionID pa S = .ok I) :
    ∃ id, ParseAzureResourceID pa S = .ok id
      ∧ id.SubscriptionID ≠ [] ∧ id.ResourceGroup ≠ []
      ∧ id.Path.get? "managedHSMs".data = some I.ManagedHSMName ∧ I.ManagedHSMName ≠ []
      ∧ (id.Path.delete "managedHSMs".data).get? "privateEndpointConnections".data = some I.Name
      ∧ I.Name ≠ []
      ∧ ((id.Path.delete "managedHSMs".data).delete "privateEndpointConnections".data).length = 0
      ∧ I.SubscriptionId = id.SubscriptionID ∧ I.ResourceGroup = id.ResourceGroup := by
  unfold ParsePrivateEndpointConnectionID at h
  split at h
  · cases h
  · rename_i id hid
    split at h
    · cases h
    · rename_i hsub
      split at h
      · cases h
      · rename_i hrg
        split at h
        · cases h
        · rename_i hsm id₁ hpop₁
          obtain ⟨hg₁, hne₁, hp₁⟩ := PopSegment_ok_get? hpop₁
          split at h
          · cases h
          · rename_i name id₂ hpop₂
            obtain ⟨hg₂, hne₂, hp₂⟩ := PopSegment_ok_get? hpop₂
            rw [hp₁] at hg₂ hp₂
            split at h
            · cases h
            · rename_i hval
              cases h
              refine ⟨id, hid, hsub, hrg, hg₁, hne₁, hg₂, hne₂, ?_, rfl, rfl⟩
              unfold ResourceID.ValidateNoEmptySegments at hval
              split at hval
              · rename_i hl
                rw [hp₂] at hl
                exact hl
              · cases hval

/-! ## The keys of the path that reach the map `Path` -/

theorem GoMap.keys_set (m : GoMap) (k v : GoString) :
    k ∈ (m.set k v).keys ∧ ∀ b ∈ m.keys, b ∈ (m.set k v).keys := by
  induction m with
  | nil => simp [GoMap.set, GoMap.keys]
  | cons e₀ m ih =>
    obtain ⟨k₀, v₀⟩ := e₀
    simp only [GoMap.set]
    split
    · rename_i hk
      subst hk
      exact ⟨by simp [GoMap.keys], fun b hb => by simpa [GoMap.keys] using hb⟩
    · refine ⟨?_, fun b hb => ?_⟩
      · simp only [GoMap.keys, List.map_cons, List.mem_cons]
        exact Or.inr ih.1
      · simp only [GoMap.keys, List.map_cons, List.mem_cons] at hb ⊢
        rcases hb with hb | hb
        · exact Or.inl hb
        · exact Or.inr (ih.2 b hb)

/-- Every key of the segments other than `subscriptions` and `providers` is a key of the
map the loop returns, and so is every key the map had before. -/
theorem collectComponents_keys (C : List GoString) :
    ∀ (st st' : GoString × GoString × GoMap), collectComponents C st = .ok st' →
      (∀ b ∈ st.2.2.keys, b ∈ st'.2.2.keys)
      ∧ ∀ k ∈ pairKeys C, k ≠ "subscriptions".data → k ≠ "providers".data →
          k ∈ st'.2.2.keys := by
  induction C using pairKeys.induct with
  | case1 key value rest ih =>
    rintro ⟨sub, prov, m⟩ ⟨sub', prov', m'⟩ h
    simp only [collectComponents] at h
    split at h
    · cases h
    · split at h
      · rename_i hk
        obtain ⟨h1, h2⟩ := ih _ _ h
        refine ⟨h1, fun k hk' hs hp => ?_⟩
        simp only [pairKeys, List.mem_cons] at hk'
        rcases hk' with rfl | hk'
        · exact absurd hk.1 hs
        · exact h2 k hk' hs hp
      · split at h
        · rename_i hk
          obtain ⟨h1, h2⟩ := ih _ _ h
          refine ⟨h1, fun k hk' hs hp => ?_⟩
          simp only [pairKeys, List.mem_cons] at hk'
          rcases hk' with rfl | hk'
          · exact absurd hk.1 hp
          · exact h2 k hk' hs hp
        · obtain ⟨h1, h2⟩ := ih _ _ h
          refine ⟨fun b hb => h1 b ((GoMap.keys_set m key value).2 b hb),
            fun k hk' hs hp => ?_⟩
          simp only [pairKeys, List.mem_cons] at hk'
          rcases hk' with rfl | hk'
          · exact h1 k (GoMap.keys_set m k value).1
          · exact h2 k hk' hs hp
  | case2 C hC =>
    rintro ⟨sub, prov, m⟩ ⟨sub', prov', m'⟩ h
    have : collectComponents C (sub, prov, m) = .ok (sub, prov, m) := by
      unfold collectComponents
      split
      · exact absurd rfl (hC _ _ _)
      · rfl
    rw [this] at h
    cases h
    refine ⟨fun b hb => hb, fun k hk => ?_⟩
    match C, hC, hk with
    | [], _, hk => simp [pairKeys] at hk
    | [_], _, hk => simp [pairKeys] at hk
    | a :: b :: r, hC, _ => exact absurd rfl (hC a b r)

/-- After the library has returned, every key of the path that is none of the labels the
library consumes is a key of the map `Path`. -/
theorem library_keeps_keys (pa : GoString → Option GoString) (S : GoString) (id : ResourceID)
    (idURL : URL) (hurl : ParseRequestURI pa S = some idURL)
    (h : ParseAzureResourceID pa S = .ok id) (k : GoString)
    (hk : k ∈ pairKeys (splitSlash (trimmedPath idURL)))
    (h₁ : k ≠ "subscriptions".data) (h₂ : k ≠ "providers".data)
    (h₃ : k ≠ "resourceGroups".data) (h₄ : k ≠ "resourcegroups".data) :
    k ∈ id.Path.keys := by
  unfold ParseAzureResourceID at h
  rw [hurl] at h
  simp only at h
  generalize splitSlash (trimmedPath idURL) = C at h hk
  generalize trimmedPath idURL = path at h
  unfold resourceIDOfComponents at h
  split at h
  · cases h
  · split at h
    · cases h
    · rename_i sub prov m hcol
      have hm : k ∈ m.keys := (collectComponents_keys C _ _ hcol).2 k hk h₁ h₂
      have hrg : k ∈ (takeResourceGroup m).2.keys := by
        unfold takeResourceGroup
        split
        · exact GoMap.mem_keys_delete hm h₃
        · split
          · exact GoMap.mem_keys_delete hm h₄
          · exact hm
      generalize takeResourceGroup m = rg at h hrg
      split at h
      · cases h
      · simp only at h
        split at h
        · cases h
          exact GoMap.mem_keys_delete hrg h₂
        · cases h
          exact hrg

/-! ## The last slash of a string -/

theorem not_mem_of_lastIndexSlash_neg (s : GoString) (h : lastIndexSlash s < 0) : '/' ∉ s := by
  induction s with
  | nil => simp
  | cons c cs ih =>
    unfold lastIndexSlash at h
    split at h
    · omega
    · rename_i hcs
      split at h
      · omega
      · rename_i hc
        simp only [List.mem_cons, not_or]
        exact ⟨fun e => hc e.symm, ih (by omega)⟩

theorem lastIndexSlash_of_not_mem (s : GoString) (h : '/' ∉ s) : lastIndexSlash s = -1 := by
  induction s with
  | nil => rfl
  | cons c cs ih =>
    simp only [List.mem_cons, not_or] at h
    unfold lastIndexSlash
    rw [ih h.2]
    have hc : ¬ c = '/' := fun e => h.1 e.symm
    simp [hc]

theorem lastIndexSlash_append (a b : GoString) (hb : '/' ∉ b) :
    lastIndexSlash (a ++ '/' :: b) = a.length := by
  induction a with
  | nil =>
    simp only [List.nil_append, List.length_nil, Nat.cast_zero]
    unfold lastIndexSlash
    rw [lastIndexSlash_of_not_mem b hb]
    simp
  | cons c cs ih =>
    rw [List.cons_append]
    unfold lastIndexSlash
    rw [ih]
    simp

/-- A string with a last slash is what is before it, the slash, and what is after it. -/
theorem lastIndexSlash_spec (s : GoString) (h : 0 ≤ lastIndexSlash s) :
    ∃ a b, s = a ++ '/' :: b ∧ '/' ∉ b ∧ lastIndexSlash s = a.length := by
  induction s with
  | nil => simp [lastIndexSlash] at h
  | cons c cs ih =>
    by_cases hcs : 0 ≤ lastIndexSlash cs
    · obtain ⟨a, b, e, hb, hl⟩ := ih hcs
      refine ⟨c :: a, b, by rw [e]; rfl, hb, ?_⟩
      unfold lastIndexSlash
      rw [if_pos hcs, hl]
      simp
    · have hnm := not_mem_of_lastIndexSlash_neg cs (by omega)
      unfold lastIndexSlash at h ⊢
      rw [if_neg hcs] at h ⊢
      split at h
      · rename_i hc
        exact ⟨[], cs, by rw [hc]; rfl, hnm, by simp [hc]⟩
      · omega

/-! ## What `ManagedHSMRoleDefinitionID` accepts -/

theorem Sprintf_vault (a b : GoString) :
    Sprintf "%s://%s/".data [a, b] = a ++ "://".data ++ b ++ "/".data := by
  simp [Sprintf]

/-- What a successful parse says about the path of the input. -/
theorem roleDefinition_ok (pa : GoString → Option GoString) (input : GoString)
    (I : ManagedHSMRoleDefinitionId) (h : ManagedHSMRoleDefinitionID pa input = .ok I) :
    ∃ u, ParseRequestURI pa input = some u
      ∧ TrimSuffix (TrimPrefix u.Path "/".data) "/".data
          = I.Scope ++ "/RoleDefinition/".data ++ I.Name
      ∧ I.Scope ≠ [] ∧ '/' ∉ I.Name
      ∧ I.VaultBaseUrl = u.Scheme ++ "://".data ++ u.Host ++ "/".data := by
  unfold ManagedHSMRoleDefinitionID at h
  split at h
  · cases h
  · rename_i u hurl
    refine ⟨u, hurl, ?_⟩
    generalize TrimSuffix (TrimPrefix u.Path "/".data) "/".data = path at h ⊢
    simp only at h
    split at h
    · cases h
    · rename_i hsep
      obtain ⟨a, b, rfl, hb, hl⟩ := lastIndexSlash_spec path (by omega)
      rw [hl] at h hsep
      simp only [Int.toNat_ofNat, List.take_left', List.drop_left'] at h
      have hd : List.drop (a.length + 1) (a ++ '/' :: b) = b := by
        rw [List.drop_append_eq_append_drop]
        simp
      rw [hd] at h
      split at h
      · cases h
      · rename_i hsep'
        obtain ⟨s, t, rfl, ht, hl'⟩ := lastIndexSlash_spec a (by omega)
        rw [hl'] at h hsep'
        have hd' : List.drop (s.length + 1) (s ++ '/' :: t) = t := by
          rw [List.drop_append_eq_append_drop]
          simp
        simp only [Int.toNat_ofNat, List.take_left'] at h
        rw [hd'] at h
        split at h
        · cases h
        · rename_i htyp
          simp only [ne_eq, Decidable.not_not] at htyp
          cases h
          subst htyp
          refine ⟨by simp, ?_, hb, Sprintf_vault _ _⟩
          rintro rfl
          simp at hsep'

/-- The parse of an input whose path is a non-empty scope, the literal and a name without
slash. -/
theorem roleDefinition_of_path (pa : GoString → Option GoString) (input : GoString) (u : URL)
    (scope name : GoString) (hurl : ParseRequestURI pa input = some u)
    (hpath : TrimSuffix (TrimPrefix u.Path "/".data) "/".data
      = scope ++ "/RoleDefinition/".data ++ name)
    (hs : scope ≠ []) (hn : '/' ∉ name) :
    ManagedHSMRoleDefinitionID pa input
      = .ok ⟨u.Scheme ++ "://".data ++ u.Host ++ "/".data, scope, name⟩ := by
  have e₁ : scope ++ "/RoleDefinition/".data ++ name
      = (scope ++ '/' :: "RoleDefinition".data) ++ '/' :: name := by simp
  have l₁ : lastIndexSlash ((scope ++ '/' :: "RoleDefinition".data) ++ '/' :: name)
      = (scope ++ '/' :: "RoleDefinition".data).length := lastIndexSlash_append _ _ hn
  have l₂ : lastIndexSlash (scope ++ '/' :: "RoleDefinition".data) = scope.length :=
    lastIndexSlash_append _ _ (by decide)
  have hd : List.drop ((scope ++ '/' :: "RoleDefinition".data).length + 1)
      ((scope ++ '/' :: "RoleDefinition".data) ++ '/' :: name) = name := by
    rw [List.drop_append_eq_append_drop]
    simp
  have hd' : List.drop (scope.length + 1) (scope ++ '/' :: "RoleDefinition".data)
      = "RoleDefinition".data := by
    rw [List.drop_append_eq_append_drop]
    simp
  have hpos : ¬ ((scope.length : Int) ≤ 0) := by
    have := List.length_pos.2 hs
    omega
  have hpos' : ¬ (((scope ++ '/' :: "RoleDefinition".data).length : Int) ≤ 0) := by
    simp only [List.length_append, List.length_cons]
    omega
  unfold ManagedHSMRoleDefinitionID
  rw [hurl]
  simp only
  rw [hpath, e₁, l₁, if_neg hpos']
  simp only [Int.toNat_ofNat, List.take_left']
  rw [l₂, if_neg hpos, hd]
  simp only [Int.toNat_ofNat, List.take_left']
  rw [hd', if_neg (by simp), Sprintf_vault]

/-! ## Schemes -/

theorem toLower_cases (c : Char) :
    (65 ≤ c.toNat ∧ c.toNat ≤ 90 ∧ c.toLower.toNat = c.toNat + 32)
      ∨ (¬ (65 ≤ c.toNat ∧ c.toNat ≤ 90) ∧ c.toLower = c) := by
  by_cases h : 65 ≤ c.toNat ∧ c.toNat ≤ 90
  · refine Or.inl ⟨h.1, h.2, ?_⟩
    have hc : c = Char.ofNat c.toNat := (Char.ofNat_toNat c).symm
    generalize c.toNat = n at h hc
    subst hc
    obtain ⟨h₁, h₂⟩ := h
    interval_cases n <;> rfl
  · refine Or.inr ⟨h, ?_⟩
    unfold Char.toLower
    simp only [ge_iff_le]
    rw [if_neg h]

theorem toLower_toLower (c : Char) : c.toLower.toLower = c.toLower := by
  rcases toLower_cases c with ⟨h₁, h₂, h₃⟩ | ⟨-, h⟩
  · rcases toLower_cases c.toLower with ⟨h₁', h₂', -⟩ | ⟨-, h'⟩
    · omega
    · exact h'
  · rw [h, h]

theorem isAsciiLetter_toLower (c : Char) (h : isAsciiLetter c = true) :
    isAsciiLetter c.toLower = true := by
  rcases toLower_cases c with ⟨h₁, h₂, h₃⟩ | ⟨-, h'⟩
  · simp only [isAsciiLetter, decide_eq_true_eq, h₃]
    omega
  · rw [h']
    exact h

theorem toLower_of_not_letter (c : Char) (hl : isAsciiLetter c = false) : c.toLower = c := by
  rcases toLower_cases c with ⟨h₁, h₂, h₃⟩ | ⟨-, h'⟩
  · simp only [isAsciiLetter, decide_eq_false_iff_not] at hl
    omega
  · exact h'

theorem schemeByte_toLower (c : Char) (h : schemeByte c = true) :
    schemeByte c.toLower = true := by
  by_cases hl : isAsciiLetter c = true
  · simp [schemeByte, isAsciiLetter_toLower c hl]
  · rw [toLower_of_not_letter c (by simpa using hl)]
    exact h

/-- A non-empty scheme that `getScheme` returns starts with a letter and consists of
scheme bytes. -/
theorem getSchemeLoop_scheme :
    ∀ (cs pre a r : GoString), (∀ c ∈ pre, schemeByte c = true) →
      (pre ≠ [] → ∃ c t, pre = c :: t ∧ isAsciiLetter c = true) →
      getSchemeLoop (pre ++ cs) pre.length cs = some (a, r) → a ≠ [] →
      (∀ c ∈ a, schemeByte c = true) ∧ ∃ c t, a = c :: t ∧ isAsciiLetter c = true := by
  intro cs
  induction cs with
  | nil =>
    intro pre a r _ _ h ha
    simp only [getSchemeLoop, Option.some.injEq, Prod.mk.injEq] at h
    exact absurd h.1.symm ha
  | cons c cs ih =>
    intro pre a r hpre hhead h ha
    have hlen : (pre ++ [c]).length = pre.length + 1 := by simp
    have hpre' : schemeByte c = true → ∀ d ∈ pre ++ [c], schemeByte d = true := by
      intro hc d hd
      rcases List.mem_append.1 hd with hd | hd
      · exact hpre d hd
      · rw [List.mem_singleton.1 hd]
        exact hc
    unfold getSchemeLoop at h
    split at h
    · rename_i hc
      rw [← hlen, List.append_cons] at h
      refine ih (pre ++ [c]) a r (hpre' (by simp [schemeByte, hc])) (fun _ => ?_) h ha
      cases pre with
      | nil => exact ⟨c, [], rfl, hc⟩
      | cons p ps =>
        obtain ⟨p', t, e, hp⟩ := hhead (by simp)
        exact ⟨p', t ++ [c], by rw [e]; rfl, hp⟩
    · split at h
      · rename_i hc
        split at h
        · simp only [Option.some.injEq, Prod.mk.injEq] at h
          exact absurd h.1.symm ha
        · rename_i hi
          have hne : pre ≠ [] := fun e => hi (by rw [e]; rfl)
          rw [← hlen, List.append_cons] at h
          refine ih (pre ++ [c]) a r (hpre' (by simp [schemeByte, hc])) (fun _ => ?_) h ha
          obtain ⟨p', t, e, hp⟩ := hhead hne
          exact ⟨p', t ++ [c], by rw [e]; rfl, hp⟩
      · split at h
        · split at h
          · cases h
          · rename_i hi
            have hne : pre ≠ [] := fun e => hi (by rw [e]; rfl)
            simp only [Option.some.injEq, Prod.mk.injEq, List.take_left'] at h
            rw [← h.1]
            exact ⟨hpre, hhead hne⟩
        · simp only [Option.some.injEq, Prod.mk.injEq] at h
          exact absurd h.1.symm ha

/-- A string that starts with a letter and consists of scheme bytes is the scheme that
`getScheme` finds in front of a colon. -/
theorem getSchemeLoop_of_scheme (raw r : GoString) :
    ∀ (cs : GoString) (i : Nat), (∀ c ∈ cs, schemeByte c = true) →
      (i = 0 → ∃ c t, cs = c :: t ∧ isAsciiLetter c = true) →
      getSchemeLoop raw i (cs ++ ':' :: r) = some (raw.take (i + cs.length), r) := by
  intro cs
  induction cs with
  | nil =>
    intro i _ hi
    have hi' : i ≠ 0 := fun e => by
      obtain ⟨c, t, e', -⟩ := hi e
      cases e'
    simp [getSchemeLoop, isAsciiLetter, isAsciiDigit, hi']
  | cons c cs ih =>
    intro i hcs hi
    have hcs' : ∀ d ∈ cs, schemeByte d = true := fun d hd => hcs d (List.mem_cons_of_mem _ hd)
    have hrec := ih (i + 1) hcs' (fun e => absurd e (by omega))
    have hadd : i + 1 + cs.length = i + (c :: cs).length := by
      simp only [List.length_cons]
      omega
    rw [hadd] at hrec
    rw [List.cons_append]
    unfold getSchemeLoop
    by_cases hl : isAsciiLetter c = true
    · rw [if_pos hl, hrec]
    · rw [if_neg hl]
      have hc := hcs c (List.mem_cons_self _ _)
      simp only [schemeByte, Bool.or_eq_true, hl, false_or] at hc
      have hc' : (isAsciiDigit c || decide (c = '+') || decide (c = '-') || decide (c = '.'))
          = true := by simpa [or_assoc] using hc
      rw [if_pos hc']
      have hi' : i ≠ 0 := fun e => by
        obtain ⟨c', t, e', hcl⟩ := hi e
        cases e'
        exact hl hcl
      rw [if_neg hi', hrec]

theorem getScheme_of_scheme (a r : GoString) (ha : ∀ c ∈ a, schemeByte c = true)
    (hh : ∃ c t, a = c :: t ∧ isAsciiLetter c = true) :
    getScheme (a ++ ':' :: r) = some (a, r) := by
  unfold getScheme
  rw [getSchemeLoop_of_scheme (a ++ ':' :: r) r a 0 ha (fun _ => hh)]
  simp

theorem getScheme_scheme (raw a r : GoString) (h : getScheme raw = some (a, r)) (ha : a ≠ []) :
    (∀ c ∈ a, schemeByte c = true) ∧ ∃ c t, a = c :: t ∧ isAsciiLetter c = true :=
  getSchemeLoop_scheme raw [] a r (by simp) (fun e => absurd rfl e) h ha

theorem lower_of_ParseRequestURI (pa : GoString → Option GoString) (input : GoString) (u : URL)
    (h : ParseRequestURI pa input = some u) (hs : u.Scheme ≠ []) :
    (∀ c ∈ u.Scheme, schemeByte c = true)
      ∧ (∃ c t, u.Scheme = c :: t ∧ isAsciiLetter c = true)
      ∧ u.Scheme.map Char.toLower = u.Scheme := by
  have key : ∀ (a r : GoString), getScheme input = some (a, r) →
      u.Scheme = a.map Char.toLower →
      (∀ c ∈ u.Scheme, schemeByte c = true)
        ∧ (∃ c t, u.Scheme = c :: t ∧ isAsciiLetter c = true)
        ∧ u.Scheme.map Char.toLower = u.Scheme := by
    intro a r hg e
    have ha : a ≠ [] := fun e' => hs (by rw [e, e']; rfl)
    obtain ⟨h₁, c, t, e₂, h₂⟩ := getScheme_scheme input a r hg ha
    rw [e]
    refine ⟨?_, ⟨c.toLower, t.map Char.toLower, by rw [e₂]; rfl, isAsciiLetter_toLower c h₂⟩, ?_⟩
    · intro d hd
      obtain ⟨d₀, hd₀, rfl⟩ := List.mem_map.1 hd
      exact schemeByte_toLower d₀ (h₁ d₀ hd₀)
    · rw [List.map_map]
      exact List.map_congr_left fun d _ => toLower_toLower d
  unfold ParseRequestURI at h
  split at h
  · cases h
  split at h
  · cases h
  split at h
  · cases h
    exact absurd rfl hs
  split at h
  · cases h
  · rename_i a r hg
    simp only at h
    split at h
    · split at h
      · cases h
        exact key a r hg rfl
      · cases h
    · split at h
      · split at h
        · cases h
        · split at h
          · cases h
          · cases h
            exact key a r hg rfl
      · split at h
        · cases h
        · cases h
          exact key a r hg rfl

theorem takeWhile_dropWhile_of_slash (a b : GoString) (ha : '/' ∉ a) :
    (a ++ '/' :: b).takeWhile (· ≠ '/') = a ∧ (a ++ '/' :: b).dropWhile (· ≠ '/') = '/' :: b := by
  induction a with
  | nil => simp
  | cons c cs ih =>
    simp only [List.mem_cons, not_or] at ha
    have hd : decide (c ≠ '/') = true := by simpa using fun e : c = '/' => ha.1 e.symm
    simp only [List.cons_append, List.takeWhile_cons, List.dropWhile_cons, hd, if_true,
      (ih ha.2).1, (ih ha.2).2, and_self]

theorem not_control_of_schemeByte (c : Char) (h : schemeByte c = true) :
    ¬ (c.toNat < 32 ∨ c.toNat = 127) ∧ c ≠ '?' := by
  simp only [schemeByte, isAsciiLetter, isAsciiDigit, Bool.or_eq_true, decide_eq_true_eq] at h
  have h43 : 43 ≤ c.toNat ∧ c.toNat ≤ 122 := by
    rcases h with h | ((h | h) | h) | h
    · omega
    · omega
    · rw [h]; decide
    · rw [h]; decide
    · rw [h]; decide
  refine ⟨by omega, ?_⟩
  rintro rfl
  rcases h with h | ((h | h) | h) | h <;> revert h <;> decide

/-- The request URI made of a lower-case scheme, a plain host that the parser of the
authority returns unchanged, and a path of inert bytes. -/
theorem ParseRequestURI_absolute (pa : GoString → Option GoString) (sch host p : GoString)
    (hsch : ∀ c ∈ sch, schemeByte c = true)
    (hh : ∃ c t, sch = c :: t ∧ isAsciiLetter c = true)
    (hlow : sch.map Char.toLower = sch)
    (hpa : pa host = some host) (hhost : ∀ c ∈ host, plainByte c = true)
    (hp : ∀ c ∈ p, inertByte c = true) :
    ParseRequestURI pa (sch ++ "://".data ++ host ++ '/' :: p)
      = some ⟨sch, [], host, '/' :: p, []⟩ := by
  have hraw : sch ++ "://".data ++ host ++ '/' :: p
      = sch ++ ':' :: ('/' :: '/' :: (host ++ '/' :: p)) := by simp
  have hhi : ∀ c ∈ host, inertByte c = true ∧ c ≠ '/' := by
    intro c hc
    have := hhost c hc
    simp only [plainByte, Bool.and_eq_true, decide_eq_true_eq] at this
    exact ⟨this.2, this.1⟩
  have hrest : ∀ c ∈ '/' :: '/' :: (host ++ '/' :: p), inertByte c = true := by
    intro c hc
    simp only [List.mem_cons, List.mem_append] at hc
    rcases hc with rfl | rfl | hc | rfl | hc
    · decide
    · decide
    · exact (hhi c hc).1
    · decide
    · exact hp c hc
  have hctl : stringContainsCTLByte (sch ++ ':' :: ('/' :: '/' :: (host ++ '/' :: p)))
      = false := by
    rw [stringContainsCTLByte_append]
    have h₁ : stringContainsCTLByte sch = false := by
      simp only [stringContainsCTLByte, List.any_eq_false, decide_eq_true_eq]
      exact fun c hc => (not_control_of_schemeByte c (hsch c hc)).1
    have h₂ : stringContainsCTLByte (':' :: ('/' :: '/' :: (host ++ '/' :: p))) = false := by
      apply stringContainsCTLByte_of_inert
      intro c hc
      rcases List.mem_cons.1 hc with rfl | hc
      · decide
      · exact hrest c hc
    rw [h₁, h₂]
    rfl
  have hq : '?' ∉ '/' :: '/' :: (host ++ '/' :: p) :=
    fun hm => absurd (hrest _ hm) (by decide)
  have hpc : '%' ∉ '/' :: p := by
    intro hm
    rcases List.mem_cons.1 hm with e | hm
    · exact absurd e (by decide)
    · exact absurd (hp _ hm) (by decide)
  have hns : '/' ∉ host := fun hm => (hhi _ hm).2 rfl
  obtain ⟨c, t, rfl, hc⟩ := hh
  have hstar : (c :: t) ++ ':' :: ('/' :: '/' :: (host ++ '/' :: p)) ≠ ['*'] := by
    intro e
    simp only [List.cons_append, List.cons.injEq] at e
    have := e.2
    cases t <;> simp at this
  rw [hraw]
  unfold ParseRequestURI
  rw [hctl, getScheme_of_scheme _ _ hsch ⟨c, t, rfl, hc⟩, if_neg (by simp), if_neg (by simp),
    if_neg hstar]
  simp only [hlow, cutQuery_of_not_mem _ hq]
  rw [if_neg (by simp [List.isPrefixOf]), if_pos ⟨by simp, by simp [List.isPrefixOf]⟩]
  simp only [List.drop_succ_cons, List.drop_zero]
  rw [(takeWhile_dropWhile_of_slash host p hns).1, (takeWhile_dropWhile_of_slash host p hns).2,
    hpa, unescapePath_of_not_mem _ hpc]

/-! ## An empty value in the identifier string -/

/-- A key of a list of segments stands at an even position and is followed by a value. -/
theorem pairKeys_index (C : List GoString) :
    ∀ key ∈ pairKeys C, ∃ j, 2 * j + 1 < C.length ∧ C[2 * j]? = some key := by
  induction C using pairKeys.induct with
  | case1 k v rest ih =>
    intro key hk
    simp only [pairKeys, List.mem_cons] at hk
    rcases hk with rfl | hk
    · exact ⟨0, by simp, rfl⟩
    · obtain ⟨j, hj, he⟩ := ih key hk
      refine ⟨j + 1, by simp only [List.length_cons]; omega, ?_⟩
      have : 2 * (j + 1) = 2 * j + 1 + 1 := by omega
      rw [this, List.getElem?_cons_succ, List.getElem?_cons_succ]
      exact he
  | case2 C hC =>
    intro key hk
    match C, hC, hk with
    | [], _, hk => simp [pairKeys] at hk
    | [_], _, hk => simp [pairKeys] at hk
    | a :: b :: r, hC, _ => exact absurd rfl (hC a b r)

/-- The library succeeds only on a path all of whose components are non-empty. -/
theorem library_components_nonempty (pa : GoString → Option GoString) (S : GoString)
    (id : ResourceID) (hid : ParseAzureResourceID pa S = .ok id) :
    ∃ idURL, ParseRequestURI pa S = some idURL
      ∧ ∀ c ∈ splitSlash (trimmedPath idURL), c ≠ [] := by
  unfold ParseAzureResourceID at hid
  split at hid
  · cases hid
  · rename_i idURL hurl
    refine ⟨idURL, hurl, ?_⟩
    generalize splitSlash (trimmedPath idURL) = C at hid ⊢
    unfold resourceIDOfComponents at hid
    split at hid
    · cases hid
    · rename_i hlen
      split at hid
      · cases hid
      · rename_i sub prov m hcol
        exact collectComponents_nonempty C _ _ (by simpa using hlen) hcol

/-- Neither parser accepts the identifier string of an identifier with an empty field,
when no field holds a slash or a `%`. -/
theorem rejected_of_empty_field (pa : GoString → Option GoString) (o₁ o₂ : RangeOrder)
    (K : PrivateEndpointConnectionId)
    (hK : ∀ v ∈ [K.SubscriptionId, K.ResourceGroup, K.ManagedHSMName, K.Name],
      '/' ∉ v ∧ '%' ∉ v)
    (hempty : [] ∈ [K.SubscriptionId, K.ResourceGroup, K.ManagedHSMName, K.Name])
    (J : PrivateEndpointConnectionId) :
    ¬ (ParsePrivateEndpointConnectionID pa K.ID = .ok J
      ∨ ParsePrivateEndpointConnectionIDInsensitively pa o₁ o₂ K.ID = .ok J) := by
  intro hJ
  obtain ⟨idURL, hurl, hlen, key, hkey, hfold⟩ := accepted_has_last_label pa o₁ o₂ K.ID J hJ
  have hlib : ∃ id, ParseAzureResourceID pa K.ID = .ok id := by
    rcases hJ with hJ | hJ
    · obtain ⟨id, hid, -⟩ := strict_ok_pops pa _ J hJ
      exact ⟨id, hid⟩
    · obtain ⟨id, -, -, hid, -⟩ := insensitive_ok_pops pa o₁ o₂ _ J hJ
      exact ⟨id, hid⟩
  obtain ⟨id, hid⟩ := hlib
  obtain ⟨idURL', hurl', hne⟩ := library_components_nonempty pa _ id hid
  rw [hurl] at hurl'
  cases hurl'
  generalize hsegs : ["subscriptions".data, K.SubscriptionId, "resourceGroups".data,
    K.ResourceGroup, "providers".data, "Microsoft.KeyVault".data, "managedHSMs".data,
    K.ManagedHSMName, "privateEndpointConnections".data, K.Name] = segs at *
  have hID : K.ID = '/' :: joinSlash segs := by
    rw [ID_eq_idString, idString, ← hsegs]
  have hns : ∀ v ∈ segs, '/' ∉ v := by
    intro v hv
    rw [← hsegs] at hv
    simp only [List.mem_cons, List.mem_singleton, List.not_mem_nil, or_false] at hv
    rcases hv with rfl | rfl | rfl | rfl | rfl | rfl | rfl | rfl | rfl | rfl <;>
      first | decide | exact (hK _ (by simp)).1
  have hnp : ∀ v ∈ segs, '%' ∉ v := by
    intro v hv
    rw [← hsegs] at hv
    simp only [List.mem_cons, List.mem_singleton, List.not_mem_nil, or_false] at hv
    rcases hv with rfl | rfl | rfl | rfl | rfl | rfl | rfl | rfl | rfl | rfl <;>
      first | decide | exact (hK _ (by simp)).2
  have hp₁ : '%' ∉ joinSlash segs := by
    intro hm
    rcases mem_joinSlash segs _ hm with e | ⟨w, hw, hcw⟩
    · exact absurd e (by decide)
    · exact hnp w hw hcw
  rw [hID] at hurl
  have hP : idURL.Path <+: '/' :: (joinSlash segs ++ ['/']) :=
    (path_is_initial_part pa _ idURL hurl hp₁).trans
      ((List.prefix_cons_inj '/').2 (List.prefix_append _ _))
  obtain ⟨Y, hY⟩ : trimmedPath idURL <+: joinSlash segs := trimmed_initial_part _ _ hP
  obtain ⟨init, p, d, rest, h₁, h₂, hpd⟩ := splitSlash_of_initial_part (trimmedPath idURL) Y
  rw [hY, splitSlash_joinSlash segs (by rw [← hsegs]; simp) hns] at h₂
  rw [h₁] at hkey hne
  obtain ⟨j, hj, he⟩ := pairKeys_index _ key hkey
  have hlen10 : init.length + 1 + rest.length = 10 := by
    have := congrArg List.length h₂
    rw [← hsegs] at this
    simp only [List.length_cons, List.length_nil, List.length_append] at this
    omega
  simp only [List.length_append, List.length_singleton] at hj
  have he' : segs[2 * j]? = some key := by
    rw [h₂, List.getElem?_append_left (by omega)]
    rw [List.getElem?_append_left (by omega)] at he
    exact he
  have hj4 : j = 4 := by
    rw [← hsegs] at he'
    have hj5 : j < 5 := by omega
    interval_cases j
    · simp at he'
      subst he'
      revert hfold
      decide
    · simp at he'
      subst he'
      revert hfold
      decide
    · simp at he'
      subst he'
      revert hfold
      decide
    · simp at he'
      subst he'
      revert hfold
      decide
    · rfl
  subst hj4
  have hlen9 : init.length = 9 := by omega
  have hinit : init = segs.take 9 := by
    rw [h₂]
    exact (List.take_left' hlen9).symm
  have hd : d :: rest = segs.drop 9 := by
    rw [h₂]
    exact (List.drop_left' hlen9).symm
  rw [← hsegs] at hinit hd
  simp only [List.take_succ_cons, List.take_zero, List.drop_succ_cons, List.drop_zero,
    List.cons.injEq] at hinit hd
  simp only [List.mem_cons, List.mem_singleton, List.not_mem_nil, or_false] at hempty
  rcases hempty with e | e | e | e
  · exact hne [] (by rw [hinit, ← e]; simp) rfl
  · exact hne [] (by rw [hinit, ← e]; simp) rfl
  · exact hne [] (by rw [hinit, ← e]; simp) rfl
  · have hp : p = [] := by
      rw [hd.1, ← e] at hpd
      exact List.prefix_nil.1 hpd
    exact hne [] (by rw [hp]; simp) rfl

/-! ## Properties of the two parsers together, and of the role definition ID -/

/-- C11 as stated fails: a non-empty, slash-free name of the managed HSM may hold escaped
slashes.  With the last value replaced by the empty string, the library decodes
the string into a path of twelve segments that ends in a second `providers`
pair, and both parsers accept it. -/
theorem empty_value_accepted_with_escaped_slashes :
    (("s".data ≠ [] ∧ '/' ∉ "s".data) ∧ ("g".data ≠ [] ∧ '/' ∉ "g".data)
      ∧ ("h%2FprivateEndpointConnections%2Fn%2Fproviders".data ≠ []
        ∧ '/' ∉ "h%2FprivateEndpointConnections%2Fn%2Fproviders".data)
      ∧ ("x".data ≠ [] ∧ '/' ∉ "x".data))
    ∧ PrivateEndpointConnectionId.ID
        ⟨"s".data, "g".data, "h%2FprivateEndpointConnections%2Fn%2Fproviders".data, "x".data⟩
      = "/subscriptions/s/resourceGroups/g/providers/Microsoft.KeyVault/managedHSMs/h%2FprivateEndpointConnections%2Fn%2Fproviders/privateEndpointConnections/x".data
    ∧ PrivateEndpointConnectionId.ID (withoutField
        ⟨"s".data, "g".data, "h%2FprivateEndpointConnections%2Fn%2Fproviders".data, "x".data⟩ 3)
      = "/subscriptions/s/resourceGroups/g/providers/Microsoft.KeyVault/managedHSMs/h%2FprivateEndpointConnections%2Fn%2Fproviders/privateEndpointConnections/".data
    ∧ (∀ pa, ParsePrivateEndpointConnectionID pa
        (PrivateEndpointConnectionId.ID (withoutField
          ⟨"s".data, "g".data, "h%2FprivateEndpointConnections%2Fn%2Fproviders".data,
            "x".data⟩ 3))
          = .ok ⟨"s".data, "g".data, "h".data, "n".data⟩)
    ∧ ParsePrivateEndpointConnectionIDInsensitively (fun a => some a) .asStored .asStored
        (PrivateEndpointConnectionId.ID (withoutField
          ⟨"s".data, "g".data, "h%2FprivateEndpointConnections%2Fn%2Fproviders".data,
            "x".data⟩ 3))
          = .ok ⟨"s".data, "g".data, "h".data, "n".data⟩ :=
  ⟨by decide, rfl, rfl, fun _ => rfl, rfl⟩

/-- C11, amended. Empty-value sensitivity: for every identifier `I` whose field values are
non-empty and hold no slash and no `%`, the string obtained from `I.ID()` by
replacing exactly one of the four captured values by the empty string (all
slashes left in place) makes both `ParsePrivateEndpointConnectionID` and
`ParsePrivateEndpointConnectionIDInsensitively` return an error. -/
theorem empty_value_is_rejected (pa : GoString → Option GoString) (o₁ o₂ : RangeOrder)
    (I : PrivateEndpointConnectionId) (i : Fin 4)
    (hs : I.SubscriptionId ≠ [] ∧ '/' ∉ I.SubscriptionId ∧ '%' ∉ I.SubscriptionId)
    (hrg : I.ResourceGroup ≠ [] ∧ '/' ∉ I.ResourceGroup ∧ '%' ∉ I.ResourceGroup)
    (hh : I.ManagedHSMName ≠ [] ∧ '/' ∉ I.ManagedHSMName ∧ '%' ∉ I.ManagedHSMName)
    (hn : I.Name ≠ [] ∧ '/' ∉ I.Name ∧ '%' ∉ I.Name) :
    (∃ e, ParsePrivateEndpointConnectionID pa (withoutField I i).ID = .error e)
      ∧ ∃ e, ParsePrivateEndpointConnectionIDInsensitively pa o₁ o₂ (withoutField I i).ID
          = .error e := by
  have hK : ∀ v ∈ [(withoutField I i).SubscriptionId, (withoutField I i).ResourceGroup,
      (withoutField I i).ManagedHSMName, (withoutField I i).Name], '/' ∉ v ∧ '%' ∉ v := by
    intro v hv
    fin_cases i <;>
      simp only [withoutField, List.mem_cons, List.mem_singleton, List.not_mem_nil,
        or_false] at hv <;>
      rcases hv with rfl | rfl | rfl | rfl <;>
      first | exact hs.2 | exact hrg.2 | exact hh.2 | exact hn.2 | simp
  have hempty : [] ∈ [(withoutField I i).SubscriptionId, (withoutField I i).ResourceGroup,
      (withoutField I i).ManagedHSMName, (withoutField I i).Name] := by
    fin_cases i <;> simp [withoutField]
  have hno := rejected_of_empty_field pa o₁ o₂ (withoutField I i) hK hempty
  exact ⟨exists_error_of_not_ok _ fun J hJ => hno J (Or.inl hJ),
    exists_error_of_not_ok _ fun J hJ => hno J (Or.inr hJ)⟩

/-- C11, amended, at the canonical string without the name of the managed HSM. -/
theorem empty_value_is_rejected_witness :
    (∃ e, ParsePrivateEndpointConnectionID (fun a => some a)
        (PrivateEndpointConnectionId.ID
          (withoutField ⟨"a".data, "b".data, "c".data, "d".data⟩ 2)) = .error e)
      ∧ ∃ e, ParsePrivateEndpointConnectionIDInsensitively (fun a => some a) .asStored .reversed
        (PrivateEndpointConnectionId.ID
          (withoutField ⟨"a".data, "b".data, "c".data, "d".data⟩ 2)) = .error e :=
  empty_value_is_rejected (fun a => some a) .asStored .reversed
    ⟨"a".data, "b".data, "c".data, "d".data⟩ 2 (by decide) (by decide) (by decide) (by decide)

/-- C12. The insensitive parser extends the strict parser: for every input `S` on which
`ParsePrivateEndpointConnectionID` succeeds with identifier `I`,
`ParsePrivateEndpointConnectionIDInsensitively(S)` also succeeds and returns
`I`, in whatever order its loops visit the map. -/
theorem insensitive_extends_strict (pa : GoString → Option GoString) (o₁ o₂ : RangeOrder)
    (S : GoString) (I : PrivateEndpointConnectionId)
    (h : ParsePrivateEndpointConnectionID pa S = .ok I) :
    ParsePrivateEndpointConnectionIDInsensitively pa o₁ o₂ S = .ok I := by
  obtain ⟨id, hid, hsub, hrg, hg₁, hne₁, hg₂, hne₂, hfin, e₁, e₂⟩ := strict_ok_pops pa S I h
  have := insensitive_of_pops pa o₁ o₂ S id _ _ _ _ hid hsub hrg (by decide) (by decide)
    hg₁ hne₁ hg₂ hne₂ hfin
  rw [this, ← e₁, ← e₂]

/-- C12 at a canonical input. -/
theorem insensitive_extends_strict_witness :
    ParsePrivateEndpointConnectionIDInsensitively (fun a => some a) .reversed .asStored
        "/subscriptions/sub1/resourceGroups/rg1/providers/Microsoft.KeyVault/managedHSMs/hsm1/privateEndpointConnections/pec1".data
      = .ok ⟨"sub1".data, "rg1".data, "hsm1".data, "pec1".data⟩ :=
  insensitive_extends_strict (fun a => some a) .reversed .asStored
    "/subscriptions/sub1/resourceGroups/rg1/providers/Microsoft.KeyVault/managedHSMs/hsm1/privateEndpointConnections/pec1".data
    ⟨"sub1".data, "rg1".data, "hsm1".data, "pec1".data⟩ rfl

/-- C13 as stated fails: an escaped `?` in the name is decoded by the library, so the
insensitive parser returns a name with `?`; in the ID of the result the `?`
starts a query, and the strict parser returns another name. -/
theorem insensitive_result_is_not_canonical :
    (∀ pa o₁ o₂, ParsePrivateEndpointConnectionIDInsensitively pa o₁ o₂
        "/subscriptions/s/resourceGroups/g/providers/Microsoft.KeyVault/managedHSMs/h/privateEndpointConnections/d%3Fe".data
          = .ok ⟨"s".data, "g".data, "h".data, "d?e".data⟩)
      ∧ PrivateEndpointConnectionId.ID ⟨"s".data, "g".data, "h".data, "d?e".data⟩
          = "/subscriptions/s/resourceGroups/g/providers/Microsoft.KeyVault/managedHSMs/h/privateEndpointConnections/d?e".data
      ∧ (∀ pa, ParsePrivateEndpointConnectionID pa
          (PrivateEndpointConnectionId.ID ⟨"s".data, "g".data, "h".data, "d?e".data⟩)
            = .ok ⟨"s".data, "g".data, "h".data, "d".data⟩)
      ∧ (⟨"s".data, "g".data, "h".data, "d".data⟩ : PrivateEndpointConnectionId)
          ≠ ⟨"s".data, "g".data, "h".data, "d?e".data⟩ :=
  ⟨fun pa o₁ o₂ =>
    insensitive_of_canonical pa o₁ o₂ _ _ _ "Microsoft.KeyVault".data _ _ _ _ (by decide)
      (by decide) (by decide) (by decide) (by decide) (by decide) rfl,
    rfl, fun _ => rfl, by decide⟩

/-- C13, amended. Insensitive parsing normalizes to the canonical form: for every input on
which `ParsePrivateEndpointConnectionIDInsensitively` succeeds with an identifier
`I` whose fields hold no `?`, no `%` and no control byte, the string `I.ID()` is
accepted by `ParsePrivateEndpointConnectionID` and parses back to `I`; hence the
ID of the identifier parsed back is `I.ID()`. -/
theorem insensitive_result_is_canonical (pa : GoString → Option GoString) (o₁ o₂ : RangeOrder)
    (S : GoString) (I : PrivateEndpointConnectionId)
    (h : ParsePrivateEndpointConnectionIDInsensitively pa o₁ o₂ S = .ok I)
    (hin : ∀ v ∈ [I.SubscriptionId, I.ResourceGroup, I.ManagedHSMName, I.Name],
      ∀ c ∈ v, inertByte c = true) :
    ParsePrivateEndpointConnectionID pa I.ID = .ok I
      ∧ ∀ J, ParsePrivateEndpointConnectionID pa I.ID = .ok J → J.ID = I.ID := by
  obtain ⟨idURL, -, -, hv, -⟩ := ParsePrivateEndpointConnectionIDInsensitively_ok pa o₁ o₂ S I h
  have hplain : ∀ v ∈ [I.SubscriptionId, I.ResourceGroup, I.ManagedHSMName, I.Name],
      plainValue v = true := by
    intro v hm
    have hs := not_mem_of_mem_splitSlash _ v (hv v hm).1
    simp only [plainValue, plainByte, Bool.and_eq_true, decide_eq_true_eq, List.all_eq_true]
    exact ⟨(hv v hm).2, fun c hc => ⟨fun e => hs (e ▸ hc), hin v hm c hc⟩⟩
  have hok : ParsePrivateEndpointConnectionID pa I.ID = .ok I := by
    rw [ID_eq_idString]
    exact (strict_accepts pa _ _ _ _ _ _ (Or.inl rfl) (hplain _ (by simp)) (hplain _ (by simp))
      (by decide) (hplain _ (by simp)) (hplain _ (by simp))).1
  refine ⟨hok, fun J hJ => ?_⟩
  rw [hok] at hJ
  cases hJ
  rfl

/-- C13, amended, at an input whose last two labels are in mixed case. -/
theorem insensitive_result_is_canonical_witness :
    ParsePrivateEndpointConnectionID (fun a => some a)
        (PrivateEndpointConnectionId.ID
          ⟨"12345678-1234-9876-4563-123456789012".data, "eXaMpLe-rEsOuRcE-GrOuP".data,
            "mAnAgEdHsMvAlUe".data, "pRiVaTeEnDpOiNtCoNnEcTiOnVaLuE".data⟩)
        = .ok ⟨"12345678-1234-9876-4563-123456789012".data, "eXaMpLe-rEsOuRcE-GrOuP".data,
            "mAnAgEdHsMvAlUe".data, "pRiVaTeEnDpOiNtCoNnEcTiOnVaLuE".data⟩
      ∧ ∀ J, ParsePrivateEndpointConnectionID (fun a => some a)
          (PrivateEndpointConnectionId.ID
            ⟨"12345678-1234-9876-4563-123456789012".data, "eXaMpLe-rEsOuRcE-GrOuP".data,
              "mAnAgEdHsMvAlUe".data, "pRiVaTeEnDpOiNtCoNnEcTiOnVaLuE".data⟩) = .ok J →
          J.ID = PrivateEndpointConnectionId.ID
            ⟨"12345678-1234-9876-4563-123456789012".data, "eXaMpLe-rEsOuRcE-GrOuP".data,
              "mAnAgEdHsMvAlUe".data, "pRiVaTeEnDpOiNtCoNnEcTiOnVaLuE".data⟩ :=
  insensitive_result_is_canonical (fun a => some a) .reversed .asStored
    "/subscriptions/12345678-1234-9876-4563-123456789012/resourceGroups/eXaMpLe-rEsOuRcE-GrOuP/providers/Microsoft.KeyVault/mAnAgEdHsMs/mAnAgEdHsMvAlUe/pRiVaTeEnDpOiNtCoNnEcTiOnS/pRiVaTeEnDpOiNtCoNnEcTiOnVaLuE".data
    ⟨"12345678-1234-9876-4563-123456789012".data, "eXaMpLe-rEsOuRcE-GrOuP".data,
      "mAnAgEdHsMvAlUe".data, "pRiVaTeEnDpOiNtCoNnEcTiOnVaLuE".data⟩ rfl (by decide)

/-- C14 as stated fails.  An input without a scheme is accepted with the vault URL `:///`,
and the ID of the result has no scheme that `url.ParseRequestURI` could read; an
input whose path ends in two slashes is accepted with an empty name, and the ID
of the result has lost its last segment; an escaped `?` in the name is decoded,
and the ID of the result is cut at it. -/
theorem role_definition_roundtrip_fails :
    ((∀ pa, ManagedHSMRoleDefinitionID pa "/a/RoleDefinition/n".data
          = .ok ⟨":///".data, "a".data, "n".data⟩)
      ∧ ManagedHSMRoleDefinitionId.ID ⟨":///".data, "a".data, "n".data⟩
          = ":///a/RoleDefinition/n".data
      ∧ ∀ pa, ManagedHSMRoleDefinitionID pa ":///a/RoleDefinition/n".data
          = .error (.cannotParse ":///a/RoleDefinition/n".data))
    ∧ (ManagedHSMRoleDefinitionID (fun a => some a) "https://h/a/RoleDefinition//".data
          = .ok ⟨"https://h/".data, "a".data, []⟩
      ∧ ManagedHSMRoleDefinitionId.ID ⟨"https://h/".data, "a".data, []⟩
          = "https://h/a/RoleDefinition".data
      ∧ ManagedHSMRoleDefinitionID (fun a => some a) "https://h/a/RoleDefinition".data
          = .error (.noTypeSeparator "https://h/a/RoleDefinition".data))
    ∧ (ManagedHSMRoleDefinitionID (fun a => some a) "https://h/a/RoleDefinition/n%3Fx".data
          = .ok ⟨"https://h/".data, "a".data, "n?x".data⟩
      ∧ ManagedHSMRoleDefinitionId.ID ⟨"https://h/".data, "a".data, "n?x".data⟩
          = "https://h/a/RoleDefinition/n?x".data
      ∧ ManagedHSMRoleDefinitionID (fun a => some a) "https://h/a/RoleDefinition/n?x".data
          = .ok ⟨"https://h/".data, "a".data, "n".data⟩) :=
  ⟨⟨fun _ => rfl, rfl, fun _ => rfl⟩, ⟨rfl, rfl, rfl⟩, ⟨rfl, rfl, rfl⟩⟩

/-- C14, amended. Round trip of the role definition ID: for every input with a scheme on
which `ManagedHSMRoleDefinitionID` succeeds with an identifier `I` whose Name is
non-empty and whose Scope and Name hold no `?`, no `%` and no control byte, and
whose host consists of plain bytes and is what the parser of the authority
returns for it, `ManagedHSMRoleDefinitionID(I.ID())` succeeds and returns
`I`. -/
theorem role_definition_roundtrip (pa : GoString → Option GoString) (input : GoString)
    (I : ManagedHSMRoleDefinitionId) (u : URL)
    (h : ManagedHSMRoleDefinitionID pa input = .ok I)
    (hurl : ParseRequestURI pa input = some u) (hsch : u.Scheme ≠ [])
    (hpa : pa u.Host = some u.Host) (hhost : ∀ c ∈ u.Host, plainByte c = true)
    (hname : I.Name ≠ []) (hs : ∀ c ∈ I.Scope, inertByte c = true)
    (hn : ∀ c ∈ I.Name, inertByte c = true) :
    ManagedHSMRoleDefinitionID pa I.ID = .ok I := by
  obtain ⟨u', hurl', -, hscope, hnslash, hvault⟩ := roleDefinition_ok pa input I h
  rw [hurl] at hurl'
  cases hurl'
  obtain ⟨h₁, h₂, h₃⟩ := lower_of_ParseRequestURI pa input u hurl hsch
  have hlast : ∀ x : GoString, (x ++ I.Name).getLast? ≠ some '/' := by
    intro x e
    rw [List.getLast?_append_of_ne_nil _ hname] at e
    exact hnslash (List.mem_of_getLast?_eq_some e)
  have hID : I.ID = u.Scheme ++ "://".data ++ u.Host
      ++ '/' :: (I.Scope ++ "/RoleDefinition/".data ++ I.Name) := by
    have e₁ : TrimSuffix (u.Scheme ++ "://".data ++ u.Host ++ "/".data) "/".data
        = u.Scheme ++ "://".data ++ u.Host := TrimSuffix_append_slash _
    unfold ManagedHSMRoleDefinitionId.ID
    simp only [Join]
    rw [hvault, e₁]
    have e₂ : u.Scheme ++ "://".data ++ u.Host ++ "/".data
          ++ (I.Scope ++ "/".data ++ ("RoleDefinition".data ++ "/".data ++ I.Name))
        = (u.Scheme ++ "://".data ++ u.Host ++ "/".data ++ I.Scope ++ "/RoleDefinition/".data)
          ++ I.Name := by simp
    have e₃ : u.Scheme ++ "://".data ++ u.Host
          ++ '/' :: (I.Scope ++ "/RoleDefinition/".data ++ I.Name)
        = (u.Scheme ++ "://".data ++ u.Host ++ "/".data ++ I.Scope ++ "/RoleDefinition/".data)
          ++ I.Name := by simp
    rw [e₂, e₃]
    exact TrimSuffix_of_getLast? _ (hlast _)
  have hp : ∀ c ∈ I.Scope ++ "/RoleDefinition/".data ++ I.Name, inertByte c = true := by
    intro c hc
    rcases List.mem_append.1 hc with hc | hc
    · rcases List.mem_append.1 hc with hc | hc
      · exact hs c hc
      · exact (by decide : ∀ d ∈ "/RoleDefinition/".data, inertByte d = true) c hc
    · exact hn c hc
  have hurl₂ := ParseRequestURI_absolute pa u.Scheme u.Host
    (I.Scope ++ "/RoleDefinition/".data ++ I.Name) h₁ h₂ h₃ hpa hhost hp
  rw [← hID] at hurl₂
  have hpath₂ : TrimSuffix (TrimPrefix
      (URL.mk u.Scheme [] u.Host ('/' :: (I.Scope ++ "/RoleDefinition/".data ++ I.Name)) []).Path
        "/".data) "/".data = I.Scope ++ "/RoleDefinition/".data ++ I.Name := by
    show TrimSuffix (TrimPrefix ('/' :: (I.Scope ++ "/RoleDefinition/".data ++ I.Name)) ['/'])
      ['/'] = _
    rw [TrimPrefix_slash_cons]
    exact TrimSuffix_of_getLast? _ (hlast _)
  rw [roleDefinition_of_path pa I.ID _ I.Scope I.Name hurl₂ hpath₂ hscope hnslash]
  rw [← hvault]

/-- C14, amended, at an input with the vault and the name of the example in the source. -/
theorem role_definition_roundtrip_witness :
    ManagedHSMRoleDefinitionID (fun a => some a)
        (ManagedHSMRoleDefinitionId.ID
          ⟨"https://tharvey-keyvault.managedhsm.azure.net/".data, "/".data,
            "uuid-idshifds-fks".data⟩)
      = .ok ⟨"https://tharvey-keyvault.managedhsm.azure.net/".data, "/".data,
          "uuid-idshifds-fks".data⟩ :=
  role_definition_roundtrip (fun a => some a)
    "https://tharvey-keyvault.managedhsm.azure.net///RoleDefinition/uuid-idshifds-fks".data
    ⟨"https://tharvey-keyvault.managedhsm.azure.net/".data, "/".data, "uuid-idshifds-fks".data⟩
    ⟨"https".data, [], "tharvey-keyvault.managedhsm.azure.net".data,
      "///RoleDefinition/uuid-idshifds-fks".data, []⟩
    rfl rfl (by decide) rfl (by decide) (by decide) (by decide) (by decide)

/-- C15. The type literal of a role definition ID must match byte for byte: for every
input whose URL path, after removing one leading and one trailing slash, has a
second-to-last segment different from the exact string `RoleDefinition`,
`ManagedHSMRoleDefinitionID` returns an error; and for every input it accepts,
that segment is exactly `RoleDefinition`. -/
theorem role_definition_type_must_match (pa : GoString → Option GoString) (input : GoString)
    (u : URL) (hurl : ParseRequestURI pa input = some u) :
    (secondToLast (splitSlash (TrimSuffix (TrimPrefix u.Path "/".data) "/".data))
        ≠ some "RoleDefinition".data →
      ∃ e, ManagedHSMRoleDefinitionID pa input = .error e)
    ∧ ∀ I, ManagedHSMRoleDefinitionID pa input = .ok I →
        secondToLast (splitSlash (TrimSuffix (TrimPrefix u.Path "/".data) "/".data))
          = some "RoleDefinition".data := by
  have key : ∀ I, ManagedHSMRoleDefinitionID pa input = .ok I →
      secondToLast (splitSlash (TrimSuffix (TrimPrefix u.Path "/".data) "/".data))
        = some "RoleDefinition".data := by
    intro I h
    obtain ⟨u', hurl', hpath, -, hn, -⟩ := roleDefinition_ok pa input I h
    rw [hurl] at hurl'
    cases hurl'
    have e₁ : I.Scope ++ "/RoleDefinition/".data ++ I.Name
        = I.Scope ++ '/' :: ("RoleDefinition".data ++ '/' :: I.Name) := by simp
    rw [hpath, e₁, splitSlash_append, splitSlash_append, splitSlash_of_not_mem I.Name hn,
      splitSlash_of_not_mem "RoleDefinition".data (by decide), ← List.append_assoc,
      secondToLast, List.dropLast_concat, List.getLast?_concat]
  refine ⟨fun hne => ?_, key⟩
  cases h : ManagedHSMRoleDefinitionID pa input with
  | ok I => exact absurd (key I h) hne
  | error e => exact ⟨e, rfl⟩

/-- C15 at an input whose type segment is `roledefinition`. -/
theorem role_definition_type_must_match_witness :
    (secondToLast (splitSlash (TrimSuffix (TrimPrefix
        (URL.mk "https".data [] "h".data "/keys/roledefinition/n".data []).Path "/".data)
          "/".data))
        ≠ some "RoleDefinition".data →
      ∃ e, ManagedHSMRoleDefinitionID (fun a => some a) "https://h/keys/roledefinition/n".data
        = .error e)
    ∧ ∀ I, ManagedHSMRoleDefinitionID (fun a => some a) "https://h/keys/roledefinition/n".data
          = .ok I →
        secondToLast (splitSlash (TrimSuffix (TrimPrefix
          (URL.mk "https".data [] "h".data "/keys/roledefinition/n".data []).Path "/".data)
            "/".data))
          = some "RoleDefinition".data :=
  role_definition_type_must_match (fun a => some a) "https://h/keys/roledefinition/n".data
    ⟨"https".data, [], "h".data, "/keys/roledefinition/n".data, []⟩ rfl

/-- C16 as stated fails: the path may end in two slashes.  One is trimmed, the other is the
last slash of the path, and the name after it is empty. -/
theorem role_definition_name_may_be_empty :
    (∀ pa, ManagedHSMRoleDefinitionID pa "/a/RoleDefinition//".data
        = .ok ⟨":///".data, "a".data, []⟩)
    ∧ ManagedHSMRoleDefinitionID (fun a => some a) "https://h/a/RoleDefinition//".data
        = .ok ⟨"https://h/".data, "a".data, []⟩ :=
  ⟨fun _ => rfl, rfl⟩

/-- C16, amended. For every input on which `ManagedHSMRoleDefinitionID` succeeds, the
Scope of the identifier returned is non-empty, its Name holds no slash, and its
Name is empty exactly when the URL path of the input, after removing one
leading and one trailing slash, still ends in a slash. -/
theorem role_definition_scope_is_nonempty (pa : GoString → Option GoString) (input : GoString)
    (I : ManagedHSMRoleDefinitionId) (h : ManagedHSMRoleDefinitionID pa input = .ok I) :
    I.Scope ≠ [] ∧ '/' ∉ I.Name
      ∧ ∃ u, ParseRequestURI pa input = some u
        ∧ (I.Name = [] ↔
            (TrimSuffix (TrimPrefix u.Path "/".data) "/".data).getLast? = some '/') := by
  obtain ⟨u, hurl, hpath, hs, hn, -⟩ := roleDefinition_ok pa input I h
  refine ⟨hs, hn, u, hurl, ?_⟩
  rw [hpath]
  constructor
  · intro e
    rw [e]
    simp
  · intro hl
    by_contra hne
    rw [List.getLast?_append_of_ne_nil _ hne] at hl
    exact hn (List.mem_of_getLast?_eq_some hl)

/-- C16, amended, at an input with the vault and the name of the example in the source. -/
theorem role_definition_scope_is_nonempty_witness :
    "/".data ≠ [] ∧ '/' ∉ "uuid-idshifds-fks".data
      ∧ ∃ u, ParseRequestURI (fun a => some a)
          "https://tharvey-keyvault.managedhsm.azure.net///RoleDefinition/uuid-idshifds-fks".data
            = some u
        ∧ ("uuid-idshifds-fks".data = [] ↔
            (TrimSuffix (TrimPrefix u.Path "/".data) "/".data).getLast? = some '/') :=
  role_definition_scope_is_nonempty (fun a => some a)
    "https://tharvey-keyvault.managedhsm.azure.net///RoleDefinition/uuid-idshifds-fks".data
    ⟨"https://tharvey-keyvault.managedhsm.azure.net/".data, "/".data, "uuid-idshifds-fks".data⟩
    rfl

/-- C17. A wholly absent resource group is reported as a missing element: for every input
on which `resourceids.ParseAzureResourceID` succeeds with a non-empty
`SubscriptionID` and an empty `ResourceGroup`, both parsers fail with the
message `ID was missing the 'resourceGroups' element`, whatever else the input
holds. -/
theorem missing_resource_group_is_reported (pa : GoString → Option GoString)
    (o₁ o₂ : RangeOrder) (input : GoString) (id : ResourceID)
    (hid : ParseAzureResourceID pa input = .ok id) (hsub : id.SubscriptionID ≠ [])
    (hrg : id.ResourceGroup = []) :
    ParsePrivateEndpointConnectionID pa input
        = .error (.msg "ID was missing the 'resourceGroups' element")
      ∧ ParsePrivateEndpointConnectionIDInsensitively pa o₁ o₂ input
        = .error (.msg "ID was missing the 'resourceGroups' element") := by
  constructor
  · simp [ParsePrivateEndpointConnectionID, hid, hsub, hrg]
  · simp [ParsePrivateEndpointConnectionIDInsensitively, hid, hsub, hrg]

/-- C17 at an input that has no resource group. -/
theorem missing_resource_group_is_reported_witness :
    ParsePrivateEndpointConnectionID (fun a => some a) "/subscriptions/sub1/".data
        = .error (.msg "ID was missing the 'resourceGroups' element")
      ∧ ParsePrivateEndpointConnectionIDInsensitively (fun a => some a) .asStored .reversed
          "/subscriptions/sub1/".data
        = .error (.msg "ID was missing the 'resourceGroups' element") :=
  missing_resource_group_is_reported (fun a => some a) .asStored .reversed
    "/subscriptions/sub1/".data ⟨"sub1".data, [], [], [], []⟩ rfl (by decide) rfl

/-- C18. Ambiguous labels are never guessed: for every input whose path contains two
distinct keys that are both case-insensitively equal to the same literal label
(`managedHSMs` or `privateEndpointConnections`),
`ParsePrivateEndpointConnectionIDInsensitively` returns an error, in whatever
order its loops visit the map. -/
theorem ambiguous_labels_are_rejected (pa : GoString → Option GoString) (o₁ o₂ : RangeOrder)
    (S : GoString) (idURL : URL) (a b label : GoString)
    (hurl : ParseRequestURI pa S = some idURL)
    (ha : a ∈ pairKeys (splitSlash (trimmedPath idURL)))
    (hb : b ∈ pairKeys (splitSlash (trimmedPath idURL))) (hab : a ≠ b)
    (hl : label = "managedHSMs".data ∨ label = "privateEndpointConnections".data)
    (hfa : EqualFold a label = true) (hfb : EqualFold b label = true) :
    ∃ e, ParsePrivateEndpointConnectionIDInsensitively pa o₁ o₂ S = .error e := by
  apply exists_error_of_not_ok
  intro I hI
  obtain ⟨id, k₁, k₂, hid, -, -, hf₁, hf₂, -, -, -, -, hfin, -, -⟩ :=
    insensitive_ok_pops pa o₁ o₂ S I hI
  have hkeep : ∀ k, k ∈ pairKeys (splitSlash (trimmedPath idURL)) → EqualFold k label = true →
      k ∈ id.Path.keys := by
    intro k hk hf
    have ne : ∀ l : GoString, EqualFold l label = false → k ≠ l :=
      fun l hl e => by rw [e, hl] at hf; cases hf
    rcases hl with rfl | rfl
    · exact library_keeps_keys pa S id idURL hurl hid k hk (ne _ (by decide)) (ne _ (by decide))
        (ne _ (by decide)) (ne _ (by decide))
    · exact library_keeps_keys pa S id idURL hurl hid k hk (ne _ (by decide)) (ne _ (by decide))
        (ne _ (by decide)) (ne _ (by decide))
  have hone : ∀ k, k ∈ id.Path.keys → EqualFold k label = true →
      k = if label = "managedHSMs".data then k₁ else k₂ := by
    intro k hk hf
    rcases hl with rfl | rfl
    · rw [if_pos rfl]
      rcases GoMap.keys_subset_of_delete_nil hfin k hk with e | e
      · exact e
      · have := EqualFold_length _ _ _ hf (e ▸ hf₂)
        simp at this
    · rw [if_neg (by decide)]
      rcases GoMap.keys_subset_of_delete_nil hfin k hk with e | e
      · have := EqualFold_length _ _ _ hf (e ▸ hf₁)
        simp at this
      · exact e
  exact hab ((hone a (hkeep a ha hfa) hfa).trans (hone b (hkeep b hb hfb) hfb).symm)

/-- C18 at an input with the two keys `managedHSMs` and `MANAGEDHSMS`. -/
theorem ambiguous_labels_are_rejected_witness :
    ∃ e, ParsePrivateEndpointConnectionIDInsensitively (fun a => some a) .asStored .reversed
      "/subscriptions/s/resourceGroups/g/providers/Microsoft.KeyVault/managedHSMs/h/MANAGEDHSMS/i/privateEndpointConnections/n".data
        = .error e :=
  ambiguous_labels_are_rejected (fun a => some a) .asStored .reversed
    "/subscriptions/s/resourceGroups/g/providers/Microsoft.KeyVault/managedHSMs/h/MANAGEDHSMS/i/privateEndpointConnections/n".data
    ⟨[], [], [],
      "/subscriptions/s/resourceGroups/g/providers/Microsoft.KeyVault/managedHSMs/h/MANAGEDHSMS/i/privateEndpointConnections/n".data,
      []⟩
    "managedHSMs".data "MANAGEDHSMS".data "managedHSMs".data rfl (by decide) (by decide)
    (by decide) (Or.inl rfl) (by decide) (by decide)

/-- C19. Determinism of the insensitive parser: for every input, the outcome of
`ParsePrivateEndpointConnectionIDInsensitively`, success with a particular
identifier or failure, is the same for every order in which its two loops
visit the map `id.Path`. -/
theorem insensitive_outcome_is_order_independent (pa : GoString → Option GoString)
    (o₁ o₂ o₁' o₂' : RangeOrder) (S : GoString) :
    (ParsePrivateEndpointConnectionIDInsensitively pa o₁ o₂ S).toOption
      = (ParsePrivateEndpointConnectionIDInsensitively pa o₁' o₂' S).toOption := by
  have key : ∀ (a₁ a₂ b₁ b₂ : RangeOrder) (I : PrivateEndpointConnectionId),
      ParsePrivateEndpointConnectionIDInsensitively pa a₁ a₂ S = .ok I →
      ParsePrivateEndpointConnectionIDInsensitively pa b₁ b₂ S = .ok I := by
    intro a₁ a₂ b₁ b₂ I h
    obtain ⟨id, k₁, k₂, hid, hsub, hrg, hf₁, hf₂, hg₁, hne₁, hg₂, hne₂, hfin, e₁, e₂⟩ :=
      insensitive_ok_pops pa a₁ a₂ S I h
    have := insensitive_of_pops pa b₁ b₂ S id k₁ k₂ _ _ hid hsub hrg hf₁ hf₂ hg₁ hne₁ hg₂ hne₂
      hfin
    rw [this, ← e₁, ← e₂]
  cases h : ParsePrivateEndpointConnectionIDInsensitively pa o₁ o₂ S with
  | ok I => rw [key o₁ o₂ o₁' o₂' I h]
  | error e =>
    cases h' : ParsePrivateEndpointConnectionIDInsensitively pa o₁' o₂' S with
    | ok I =>
      rw [key o₁' o₂' o₁ o₂ I h'] at h
      cases h
    | error e' => rfl

/-- C20. For every `ManagedHSMRoleDefinitionId` `n`, `n.ID()` is
`trimOneTrailingSlash(trimOneTrailingSlash(n.VaultBaseUrl) ++ "/" ++ n.Scope ++
"/RoleDefinition/" ++ n.Name)`, where `trimOneTrailingSlash` removes at most one
final slash; so every `ID()` holds the substring `/RoleDefinition`; and
`n.String()` equals `n.ID()`. -/
theorem roleDefinition_ID_format (n : ManagedHSMRoleDefinitionId) :
    n.ID = trimOneTrailingSlash (trimOneTrailingSlash n.VaultBaseUrl ++ "/".data ++ n.Scope
        ++ "/RoleDefinition/".data ++ n.Name)
      ∧ "/RoleDefinition".data <:+: n.ID
      ∧ n.String = n.ID := by
  refine ⟨roleDefinition_ID_eq n, ?_, rfl⟩
  rw [roleDefinition_ID_eq]
  have e : trimOneTrailingSlash n.VaultBaseUrl ++ "/".data ++ n.Scope ++ "/RoleDefinition/".data
      ++ n.Name
      = (trimOneTrailingSlash n.VaultBaseUrl ++ "/".data ++ n.Scope ++ "/RoleDefinition".data)
        ++ '/' :: n.Name := by simp
  rw [e]
  obtain ⟨t', ht'⟩ := trimOneTrailingSlash_append_cons
    (trimOneTrailingSlash n.VaultBaseUrl ++ "/".data ++ n.Scope ++ "/RoleDefinition".data) '/'
    n.Name
  rw [ht']
  exact ⟨trimOneTrailingSlash n.VaultBaseUrl ++ "/".data ++ n.Scope, t', by simp⟩

/-! ## Properties of the formatter of the role definition ID, of the validation of a feature
ID, and of the component version -/

/-- C21. The rendered role definition ID does not depend on whether the base URL carries a
trailing slash: for every string `u` not ending in a slash, and all strings
`scope` and `name`, the `ID()` of the identifier with `VaultBaseUrl` `u ++ "/"`
equals the `ID()` of the identifier with `VaultBaseUrl` `u`. -/
theorem ID_ignores_trailing_slash_of_vault (u scope name : GoString)
    (hu : u.getLast? ≠ some '/') :
    ManagedHSMRoleDefinitionId.ID ⟨u ++ "/".data, scope, name⟩
      = ManagedHSMRoleDefinitionId.ID ⟨u, scope, name⟩ := by
  have e₁ : TrimSuffix (u ++ "/".data) "/".data = u := TrimSuffix_append_slash u
  have e₂ : TrimSuffix u "/".data = u := TrimSuffix_of_getLast? u hu
  unfold ManagedHSMRoleDefinitionId.ID
  simp only [e₁, e₂]

/-- C21 at the vault of the example in the source. -/
theorem ID_ignores_trailing_slash_of_vault_witness :
    ManagedHSMRoleDefinitionId.ID
        ⟨"https://tharvey-keyvault.managedhsm.azure.net".data ++ "/".data, "/".data,
          "uuid-idshifds-fks".data⟩
      = ManagedHSMRoleDefinitionId.ID
        ⟨"https://tharvey-keyvault.managedhsm.azure.net".data, "/".data,
          "uuid-idshifds-fks".data⟩ :=
  ID_ignores_trailing_slash_of_vault "https://tharvey-keyvault.managedhsm.azure.net".data
    "/".data "uuid-idshifds-fks".data (by decide)

/-- C22. `AppConfigurationFeatureID(input, key)` never returns warnings and returns at most
one error.  When `input` is not a string it returns exactly one error, built
from the format `expected %q to be a string` and `key`, whatever the parser is.
When `input` is a string `v` it returns no error exactly when
`parse.FeatureId(v)` succeeds, and otherwise the list that holds the error of
the parser, unchanged. -/
theorem AppConfigurationFeatureID_results {ε α : Type} (FeatureId : GoString → Except ε α)
    (input : GoAny) (key : GoString) :
    (AppConfigurationFeatureID FeatureId input key).1 = []
      ∧ (AppConfigurationFeatureID FeatureId input key).2.length ≤ 1
      ∧ ((∀ v, input ≠ .string v) →
          (AppConfigurationFeatureID FeatureId input key).2
            = [.errorf "expected %q to be a string".data [key]])
      ∧ ∀ v, input = .string v →
          ((AppConfigurationFeatureID FeatureId input key).2 = [] ↔ ∃ id, FeatureId v = .ok id)
          ∧ ∀ err, FeatureId v = .error err →
              (AppConfigurationFeatureID FeatureId input key).2 = [.returned err] := by
  have hstr : ∀ v, AppConfigurationFeatureID FeatureId (.string v) key
      = match FeatureId v with
        | .error err => ([], [.returned err])
        | .ok _ => ([], []) := by
    intro v
    simp only [AppConfigurationFeatureID, GoAny.assertString, List.nil_append]
  have hother : (∀ v, input ≠ .string v) → AppConfigurationFeatureID FeatureId input key
      = ([], [.errorf "expected %q to be a string".data [key]]) := by
    intro h
    cases input with
    | string v => exact absurd rfl (h v)
    | _ => rfl
  have hcase : (∃ v, input = .string v) ∨ ∀ v, input ≠ .string v := by
    cases input with
    | string v => exact Or.inl ⟨v, rfl⟩
    | _ => exact Or.inr fun v h => by cases h
  refine ⟨?_, ?_, fun h => by rw [hother h], ?_⟩
  · rcases hcase with ⟨v, rfl⟩ | h
    · rw [hstr]
      cases FeatureId v <;> rfl
    · rw [hother h]
  · rcases hcase with ⟨v, rfl⟩ | h
    · rw [hstr]
      cases FeatureId v <;> simp
    · rw [hother h]
      simp
  · rintro v rfl
    rw [hstr]
    cases hf : FeatureId v with
    | error e =>
      refine ⟨?_, ?_⟩
      · simp
      · intro err herr
        cases herr
        rfl
    | ok id =>
      refine ⟨?_, ?_⟩
      · simp
      · intro err herr
        cases herr

/-- C23. Expand and flatten of the component version: for every string `v`,
`expandHDInsightInteractiveQueryComponentVersion` returns a map on the list that
holds the one map from `interactive_hive` to `v`, and
`flattenHDInsightInteractiveQueryComponentVersion` applied to that map, its
values taken by reference, returns the list that holds that one map.  For every
input map, flatten returns exactly one element, a map with the one key
`interactive_hive`, whose value is the empty string when the key
`InteractiveHive` is absent or maps to nil. -/
theorem component_version_roundtrip :
    (∀ v : GoString, ∃ m,
        expandHDInsightInteractiveQueryComponentVersion
            [.map [("interactive_hive".data, .string v)]] = some m
          ∧ flattenHDInsightInteractiveQueryComponentVersion (byReference m)
            = [.map [("interactive_hive".data, .string v)]])
      ∧ (∀ input : PtrMap, ∃ s,
          flattenHDInsightInteractiveQueryComponentVersion input
            = [.map [("interactive_hive".data, .string s)]])
      ∧ ∀ input : PtrMap,
          (input.get? "InteractiveHive".data = none
              ∨ input.get? "InteractiveHive".data = some none) →
            flattenHDInsightInteractiveQueryComponentVersion input
              = [.map [("interactive_hive".data, .string [])]] := by
  refine ⟨fun v => ⟨[("InteractiveHive".data, v)], rfl, rfl⟩, fun input => ⟨_, rfl⟩, ?_⟩
  intro input h
  unfold flattenHDInsightInteractiveQueryComponentVersion
  rcases h with h | h <;> rw [h]

end AzureRM
